import Mathlib

/-!
Verification development for the structural diff / patch-replay engine of
`uxar` (`src/uxar/src/db/migrations.rs`).

Modelling conventions (shallow embedding):
* The fixed-seed 64-bit `StableHasher` is modelled by its input transcript: a
  key is the list of strings written to the hasher, in order (`Key := List
  String`).  The engine only ever compares keys for equality, and the spec
  (§4.1, §9) requires any deterministic, collision-resistant hash, so the
  transcript is the canonical such hash.
* Rust's `HashMap` values (`attrs`, `last_state`, `current_state`,
  `modifications`) are modelled as association lists with map semantics
  (first-occurrence lookup, replace-on-insert); the engine never observes
  their iteration order except where noted in comments.
* `&mut`-style loops (`load_state`, `delete_subtree`) are modelled as
  functions returning `Option DiffError ×` the final state, so that mutations
  surviving an error are visible, exactly as in the Rust code.  Loops over
  work queues / stacks carry an explicit fuel argument; the callers pass a
  fuel that is proved sufficient for every input (loads) or for every state
  reachable through the public API (delete, diff).
* Rust's `Vec::sort` on `Vec<String>` is modelled by an insertion sort over a
  total order on strings (pointwise on unicode scalar values); any sort
  produces the same output, so the choice is immaterial.
-/

namespace Uxar

/-! ### A total, antisymmetric, computable order on strings -/

/-- Total order on characters via their unicode scalar value. -/
def charLeB (a b : Char) : Bool := a.val.toNat ≤ b.val.toNat

/-- Lexicographic order on char lists. -/
def charListLe : List Char → List Char → Bool
  | [], _ => true
  | _ :: _, [] => false
  | a :: as, b :: bs =>
    if a.val.toNat < b.val.toNat then true
    else if b.val.toNat < a.val.toNat then false
    else charListLe as bs

/-- Total order on strings, models the order used by Rust's `Vec::sort`. -/
def strLe (a b : String) : Bool := charListLe a.data b.data

theorem charListLe_total : ∀ a b, charListLe a b = true ∨ charListLe b a = true
  | [], _ => by left; rfl
  | _ :: _, [] => by right; rfl
  | a :: as, b :: bs => by
    rcases Nat.lt_trichotomy a.val.toNat b.val.toNat with h | h | h
    · left; simp [charListLe, h]
    · rcases charListLe_total as bs with ih | ih
      · left; simp [charListLe, h, ih]
      · right; simp [charListLe, h.symm, ih]
    · right; simp [charListLe, h]

theorem charListLe_antisymm : ∀ a b, charListLe a b = true → charListLe b a = true → a = b
  | [], [] => by intro _ _; rfl
  | [], _ :: _ => by intro _ h; exact absurd h (by simp [charListLe])
  | _ :: _, [] => by intro h _; exact absurd h (by simp [charListLe])
  | a :: as, b :: bs => by
    intro h1 h2
    rcases Nat.lt_trichotomy a.val.toNat b.val.toNat with h | h | h
    · exact absurd h2 (by simp [charListLe, h, Nat.not_lt.mpr (Nat.le_of_lt h)])
    · have ha : a = b := Char.ext (UInt32.ext h)
      subst ha
      have h1' : charListLe as bs = true := by
        simpa [charListLe] using h1
      have h2' : charListLe bs as = true := by
        simpa [charListLe] using h2
      rw [charListLe_antisymm as bs h1' h2']
    · exact absurd h1 (by simp [charListLe, h, Nat.not_lt.mpr (Nat.le_of_lt h)])

theorem charListLe_trans : ∀ a b c, charListLe a b = true → charListLe b c = true →
    charListLe a c = true
  | [], _, _ => by intro _ _; rfl
  | _ :: _, [], _ => by intro h _; exact absurd h (by simp [charListLe])
  | _ :: _, _ :: _, [] => by intro _ h; exact absurd h (by simp [charListLe])
  | a :: as, b :: bs, c :: cs => by
    intro h1 h2
    rcases Nat.lt_trichotomy a.val.toNat b.val.toNat with hab | hab | hab <;>
      rcases Nat.lt_trichotomy b.val.toNat c.val.toNat with hbc | hbc | hbc
    · simp [charListLe, Nat.lt_trans hab hbc]
    · simp [charListLe, hbc ▸ hab]
    · exact absurd h2 (by simp [charListLe, hbc, Nat.not_lt.mpr (Nat.le_of_lt hbc)])
    · have hac : a.val.toNat < c.val.toNat := by omega
      simp [charListLe, hac]
    · have h1' : charListLe as bs = true := by simpa [charListLe, hab] using h1
      have h2' : charListLe bs cs = true := by simpa [charListLe, hbc] using h2
      have hac : a.val.toNat = c.val.toNat := hab.trans hbc
      simp [charListLe, hac, charListLe_trans as bs cs h1' h2']
    · exact absurd h2 (by simp [charListLe, hbc, Nat.not_lt.mpr (Nat.le_of_lt hbc)])
    · exact absurd h1 (by simp [charListLe, hab, Nat.not_lt.mpr (Nat.le_of_lt hab)])
    · exact absurd h1 (by simp [charListLe, hab, Nat.not_lt.mpr (Nat.le_of_lt hab)])
    · exact absurd h1 (by simp [charListLe, hab, Nat.not_lt.mpr (Nat.le_of_lt hab)])

theorem strLe_total (a b : String) : strLe a b = true ∨ strLe b a = true :=
  charListLe_total a.data b.data

theorem strLe_antisymm {a b : String} (h1 : strLe a b = true) (h2 : strLe b a = true) :
    a = b := by
  have := charListLe_antisymm a.data b.data h1 h2
  cases a; cases b; simp_all

theorem strLe_trans {a b c : String} (h1 : strLe a b = true) (h2 : strLe b c = true) :
    strLe a c = true :=
  charListLe_trans a.data b.data c.data h1 h2

/-- Insert a string into a sorted list, keeping it sorted. -/
def insertMorted (x : String) : List String → List String
  | [] => [x]
  | y :: ys => if strLe x y then x :: y :: ys else y :: insertMorted x ys

/-- Insertion sort; models `keys.sort()` in `Entity::identity_key`. -/
def sortStrings : List String → List String
  | [] => []
  | x :: xs => insertMorted x (sortStrings xs)

theorem insertMorted_perm (x : String) :
    ∀ l : List String, List.Perm (insertMorted x l) (x :: l)
  | [] => List.Perm.refl _
  | y :: ys => by
    by_cases h : strLe x y
    · simp [insertMorted, h]
    · simp only [insertMorted, if_neg h]
      exact ((insertMorted_perm x ys).cons y).trans (List.Perm.swap x y ys)

theorem sortStrings_perm : ∀ l : List String, List.Perm (sortStrings l) l
  | [] => List.Perm.refl _
  | x :: xs =>
    (insertMorted_perm x (sortStrings xs)).trans ((sortStrings_perm xs).cons x)

theorem insertMorted_sorted (x : String) :
    ∀ l : List String, l.Sorted (fun a b => strLe a b = true) →
      (insertMorted x l).Sorted (fun a b => strLe a b = true)
  | [], _ => by simp [insertMorted]
  | y :: ys, h => by
    rcases List.sorted_cons.mp h with ⟨hy, hys⟩
    by_cases hxy : strLe x y
    · simp only [insertMorted, if_pos hxy]
      refine List.sorted_cons.mpr ⟨?_, h⟩
      intro b hb
      rcases List.mem_cons.mp hb with hb | hb
      · exact hb ▸ hxy
      · exact strLe_trans hxy (hy b hb)
    · simp only [insertMorted, if_neg hxy]
      have hyx : strLe y x = true := by
        rcases strLe_total x y with h' | h'
        · exact absurd h' hxy
        · exact h'
      refine List.sorted_cons.mpr ⟨?_, insertMorted_sorted x ys hys⟩
      intro b hb
      have hb' : b ∈ x :: ys := (insertMorted_perm x ys).mem_iff.mp hb
      rcases List.mem_cons.mp hb' with hb2 | hb2
      · exact hb2 ▸ hyx
      · exact hy b hb2

theorem sortStrings_sorted : ∀ l : List String,
    (sortStrings l).Sorted (fun a b => strLe a b = true)
  | [] => by simp [sortStrings]
  | x :: xs => insertMorted_sorted x (sortStrings xs) (sortStrings_sorted xs)

instance : IsAntisymm String (fun a b => strLe a b = true) :=
  ⟨fun _ _ h1 h2 => strLe_antisymm h1 h2⟩

/-- Sorting is a function of the multiset of elements: permuted inputs sort
to the same list. -/
theorem sortStrings_eq_of_perm {l₁ l₂ : List String} (h : List.Perm l₁ l₂) :
    sortStrings l₁ = sortStrings l₂ :=
  List.eq_of_perm_of_sorted
    ((sortStrings_perm l₁).trans (h.trans (sortStrings_perm l₂).symm))
    (sortStrings_sorted l₁) (sortStrings_sorted l₂)

/-! ### Keys and errors -/

/-- A 64-bit stable hash, modelled by the transcript of strings written to
the hasher (spec §4.1: deterministic, collision-resistant). -/
abbrev Key := List String

/-- `DiffError` from `migrations.rs`. -/
inductive DiffError where
  | DuplicateEntity (name role : String)
  | MissingFromArena (id : Nat)
  | EntityNotFound (name role : String)
deriving DecidableEq

/-! ### Entity -/

/-- `Entity` from `migrations.rs`: a named, typed node with string attributes,
ordered extras and child entities. -/
inductive Entity where
  | mk (name role type_name : String) (attrs : List (String × String))
       (extras : List String) (children : List Entity)

def Entity.name : Entity → String | .mk n _ _ _ _ _ => n
def Entity.role : Entity → String | .mk _ r _ _ _ _ => r
def Entity.type_name : Entity → String | .mk _ _ t _ _ _ => t
def Entity.attrs : Entity → List (String × String) | .mk _ _ _ a _ _ => a
def Entity.extras : Entity → List String | .mk _ _ _ _ x _ => x
def Entity.children : Entity → List Entity | .mk _ _ _ _ _ c => c

/-- Replace the children (models `mem::swap` draining `children` in
`load_state`, and the recursive refill in `fill_entity_children`). -/
def Entity.withChildren : Entity → List Entity → Entity
  | .mk n r t a x _, c => .mk n r t a x c

/-- Replace the name (models `diffable.entity.name = n` in `patch(Modify)`). -/
def Entity.withName : Entity → String → Entity
  | .mk _ r t a x c, n => .mk n r t a x c

/-- Replace the type name. -/
def Entity.withTypeName : Entity → String → Entity
  | .mk n r _ a x c, t => .mk n r t a x c

/-- Replace the attrs. -/
def Entity.withAttrs : Entity → List (String × String) → Entity
  | .mk n r t _ x c, a => .mk n r t a x c

/-- Replace the extras. -/
def Entity.withExtras : Entity → List String → Entity
  | .mk n r t a _ c, x => .mk n r t a x c

/-! #### Hash maps (Rust `StableHashMap<K, V>`), as association lists -/

variable {κ : Type} {ν : Type} [DecidableEq κ]

/-- First-occurrence lookup (a `HashMap` holds each key once). -/
def lookupM (m : List (κ × ν)) (k : κ) : Option ν :=
  match m with
  | [] => none
  | p :: ps => if p.1 = k then some p.2 else lookupM ps k

/-- `contains_key`. -/
def containsM (m : List (κ × ν)) (k : κ) : Bool :=
  match m with
  | [] => false
  | p :: ps => if p.1 = k then true else containsM ps k

/-- `HashMap::insert`: replace the binding if present, else add it. -/
def insertM (m : List (κ × ν)) (k : κ) (v : ν) : List (κ × ν) :=
  match m with
  | [] => [(k, v)]
  | p :: ps => if p.1 = k then (k, v) :: ps else p :: insertM ps k v

/-- `HashMap::remove`. -/
def removeM (m : List (κ × ν)) (k : κ) : List (κ × ν) :=
  m.filter (fun p => p.1 ≠ k)

/-! #### Key derivation (`Entity::make_name_key`, `role_key`, `type_key`,
`identity_key`) -/

/-- The separator literal from `Entity::identity_key`. -/
def sep : String := "|--|"

/-- `Entity::make_name_key(name, role)`: hash of name then role. -/
def make_name_key (name role : String) : Key := [name, role]

/-- `Entity::name_key`. -/
def Entity.name_key (e : Entity) : Key := make_name_key e.name e.role

/-- `Entity::role_key`. -/
def Entity.role_key (e : Entity) : Key := [e.role]

/-- `Entity::type_key`. -/
def Entity.type_key (e : Entity) : Key := [e.type_name]

/-- `Entity::identity_key`: hashes `type_name`, `role`, the attributes in
sorted key order, and the extras in their given order — name and children are
excluded.  The transcript mirrors the Rust `hash` calls one-to-one. -/
def Entity.identity_key (e : Entity) : Key :=
  [e.type_name, sep, e.role, sep]
  ++ (sortStrings (e.attrs.map Prod.fst)).flatMap
      (fun k => [k, sep, (lookupM e.attrs k).getD "", sep])
  ++ [sep]
  ++ e.extras.flatMap (fun x => [sep, x])
  ++ [sep]

/-! ### Entity sizes (used as loop fuel for the breadth-first load) -/

mutual
/-- Number of entities in a tree (the node itself plus all descendants). -/
def entitySize : Entity → Nat
  | .mk _ _ _ _ _ c => 1 + entityListSize c
/-- Number of entities in a forest. -/
def entityListSize : List Entity → Nat
  | [] => 0
  | e :: es => entitySize e + entityListSize es
end

/-! ### Diffable and the engine state -/

/-- `Diffable` from `migrations.rs`: an arena node wrapping one entity plus
its precomputed keys and integer parent/child links. -/
structure Diffable where
  index : Nat
  id : Key
  role_key : Key
  identity_key : Key
  type_key : Key
  parent_index : Option Nat
  children_indexes : List Nat
  entity : Entity

/-- `StableHashMap<u64, usize>`, an id-to-arena-index lookup table. -/
abbrev StateMap := List (Key × Nat)

/-- `DiffEngine` from `migrations.rs`. -/
structure DiffEngine where
  diffable_arena : List Diffable
  last_state : StateMap
  current_state : StateMap
  last_root_indexes : List Nat
  current_root_indexes : List Nat

/-- `DiffEngine::new()`. -/
def DiffEngine.new : DiffEngine :=
  { diffable_arena := []
    last_state := []
    current_state := []
    last_root_indexes := []
    current_root_indexes := [] }

/-! ### Load (`DiffEngine::load_state`) -/

/-- A work-queue item: `(optional parent index, entity)`. -/
abbrev QItem := Option Nat × Entity

/-- Total entity count of a work queue; one loop iteration is performed per
entity, so this is the exact fuel needed by `load_state`. -/
def queueSize (q : List QItem) : Nat :=
  match q with
  | [] => 0
  | it :: rest => entitySize it.2 + queueSize rest

/-- `arena.get_mut(p)` followed by `children_indexes.push(ix)`; a silent
no-op when `p` is out of range, exactly as the Rust `if let Some(parent)`. -/
def pushChild (arena : List Diffable) (p ix : Nat) : List Diffable :=
  match arena.get? p with
  | some d => arena.set p { d with children_indexes := d.children_indexes ++ [ix] }
  | none => arena

/-- The `Diffable` built for one dequeued entity in `load_state`: children
are drained (`mem::swap`) before the keys are computed, and the node starts
with no child links. -/
def loadNode (parent_index : Option Nat) (index : Nat) (ent : Entity) : Diffable :=
  let ent := ent.withChildren []
  { parent_index := parent_index
    index := index
    children_indexes := []
    id := ent.name_key
    type_key := ent.type_key
    identity_key := ent.identity_key
    role_key := ent.role_key
    entity := ent }

/-- `DiffEngine::load_state`: breadth-first flattening of a forest into the
arena.  The loop is modelled with explicit fuel counting the remaining
iterations; every caller passes `queueSize q`, which is exact (one iteration
per entity in the queue, including nested children).  On an error the
partially mutated arena, state map and root list are returned, as with Rust's
`&mut` arguments.  (`ent.name_key` ignores children, so draining the children
before or after the duplicate check is immaterial.) -/
def load_state : Nat → List QItem → List Diffable → StateMap → List Nat →
    Option DiffError × List Diffable × StateMap × List Nat
  | _, [], arena, st, roots => (none, arena, st, roots)
  | 0, _ :: _, arena, st, roots => (none, arena, st, roots)
  | fuel + 1, (parent_index, ent) :: rest, arena, st, roots =>
    let index := arena.length
    if containsM st ent.name_key then
      (some (.DuplicateEntity ent.name ent.role), arena, st, roots)
    else
      let st := insertM st ent.name_key index
      let arena := arena ++ [loadNode parent_index index ent]
      let roots := if parent_index.isNone then roots ++ [index] else roots
      let queue := rest ++ ent.children.map (fun c => (some index, c))
      let arena :=
        match parent_index with
        | some p => pushChild arena p index
        | none => arena
      load_state fuel queue arena st roots

/-- `DiffEngine::load_last_state`. -/
def DiffEngine.load_last_state (e : DiffEngine) (entities : List Entity) :
    Option DiffError × DiffEngine :=
  let q : List QItem := entities.map (fun n => (none, n))
  let r := load_state (queueSize q) q e.diffable_arena e.last_state e.last_root_indexes
  (r.1, { e with
            diffable_arena := r.2.1
            last_state := r.2.2.1
            last_root_indexes := r.2.2.2 })

/-- `DiffEngine::load_current_state`. -/
def DiffEngine.load_current_state (e : DiffEngine) (entities : List Entity) :
    Option DiffError × DiffEngine :=
  let q : List QItem := entities.map (fun n => (none, n))
  let r := load_state (queueSize q) q e.diffable_arena e.current_state e.current_root_indexes
  (r.1, { e with
            diffable_arena := r.2.1
            current_state := r.2.2.1
            current_root_indexes := r.2.2.2 })

/-! ### Patch values -/

/-- `Patch` from `migrations.rs` (fields in source order). -/
inductive Patch where
  | New (entity : Entity) (parent : Option (String × String))
  | Modify (extras : List String) (name role : String)
           (new_type_name new_name : Option String)
           (modifications : List (String × String)) (deletions : List String)
  | Delete (name role : String)

/-! ### Delete (`DiffEngine::delete_subtree`) -/

/-- The `while let Some(ix) = stack.pop()` loop of `delete_subtree`: removes
the id of every node of the detached subtree from `last_state`.  Children are
pushed in order onto the stack (head = top).  Fuel counts loop iterations;
`delete_subtree` passes `arena.length + 1`, sufficient for every engine
reachable through the public API (`removeIdLoop_spec`). -/
def removeIdLoop : Nat → List Nat → List Diffable → StateMap →
    Option DiffError × StateMap
  | _, [], _, st => (none, st)
  | 0, _ :: _, _, st => (none, st)
  | fuel + 1, ix :: stack, arena, st =>
    match arena.get? ix with
    | none => (some (.MissingFromArena ix), st)
    | some d => removeIdLoop fuel (d.children_indexes.reverse ++ stack) arena (removeM st d.id)

/-- `DiffEngine::delete_subtree`: detach the node from its parent's child
list (or from `last_root_indexes` if it is a root), then unregister the whole
subtree from `last_state`.  The arena itself never shrinks. -/
def DiffEngine.delete_subtree (e : DiffEngine) (index : Nat) :
    Option DiffError × DiffEngine :=
  match e.diffable_arena.get? index with
  | none => (some (.MissingFromArena index), e)
  | some d =>
    let e :=
      match d.parent_index with
      | some parent_index =>
        { e with diffable_arena :=
            match e.diffable_arena.get? parent_index with
            | some parent =>
              e.diffable_arena.set parent_index
                { parent with children_indexes :=
                    parent.children_indexes.filter (fun ix => ix ≠ index) }
            | none => e.diffable_arena }
      | none =>
        { e with last_root_indexes := e.last_root_indexes.filter (fun ix => ix ≠ index) }
    let r := removeIdLoop (e.diffable_arena.length + 1) [index] e.diffable_arena e.last_state
    (r.1, { e with last_state := r.2 })

/-! ### Patch replay (`DiffEngine::patch`) -/

/-- `DiffEngine::patch`: replays one patch against the `last` half.  The
`new_name.unwrap()` of the Rust `DuplicateEntity` branch is modelled by
`Option.getD ""`; the default is provably never used, since the guard forces
`new_name` to be `some`. -/
def DiffEngine.patch (e : DiffEngine) (op : Patch) : Option DiffError × DiffEngine :=
  match op with
  | .Delete name role =>
    let id := make_name_key name role
    match lookupM e.last_state id with
    | some index => e.delete_subtree index
    | none => (some (.EntityNotFound name role), e)
  | .Modify extras name role new_type_name new_name modifications deletions =>
    let id := make_name_key name role
    let new_id :=
      match new_name with
      | some n => make_name_key n role
      | none => id
    if containsM e.last_state new_id ∧ new_id ≠ id then
      (some (.DuplicateEntity (new_name.getD "") role), e)
    else
      -- `last_state.remove(&id)`: on a missing id the map is unchanged, so
      -- the not-found branch leaves the engine untouched.
      match lookupM e.last_state id with
      | none => (some (.EntityNotFound name role), e)
      | some index =>
        let st := removeM e.last_state id
        match e.diffable_arena.get? index with
        | none => (some (.MissingFromArena index), { e with last_state := st })
        | some d =>
          let ent := d.entity
          let ent := match new_name with | some n => ent.withName n | none => ent
          let ent := match new_type_name with | some t => ent.withTypeName t | none => ent
          let ent := ent.withAttrs
            (modifications.foldl (fun a kv => insertM a kv.1 kv.2) ent.attrs)
          let ent := ent.withAttrs (deletions.foldl (fun a k => removeM a k) ent.attrs)
          let ent := ent.withExtras extras
          let d' := { d with
                        entity := ent
                        id := ent.name_key
                        identity_key := ent.identity_key
                        type_key := ent.type_key }
          (none, { e with
                     diffable_arena := e.diffable_arena.set index d'
                     last_state := insertM st d'.id index })
  | .New entity parent =>
    match parent with
    | some (parent_name, parent_role) =>
      match lookupM e.last_state (make_name_key parent_name parent_role) with
      | some parent_index =>
        let q : List QItem := [(some parent_index, entity)]
        let r := load_state (queueSize q) q e.diffable_arena e.last_state e.last_root_indexes
        (r.1, { e with
                  diffable_arena := r.2.1
                  last_state := r.2.2.1
                  last_root_indexes := r.2.2.2 })
      | none => (some (.EntityNotFound parent_name parent_role), e)
    | none =>
      let q : List QItem := [(none, entity)]
      let r := load_state (queueSize q) q e.diffable_arena e.last_state e.last_root_indexes
      (r.1, { e with
                diffable_arena := r.2.1
                last_state := r.2.2.1
                last_root_indexes := r.2.2.2 })

/-! ### Diff (`DiffEngine::diff`) -/

/-- `DiffEngine::get_from_arena`. -/
def get_from_arena (arena : List Diffable) (index : Nat) : Except DiffError Diffable :=
  match arena.get? index with
  | some d => .ok d
  | none => .error (.MissingFromArena index)

/-- `DiffEngine::make_delete_patch` (never fails in the source either). -/
def make_delete_patch (last : Diffable) : Patch :=
  .Delete last.entity.name last.entity.role

/-- `DiffEngine::fill_entity_children`, restructured as "compute the filled
children of a node": builds each child entity with its own children filled in
recursively.  Fuel bounds the recursion depth; `diff` passes
`arena.length + 1`, sufficient whenever child indexes increase (as they do in
every reachable arena). -/
def fillChildren (arena : List Diffable) : Nat → List Nat → Except DiffError (List Entity)
  | 0, _ => .ok []
  | fuel + 1, ixs =>
    ixs.mapM (fun ix => do
      let child_diffable ← get_from_arena arena ix
      let sub ← fillChildren arena fuel child_diffable.children_indexes
      pure (child_diffable.entity.withChildren sub))

/-- `DiffEngine::make_create_patch`: a `New` patch carrying the entire
subtree and the `(name, role)` of the current parent, if any. -/
def make_create_patch (arena : List Diffable) (fuel : Nat) (current : Diffable) :
    Except DiffError Patch := do
  let parent ←
    match current.parent_index with
    | some p => do
      let parent_diffable ← get_from_arena arena p
      pure (some (parent_diffable.entity.name, parent_diffable.entity.role))
    | none => pure none
  let children ← fillChildren arena fuel current.children_indexes
  pure (.New (current.entity.withChildren children) parent)

/-- `DiffEngine::make_modify_patch` (never fails in the source either). -/
def make_modify_patch (current last : Diffable) : Patch :=
  let modifications :=
    current.entity.attrs.foldl
      (fun m kv =>
        if lookupM last.entity.attrs kv.1 ≠ some kv.2 then insertM m kv.1 kv.2 else m)
      []
  let deletions :=
    (last.entity.attrs.map Prod.fst).filter (fun k => ¬ containsM current.entity.attrs k)
  let new_name :=
    if current.entity.name ≠ last.entity.name then some current.entity.name else none
  let new_type_name :=
    if current.entity.type_name ≠ last.entity.type_name
    then some current.entity.type_name else none
  .Modify current.entity.extras last.entity.name last.entity.role
    new_type_name new_name modifications deletions

/-- One step of the first loop of `collect_patches` (over the current list):
match a current node against `last_state`, emitting a `Modify` on an identity
change and recursing into children (via `recurse`), or emit a `New` patch for
an unmatched node.  The accumulator carries the matched-last-index history and
the patches emitted so far. -/
def currentStep (e : DiffEngine)
    (recurse : List Nat → List Nat → Except DiffError (List Patch))
    (fillFuel : Nat) (acc : List Nat × List Patch) (cix : Nat) :
    Except DiffError (List Nat × List Patch) := do
  let current_diffable ← get_from_arena e.diffable_arena cix
  match lookupM e.last_state current_diffable.id with
  | some last_index => do
    let last_diffable ← get_from_arena e.diffable_arena last_index
    let ops :=
      if current_diffable.identity_key ≠ last_diffable.identity_key then
        acc.2 ++ [make_modify_patch current_diffable last_diffable]
      else acc.2
    let sub ← recurse current_diffable.children_indexes last_diffable.children_indexes
    pure (last_index :: acc.1, ops ++ sub)
  | none => do
    let node ← make_create_patch e.diffable_arena fillFuel current_diffable
    pure (acc.1, acc.2 ++ [node])

/-- One step of the second loop of `collect_patches` (over the last list):
skip matched nodes and nodes whose id still exists somewhere in
`current_state`; emit a `Delete` for the rest. -/
def delStep (e : DiffEngine) (history : List Nat) (dels : List Patch) (lix : Nat) :
    Except DiffError (List Patch) := do
  if lix ∈ history then
    pure dels
  else do
    let last_diffable ← get_from_arena e.diffable_arena lix
    if containsM e.current_state last_diffable.id then
      pure dels
    else
      pure (dels ++ [make_delete_patch last_diffable])

/-- The second loop of `collect_patches`. -/
def deletePass (e : DiffEngine) (history : List Nat) (last : List Nat) :
    Except DiffError (List Patch) :=
  last.foldlM (delStep e history) []

/-- `DiffEngine::collect_patches`: walk the current list against the last
list, recursing into matched children.  Patches are returned in emission
order (a matched node's `Modify` first, then its children's patches, then the
level's `Delete`s in last-list order).  Fuel bounds the recursion depth;
`diff` passes `arena.length + 1`. -/
def collectPatches (e : DiffEngine) : Nat → List Nat → List Nat →
    Except DiffError (List Patch)
  | 0, _, _ => .ok []
  | fuel + 1, current, last => do
    let acc ← current.foldlM (currentStep e (collectPatches e fuel) fuel) ([], [])
    let dels ← deletePass e acc.1 last
    pure (acc.2 ++ dels)

/-- `DiffEngine::diff`: pure, read-only comparison of the two root lists. -/
def DiffEngine.diff (e : DiffEngine) : Except DiffError (List Patch) :=
  collectPatches e (e.diffable_arena.length + 1)
    e.current_root_indexes e.last_root_indexes

/-! ### Concrete fixtures (mirroring the source's `create_entity` test data) -/

/-- The `users` table of the source tests. -/
def entUsers : Entity := .mk "users" "table" "table" [("columns", "id,name,email")] [] []

/-- `users` renamed to `new_users`, same attrs (spec §8 rename example). -/
def entNewUsers : Entity :=
  .mk "new_users" "table" "table" [("columns", "id,name,email")] [] []

-- sanity anchors replicating the source tests
example : ((DiffEngine.new.load_last_state [entUsers]).2.load_current_state
    [entUsers]).2.diff = .ok [] := by rfl

example : (DiffEngine.new.load_last_state [entUsers]).2.last_state.length = 1 := by rfl

example : ((DiffEngine.new.load_last_state [entUsers]).2.load_current_state
    [entNewUsers]).2.diff
    = .ok [.New entNewUsers none, .Delete "users" "table"] := by rfl

/-! ## Lemma layer: association-list maps -/

section MapLemmas

variable {κ : Type} {ν : Type} [DecidableEq κ]

@[simp] theorem lookupM_nil {k : κ} : lookupM ([] : List (κ × ν)) k = none := rfl

@[simp] theorem lookupM_cons {p : κ × ν} {ps : List (κ × ν)} {k : κ} :
    lookupM (p :: ps) k = if p.1 = k then some p.2 else lookupM ps k := rfl

@[simp] theorem containsM_nil {k : κ} : containsM ([] : List (κ × ν)) k = false := rfl

@[simp] theorem containsM_cons {p : κ × ν} {ps : List (κ × ν)} {k : κ} :
    containsM (p :: ps) k = if p.1 = k then true else containsM ps k := rfl

theorem insertM_cons {p : κ × ν} {ps : List (κ × ν)} {k : κ} {v : ν} :
    insertM (p :: ps) k v = if p.1 = k then (k, v) :: ps else p :: insertM ps k v := rfl

theorem removeM_cons {p : κ × ν} {ps : List (κ × ν)} {k : κ} :
    removeM (p :: ps) k = if p.1 = k then removeM ps k else p :: removeM ps k := by
  rw [removeM, List.filter_cons]
  by_cases hp : p.1 = k
  · simp [hp, removeM]
  · simp [hp, removeM]

theorem containsM_iff_mem {m : List (κ × ν)} {k : κ} :
    containsM m k = true ↔ k ∈ m.map Prod.fst := by
  induction m with
  | nil => simp
  | cons p ps ih =>
    by_cases h : p.1 = k
    · simp [h]
    · simp [h, ih, Ne.symm h]

theorem containsM_eq_false_iff {m : List (κ × ν)} {k : κ} :
    containsM m k = false ↔ k ∉ m.map Prod.fst := by
  rw [← containsM_iff_mem, Bool.eq_false_iff]

theorem lookupM_eq_none_iff {m : List (κ × ν)} {k : κ} :
    lookupM m k = none ↔ k ∉ m.map Prod.fst := by
  induction m with
  | nil => simp
  | cons p ps ih =>
    by_cases h : p.1 = k
    · simp [h]
    · simp [h, ih, Ne.symm h]

theorem lookupM_isSome_iff {m : List (κ × ν)} {k : κ} :
    (lookupM m k).isSome = true ↔ k ∈ m.map Prod.fst := by
  rcases h : lookupM m k with _ | v
  · simpa using (lookupM_eq_none_iff).mp h
  · simp only [Option.isSome_some, true_iff]
    by_contra hk
    rw [← lookupM_eq_none_iff] at hk
    rw [h] at hk
    cases hk

theorem lookupM_mem {m : List (κ × ν)} {k : κ} {v : ν} (h : lookupM m k = some v) :
    (k, v) ∈ m := by
  induction m with
  | nil => cases h
  | cons p ps ih =>
    obtain ⟨a, b⟩ := p
    rw [lookupM_cons] at h
    by_cases hp : a = k
    · subst hp
      rw [if_pos rfl] at h
      injection h with h
      rw [← h]
      exact List.mem_cons_self _ _
    · rw [if_neg hp] at h
      exact List.mem_cons_of_mem _ (ih h)

theorem lookupM_eq_some_of_mem {m : List (κ × ν)} {k : κ} {v : ν}
    (hnd : (m.map Prod.fst).Nodup) (h : (k, v) ∈ m) : lookupM m k = some v := by
  induction m with
  | nil => cases h
  | cons p ps ih =>
    rw [List.map_cons, List.nodup_cons] at hnd
    rcases List.mem_cons.mp h with h | h
    · rw [← h]
      simp
    · have hp : p.1 ≠ k := by
        intro he
        refine hnd.1 ?_
        rw [he]
        exact List.mem_map.mpr ⟨(k, v), h, rfl⟩
      rw [lookupM_cons, if_neg hp]
      exact ih hnd.2 h

theorem lookupM_eq_of_perm {m m' : List (κ × ν)} (hnd : (m.map Prod.fst).Nodup)
    (hp : List.Perm m m') (k : κ) : lookupM m k = lookupM m' k := by
  have hnd' : (m'.map Prod.fst).Nodup := (hp.map Prod.fst).nodup_iff.mp hnd
  rcases h : lookupM m k with _ | v
  · have h1 : k ∉ m.map Prod.fst := lookupM_eq_none_iff.mp h
    have h2 : k ∉ m'.map Prod.fst := fun hc => h1 ((hp.map Prod.fst).mem_iff.mpr hc)
    exact (lookupM_eq_none_iff.mpr h2).symm
  · exact (lookupM_eq_some_of_mem hnd' (hp.mem_iff.mp (lookupM_mem h))).symm

theorem lookupM_append_left {m m' : List (κ × ν)} {k : κ} {v : ν}
    (h : lookupM m k = some v) : lookupM (m ++ m') k = some v := by
  induction m with
  | nil => cases h
  | cons p ps ih =>
    rw [lookupM_cons] at h
    rw [List.cons_append, lookupM_cons]
    by_cases hp : p.1 = k
    · rwa [if_pos hp] at h ⊢
    · rw [if_neg hp] at h ⊢
      exact ih h

theorem lookupM_append_right {m m' : List (κ × ν)} {k : κ}
    (h : k ∉ m.map Prod.fst) : lookupM (m ++ m') k = lookupM m' k := by
  induction m with
  | nil => rfl
  | cons p ps ih =>
    rw [List.map_cons, List.mem_cons] at h
    push_neg at h
    rw [List.cons_append, lookupM_cons, if_neg (fun he => h.1 he.symm)]
    exact ih h.2

theorem containsM_append {m m' : List (κ × ν)} {k : κ} :
    containsM (m ++ m') k = (containsM m k || containsM m' k) := by
  induction m with
  | nil => rfl
  | cons p ps ih =>
    rw [List.cons_append, containsM_cons, containsM_cons]
    by_cases hp : p.1 = k
    · rw [if_pos hp, if_pos hp]
      rfl
    · rw [if_neg hp, if_neg hp, ih]

theorem insertM_of_not_contains {m : List (κ × ν)} {k : κ} (v : ν)
    (h : k ∉ m.map Prod.fst) : insertM m k v = m ++ [(k, v)] := by
  induction m with
  | nil => rfl
  | cons p ps ih =>
    rw [List.map_cons, List.mem_cons] at h
    push_neg at h
    rw [insertM_cons, if_neg (fun he => h.1 he.symm), List.cons_append, ih h.2]

theorem removeM_of_not_contains {m : List (κ × ν)} {k : κ}
    (h : k ∉ m.map Prod.fst) : removeM m k = m := by
  rw [removeM, List.filter_eq_self]
  intro p hp
  simp only [ne_eq, decide_eq_true_eq]
  intro he
  exact h (List.mem_map.mpr ⟨p, hp, he⟩)

theorem lookupM_removeM {m : List (κ × ν)} {k k' : κ} (h : k' ≠ k) :
    lookupM (removeM m k) k' = lookupM m k' := by
  induction m with
  | nil => rfl
  | cons p ps ih =>
    rw [removeM_cons]
    by_cases hp : p.1 = k
    · rw [if_pos hp, ih, lookupM_cons,
        if_neg (fun he => h (by rw [← he, hp]))]
    · rw [if_neg hp, lookupM_cons, lookupM_cons]
      by_cases hk : p.1 = k'
      · rw [if_pos hk, if_pos hk]
      · rw [if_neg hk, if_neg hk, ih]

theorem lookupM_removeM_self {m : List (κ × ν)} {k : κ} :
    lookupM (removeM m k) k = none := by
  rw [lookupM_eq_none_iff]
  intro hmem
  rcases List.mem_map.mp hmem with ⟨p, hp, hfst⟩
  rcases List.mem_filter.mp hp with ⟨_, hne⟩
  simp only [ne_eq, decide_eq_true_eq] at hne
  exact hne hfst

theorem lookupM_insertM {m : List (κ × ν)} {k k' : κ} {v : ν} :
    lookupM (insertM m k v) k' = if k = k' then some v else lookupM m k' := by
  induction m with
  | nil =>
    by_cases h : k = k'
    · simp [insertM, h]
    · simp [insertM, h]
  | cons p ps ih =>
    rw [insertM_cons]
    by_cases hp : p.1 = k
    · rw [if_pos hp, lookupM_cons, lookupM_cons]
      by_cases h : k = k'
      · rw [if_pos h, if_pos h]
      · rw [if_neg h, if_neg h, if_neg (by rw [hp]; exact h)]
    · rw [if_neg hp, lookupM_cons, lookupM_cons]
      by_cases hk : p.1 = k'
      · rw [if_pos hk, if_pos hk,
          if_neg (fun he => hp (by rw [he, hk]))]
      · rw [if_neg hk, if_neg hk, ih]

theorem keys_insertM_of_not_contains {m : List (κ × ν)} {k : κ} (v : ν)
    (h : k ∉ m.map Prod.fst) :
    (insertM m k v).map Prod.fst = m.map Prod.fst ++ [k] := by
  rw [insertM_of_not_contains v h, List.map_append]
  rfl

theorem keys_removeM_sublist (m : List (κ × ν)) (k : κ) :
    ((removeM m k).map Prod.fst).Sublist (m.map Prod.fst) :=
  (List.filter_sublist m).map Prod.fst

theorem nodup_keys_removeM {m : List (κ × ν)} (k : κ)
    (h : (m.map Prod.fst).Nodup) : ((removeM m k).map Prod.fst).Nodup :=
  (keys_removeM_sublist m k).nodup h

theorem nodup_keys_insertM_of_not_contains {m : List (κ × ν)} {k : κ} (v : ν)
    (hk : k ∉ m.map Prod.fst) (h : (m.map Prod.fst).Nodup) :
    ((insertM m k v).map Prod.fst).Nodup := by
  rw [keys_insertM_of_not_contains v hk]
  refine List.Nodup.append h (List.nodup_singleton k) ?_
  intro a ha hb
  rw [List.mem_singleton] at hb
  rw [hb] at ha
  exact hk ha

theorem keys_removeM_not_mem (m : List (κ × ν)) (k : κ) :
    k ∉ (removeM m k).map Prod.fst := by
  intro hmem
  rcases List.mem_map.mp hmem with ⟨p, hp, hfst⟩
  rcases List.mem_filter.mp hp with ⟨_, hne⟩
  simp only [ne_eq, decide_eq_true_eq] at hne
  exact hne hfst

theorem mem_removeM {m : List (κ × ν)} {p : κ × ν} {k : κ}
    (h : p ∈ removeM m k) : p ∈ m :=
  (List.mem_filter.mp h).1

end MapLemmas

/-- Congruence for `flatMap` under pointwise-equal functions. -/
theorem flatMap_congr {α β : Type} {l : List α} {f g : α → List β}
    (h : ∀ x ∈ l, f x = g x) : l.flatMap f = l.flatMap g := by
  induction l with
  | nil => rfl
  | cons x xs ih =>
    rw [List.flatMap_cons, List.flatMap_cons, h x (by simp),
        ih (fun y hy => h y (List.mem_cons_of_mem _ hy))]

/-! ## C5: determinism of `name_key` and `identity_key` -/

/-- C5: (a) two entities with identical `(name, role)` have equal
`name_key`; (b) two entities with equal `role`, `type_name`, equal `attrs`
as key-to-value maps (any insertion order, i.e. any permutation of the
duplicate-free binding list) and equal `extras` have equal `identity_key`,
irrespective of their names and children. -/
theorem c5_key_determinism :
    (∀ e1 e2 : Entity, e1.name = e2.name → e1.role = e2.role →
      e1.name_key = e2.name_key) ∧
    (∀ e1 e2 : Entity, e1.role = e2.role → e1.type_name = e2.type_name →
      (e1.attrs.map Prod.fst).Nodup → List.Perm e1.attrs e2.attrs →
      e1.extras = e2.extras → e1.identity_key = e2.identity_key) := by
  constructor
  · intro e1 e2 hn hr
    rw [Entity.name_key, Entity.name_key, hn, hr]
  · intro e1 e2 hr ht hnd hp hx
    have hnd2 : (e2.attrs.map Prod.fst).Nodup := (hp.map Prod.fst).nodup_iff.mp hnd
    have hkeys : sortStrings (e1.attrs.map Prod.fst) = sortStrings (e2.attrs.map Prod.fst) :=
      sortStrings_eq_of_perm (hp.map Prod.fst)
    rw [Entity.identity_key, Entity.identity_key, hr, ht, hx, hkeys]
    have hlook : ∀ k ∈ sortStrings (e2.attrs.map Prod.fst),
        ([k, sep, (lookupM e1.attrs k).getD "", sep] : List String)
          = [k, sep, (lookupM e2.attrs k).getD "", sep] := by
      intro k _
      rw [show lookupM e1.attrs k = lookupM e2.attrs k from lookupM_eq_of_perm hnd hp k]
    rw [flatMap_congr hlook]

/-- Fixture for the C5 witness: permuted attrs, different name and children. -/
def entC5a : Entity := .mk "users" "table" "t" [("a", "1"), ("b", "2")] ["x"] []

/-- Fixture for the C5 witness. -/
def entC5b : Entity :=
  .mk "members" "table" "t" [("b", "2"), ("a", "1")] ["x"] [entUsers]

/-- Witness for C5 at concrete entities. -/
theorem c5_key_determinism_witness :
    entUsers.name_key = (Entity.mk "users" "table" "other" [] [] [entUsers]).name_key ∧
    entC5a.identity_key = entC5b.identity_key :=
  ⟨c5_key_determinism.1 _ _ rfl rfl,
   c5_key_determinism.2 entC5a entC5b rfl rfl (by decide) (by decide) rfl⟩

/-! ## C8: the `new_name.unwrap()` in `patch(Modify)` is safe -/

/-- C8: whenever `patch(Modify{..})` fails with `DuplicateEntity{name, role}`,
the reported name comes from `new_name` — i.e. `new_name` was `Some` — and
the role is the op's role, because the candidate new id can differ from the
old id only when `new_name` is `Some`.  The error value is always a returned
`DiffError`; no branch of the model (nor of the source) can panic here. -/
theorem c8_modify_duplicate_unwrap_safe
    (e : DiffEngine) (extras : List String) (name role : String)
    (ntn nn : Option String) (mods : List (String × String)) (dels : List String)
    (nm r : String) (e' : DiffEngine)
    (h : e.patch (.Modify extras name role ntn nn mods dels)
        = (some (.DuplicateEntity nm r), e')) :
    nn = some nm ∧ r = role := by
  cases nn with
  | none =>
    exfalso
    simp only [DiffEngine.patch] at h
    rw [if_neg (by simp)] at h
    split at h
    · simp_all
    · split at h <;> simp_all
  | some n =>
    simp only [DiffEngine.patch] at h
    by_cases hc : containsM e.last_state (make_name_key n role) = true
        ∧ make_name_key n role ≠ make_name_key name role
    · rw [if_pos hc] at h
      rw [Prod.mk.injEq] at h
      have h1 := h.1
      injection h1 with h1
      injection h1 with h1 h2
      exact ⟨by rw [← h1]; rfl, h2.symm⟩
    · exfalso
      rw [if_neg hc] at h
      split at h
      · simp_all
      · split at h <;> simp_all

/-- Witness for C8: a concrete engine where a rename-to-existing collides. -/
theorem c8_modify_duplicate_unwrap_safe_witness :
    (some "b" : Option String) = some "b" ∧ "r" = "r" :=
  c8_modify_duplicate_unwrap_safe
    { diffable_arena := []
      last_state := [(["b", "r"], 0), (["a", "r"], 1)]
      current_state := []
      last_root_indexes := []
      current_root_indexes := [] }
    [] "a" "r" none (some "b") [] [] "b" "r"
    { diffable_arena := []
      last_state := [(["b", "r"], 0), (["a", "r"], 1)]
      current_state := []
      last_root_indexes := []
      current_root_indexes := [] }
    (by rfl)

/-! ## C6: a last node whose id moved elsewhere in `current_state` is
silently skipped by the delete pass -/

theorem delStep_skip {e : DiffEngine} {lix : Nat}
    (hd : (e.diffable_arena.get? lix).map
        (fun d => containsM e.current_state d.id) = some true) :
    ∀ history dels, delStep e history dels lix = .ok dels := by
  intro history dels
  rcases hg : e.diffable_arena.get? lix with _ | d
  · rw [hg] at hd
    cases hd
  · rw [hg] at hd
    have hd' : containsM e.current_state d.id = true := by simpa using hd
    by_cases hh : lix ∈ history
    · rw [delStep, if_pos hh]
      rfl
    · rw [delStep, if_neg hh]
      show (get_from_arena e.diffable_arena lix >>= fun last_diffable =>
        if containsM e.current_state last_diffable.id = true then pure dels
        else pure (dels ++ [make_delete_patch last_diffable])) = .ok dels
      rw [get_from_arena, hg]
      show (if containsM e.current_state d.id = true then (pure dels : Except DiffError (List Patch))
        else pure (dels ++ [make_delete_patch d])) = .ok dels
      rw [if_pos hd']
      rfl

theorem foldlM_except_append {α β : Type} (f : β → α → Except DiffError β)
    (l₁ l₂ : List α) (b : β) :
    (l₁ ++ l₂).foldlM f b = (l₁.foldlM f b) >>= (fun b' => l₂.foldlM f b') := by
  induction l₁ generalizing b with
  | nil => rfl
  | cons x xs ih =>
    rw [List.cons_append, List.foldlM_cons, List.foldlM_cons]
    rcases hf : f b x with err | b'
    · rfl
    · show (xs ++ l₂).foldlM f b' = xs.foldlM f b' >>= fun c => l₂.foldlM f c
      exact ih b'

theorem deletePass_skip {e : DiffEngine} {lix : Nat} (history : List Nat)
    (l1 l2 : List Nat)
    (hd : (e.diffable_arena.get? lix).map
        (fun d => containsM e.current_state d.id) = some true) :
    deletePass e history (l1 ++ lix :: l2) = deletePass e history (l1 ++ l2) := by
  rw [deletePass, deletePass, foldlM_except_append, foldlM_except_append]
  rcases h1 : l1.foldlM (delStep e history) [] with err | mid
  · rfl
  · show (lix :: l2).foldlM (delStep e history) mid = l2.foldlM (delStep e history) mid
    rw [List.foldlM_cons, delStep_skip hd history mid]
    rfl

/-- C6: during `diff()`'s walk, a last-list node whose id is present anywhere
in `current_state` contributes no patch at its level — removing it from the
last list leaves the result of `collect_patches` unchanged (in particular
neither a `Modify` nor a `Delete` is emitted for it, whether or not it was
matched). -/
theorem c6_moved_last_node_skipped (e : DiffEngine) (fuel : Nat)
    (cur l1 l2 : List Nat) (lix : Nat)
    (hd : (e.diffable_arena.get? lix).map
        (fun d => containsM e.current_state d.id) = some true) :
    collectPatches e fuel cur (l1 ++ lix :: l2)
      = collectPatches e fuel cur (l1 ++ l2) := by
  cases fuel with
  | zero => rfl
  | succ fuel =>
    rw [collectPatches, collectPatches]
    rcases hF : cur.foldlM (currentStep e (collectPatches e fuel) fuel) ([], []) with err | acc
    · rfl
    · show (HAppend.hAppend acc.2 <$> deletePass e acc.1 (l1 ++ lix :: l2))
          = (HAppend.hAppend acc.2 <$> deletePass e acc.1 (l1 ++ l2))
      rw [deletePass_skip acc.1 l1 l2 hd]

/-- Fixtures for the C6 witness: `child` moves from under `parent1` (last) to
the root list (current). -/
def entChild : Entity := .mk "child" "column" "integer" [] [] []

/-- `parent1` with `child` nested, loaded as the last snapshot. -/
def entParent1 : Entity := .mk "parent1" "table" "table" [] [] [entChild]

/-- `parent2`, loaded (together with a root-level `child`) as current. -/
def entParent2 : Entity := .mk "parent2" "table" "table" [] [] []

/-- Engine for the C6 witness. -/
def engC6 : DiffEngine :=
  ((DiffEngine.new.load_last_state [entParent1]).2.load_current_state
    [entParent2, entChild]).2

/-- Witness for C6: the moved `child` (arena index 1, in the last tree) has
its id in `current_state`, and dropping it from a last list leaves the
outcome unchanged. -/
theorem c6_moved_last_node_skipped_witness :
    (engC6.diffable_arena.get? 1).map
        (fun d => containsM engC6.current_state d.id) = some true ∧
    collectPatches engC6 5 [] ([] ++ 1 :: []) = collectPatches engC6 5 [] ([] ++ []) :=
  ⟨by rfl, c6_moved_last_node_skipped engC6 5 [] [] [] 1 (by rfl)⟩

/-! ## C7: duplicate detection is scoped to the call's target state -/

@[simp] theorem Entity.withChildren_name (e : Entity) (c : List Entity) :
    (e.withChildren c).name = e.name := by cases e; rfl

@[simp] theorem Entity.withChildren_role (e : Entity) (c : List Entity) :
    (e.withChildren c).role = e.role := by cases e; rfl

@[simp] theorem Entity.withChildren_type_name (e : Entity) (c : List Entity) :
    (e.withChildren c).type_name = e.type_name := by cases e; rfl

@[simp] theorem Entity.withChildren_attrs (e : Entity) (c : List Entity) :
    (e.withChildren c).attrs = e.attrs := by cases e; rfl

@[simp] theorem Entity.withChildren_extras (e : Entity) (c : List Entity) :
    (e.withChildren c).extras = e.extras := by cases e; rfl

@[simp] theorem Entity.withChildren_children (e : Entity) (c : List Entity) :
    (e.withChildren c).children = c := by cases e; rfl

@[simp] theorem Entity.name_key_withChildren (e : Entity) (c : List Entity) :
    (e.withChildren c).name_key = e.name_key := by
  rw [Entity.name_key, Entity.name_key]
  simp

@[simp] theorem Entity.identity_key_withChildren (e : Entity) (c : List Entity) :
    (e.withChildren c).identity_key = e.identity_key := by
  rw [Entity.identity_key, Entity.identity_key]
  simp

mutual
/-- All `name_key`s of an entity tree, in preorder. -/
def entityKeys : Entity → List Key
  | .mk n r t a x c => make_name_key n r :: entityListKeys c
/-- All `name_key`s of a forest, in preorder. -/
def entityListKeys : List Entity → List Key
  | [] => []
  | e :: es => entityKeys e ++ entityListKeys es
end

theorem entityKeys_def (e : Entity) :
    entityKeys e = e.name_key :: entityListKeys e.children := by
  cases e
  rfl

theorem entityListKeys_append (l₁ l₂ : List Entity) :
    entityListKeys (l₁ ++ l₂) = entityListKeys l₁ ++ entityListKeys l₂ := by
  induction l₁ with
  | nil => rfl
  | cons e es ih =>
    rw [List.cons_append, entityListKeys, entityListKeys, ih, List.append_assoc]

theorem entitySize_def (e : Entity) :
    entitySize e = 1 + entityListSize e.children := by
  cases e
  rfl

theorem entitySize_pos (e : Entity) : 0 < entitySize e := by
  rw [entitySize_def]
  omega

theorem queueSize_append (q₁ q₂ : List QItem) :
    queueSize (q₁ ++ q₂) = queueSize q₁ + queueSize q₂ := by
  induction q₁ with
  | nil => simp [queueSize]
  | cons it rest ih =>
    rw [List.cons_append, queueSize, queueSize, ih, Nat.add_assoc]

theorem queueSize_map_children (ix : Nat) (c : List Entity) :
    queueSize (c.map (fun x => ((some ix : Option Nat), x))) = entityListSize c := by
  induction c with
  | nil => rfl
  | cons e es ih =>
    rw [List.map_cons, queueSize, entityListSize, ih]

theorem snd_map_pair (ix : Nat) (c : List Entity) :
    (c.map (fun x => ((some ix : Option Nat), x))).map Prod.snd = c := by
  induction c with
  | nil => rfl
  | cons e es ih =>
    rw [List.map_cons, List.map_cons, ih]

theorem snd_map_none (ents : List Entity) :
    (ents.map (fun n => ((none : Option Nat), n))).map Prod.snd = ents := by
  induction ents with
  | nil => rfl
  | cons e es ih =>
    rw [List.map_cons, List.map_cons, ih]

theorem containsM_insertM {κ ν : Type} [DecidableEq κ]
    {m : List (κ × ν)} {k k' : κ} {v : ν} :
    containsM (insertM m k v) k' = (decide (k = k') || containsM m k') := by
  induction m with
  | nil =>
    by_cases h : k = k'
    · simp [insertM, h]
    · simp [insertM, h]
  | cons p ps ih =>
    rw [insertM_cons]
    by_cases hp : p.1 = k
    · rw [if_pos hp, containsM_cons, containsM_cons]
      by_cases h : k = k'
      · simp [h]
      · rw [if_neg h, if_neg (by rw [hp]; exact h)]
        simp [h]
    · rw [if_neg hp, containsM_cons, containsM_cons]
      by_cases hk : p.1 = k'
      · simp [hk]
      · rw [if_neg hk, if_neg hk, ih]

/-- The error of a load depends only on the entities of the queue and the key
set of the target state map — not on the arena, the roots, the other state
map, or the queued parent indexes. -/
theorem load_state_error_scoped :
    ∀ (fuel : Nat) (q q' : List QItem) (A A' : List Diffable) (st st' : StateMap)
      (r r' : List Nat),
      q.map Prod.snd = q'.map Prod.snd →
      (∀ k, containsM st k = containsM st' k) →
      (load_state fuel q A st r).1 = (load_state fuel q' A' st' r').1 := by
  intro fuel
  induction fuel with
  | zero =>
    intro q q' A A' st st' r r' hq hst
    cases q with
    | nil =>
      cases q' with
      | nil => rfl
      | cons it' rest' => cases hq
    | cons it rest =>
      cases q' with
      | nil => cases hq
      | cons it' rest' => rfl
  | succ fuel ih =>
    intro q q' A A' st st' r r' hq hst
    cases q with
    | nil =>
      cases q' with
      | nil => rfl
      | cons it' rest' => cases hq
    | cons it rest =>
      cases q' with
      | nil => cases hq
      | cons it' rest' =>
        obtain ⟨p, ent⟩ := it
        obtain ⟨p', ent'⟩ := it'
        rw [List.map_cons, List.map_cons] at hq
        injection hq with hent hrest
        simp only at hent
        subst hent
        rw [load_state, load_state]
        simp only
        rw [← hst ent.name_key]
        by_cases hc : containsM st ent.name_key = true
        · rw [if_pos hc, if_pos hc]
        · rw [if_neg hc, if_neg hc]
          refine ih _ _ _ _ _ _ _ _ ?_ ?_
          · rw [List.map_append, List.map_append, hrest, snd_map_pair, snd_map_pair]
          · intro k
            rw [containsM_insertM, containsM_insertM, hst k]

/-- A load never fails with anything but `DuplicateEntity`. -/
theorem load_state_error_shape :
    ∀ (fuel : Nat) (q : List QItem) (A : List Diffable) (st : StateMap)
      (r : List Nat) (err : DiffError),
      (load_state fuel q A st r).1 = some err →
      ∃ n rl, err = .DuplicateEntity n rl := by
  intro fuel
  induction fuel with
  | zero =>
    intro q A st r err h
    cases q with
    | nil => cases h
    | cons it rest => cases h
  | succ fuel ih =>
    intro q A st r err h
    cases q with
    | nil => cases h
    | cons it rest =>
      obtain ⟨p, ent⟩ := it
      rw [load_state] at h
      simp only at h
      by_cases hc : containsM st ent.name_key = true
      · rw [if_pos hc] at h
        injection h with h
        exact ⟨_, _, h.symm⟩
      · rw [if_neg hc] at h
        exact ih _ _ _ _ _ h

/-- Success of a load is exactly: the dequeued forest's keys are pairwise
distinct and none is already present in the target state map (which includes
entries left by earlier loads into that same state). -/
theorem load_state_ok_iff :
    ∀ (fuel : Nat) (q : List QItem) (A : List Diffable) (st : StateMap)
      (r : List Nat), queueSize q ≤ fuel →
      ((load_state fuel q A st r).1 = none ↔
        ((entityListKeys (q.map Prod.snd)).Nodup ∧
          ∀ k ∈ entityListKeys (q.map Prod.snd), containsM st k = false)) := by
  intro fuel
  induction fuel with
  | zero =>
    intro q A st r hfuel
    cases q with
    | nil =>
      simp [load_state, entityListKeys]
    | cons it rest =>
      exfalso
      rw [queueSize] at hfuel
      have := entitySize_pos it.2
      omega
  | succ fuel ih =>
    intro q A st r hfuel
    cases q with
    | nil => simp [load_state, entityListKeys]
    | cons it rest =>
      obtain ⟨p, ent⟩ := it
      rw [load_state]
      simp only
      rw [List.map_cons, entityListKeys, entityKeys_def]
      by_cases hc : containsM st ent.name_key = true
      · rw [if_pos hc]
        constructor
        · intro h
          cases h
        · intro ⟨_, hfresh⟩
          exfalso
          have hf := hfresh ent.name_key (by simp)
          rw [hf] at hc
          cases hc
      · rw [if_neg hc]
        have hcf : containsM st ent.name_key = false := by
          rcases h : containsM st ent.name_key
          · rfl
          · exact absurd h hc
        have hfuel' : queueSize (rest ++ ent.children.map
            (fun c => ((some A.length : Option Nat), c))) ≤ fuel := by
          rw [queueSize_append, queueSize_map_children]
          rw [queueSize, entitySize_def] at hfuel
          simp only at hfuel
          omega
        rw [ih _ _ _ _ hfuel']
        have hq' : ((rest ++ ent.children.map
            (fun c => ((some A.length : Option Nat), c))).map Prod.snd)
            = rest.map Prod.snd ++ ent.children := by
          rw [List.map_append, snd_map_pair]
        rw [hq', entityListKeys_append]
        constructor
        · intro ⟨hnd, hfr⟩
          have hfr' : ∀ k ∈ entityListKeys (rest.map Prod.snd)
              ++ entityListKeys ent.children,
              ent.name_key ≠ k ∧ containsM st k = false := by
            intro k hk
            have := hfr k hk
            rw [containsM_insertM] at this
            rcases Bool.or_eq_false_iff.mp this with ⟨h1, h2⟩
            exact ⟨by simpa using h1, h2⟩
          constructor
          · rw [List.cons_append, List.nodup_cons]
            constructor
            · intro hmem
              have hmem' : ent.name_key ∈ entityListKeys (rest.map Prod.snd)
                  ++ entityListKeys ent.children := by
                rw [List.mem_append] at hmem ⊢
                exact hmem.symm
              exact (hfr' _ hmem').1 rfl
            · rw [List.nodup_append_comm]
              exact hnd
          · intro k hk
            rw [List.cons_append, List.mem_cons] at hk
            rcases hk with hk | hk
            · rw [hk]
              exact hcf
            · refine (hfr' k ?_).2
              rw [List.mem_append] at hk ⊢
              exact hk.symm
        · intro ⟨hnd, hfr⟩
          rw [List.cons_append, List.nodup_cons] at hnd
          constructor
          · rw [List.nodup_append_comm]
            exact hnd.2
          · intro k hk
            have hk' : k ∈ entityListKeys ent.children
                ++ entityListKeys (rest.map Prod.snd) := by
              rw [List.mem_append] at hk ⊢
              exact hk.symm
            rw [containsM_insertM, Bool.or_eq_false_iff]
            constructor
            · simp only [decide_eq_false_iff_not]
              intro he
              exact hnd.1 (he ▸ hk')
            · exact hfr k (List.mem_cons_of_mem _ hk')

/-- A well-formed forest (spec §3): all `(name, role)` pairs — hence all
`name_key`s — in the forest are pairwise distinct. -/
def WfForest (ents : List Entity) : Prop := (entityListKeys ents).Nodup

/-- C7: (a) a load's error is a function of the dequeued entities and the
key set of the call's target state map alone; (b) a load succeeds exactly
when no dequeued entity's id is already present in the target state map
(counting ids inserted earlier in the same load, and entries from earlier
loads into that same state), and any failure is a `DuplicateEntity`; (c) in
particular, loading a well-formed forest into `last` and then the same forest
into `current` on one fresh engine both succeed. -/
theorem c7_duplicate_scoped_to_target :
    (∀ (fuel : Nat) (q q' : List QItem) (A A' : List Diffable) (st st' : StateMap)
        (r r' : List Nat),
        q.map Prod.snd = q'.map Prod.snd →
        (∀ k, containsM st k = containsM st' k) →
        (load_state fuel q A st r).1 = (load_state fuel q' A' st' r').1) ∧
    (∀ (fuel : Nat) (q : List QItem) (A : List Diffable) (st : StateMap)
        (r : List Nat), queueSize q ≤ fuel →
        ((load_state fuel q A st r).1 = none ↔
          ((entityListKeys (q.map Prod.snd)).Nodup ∧
            ∀ k ∈ entityListKeys (q.map Prod.snd), containsM st k = false))) ∧
    (∀ (fuel : Nat) (q : List QItem) (A : List Diffable) (st : StateMap)
        (r : List Nat) (err : DiffError),
        (load_state fuel q A st r).1 = some err →
        ∃ n rl, err = .DuplicateEntity n rl) ∧
    (∀ ents : List Entity, WfForest ents →
        (DiffEngine.new.load_last_state ents).1 = none ∧
        ((DiffEngine.new.load_last_state ents).2.load_current_state ents).1 = none) :=
  ⟨load_state_error_scoped, load_state_ok_iff, load_state_error_shape, by
    intro ents hwf
    have hsnd := snd_map_none ents
    constructor
    · rw [DiffEngine.load_last_state]
      rw [load_state_ok_iff _ _ _ _ _ (Nat.le_refl _), hsnd]
      exact ⟨hwf, fun k _ => rfl⟩
    · rw [DiffEngine.load_current_state]
      have hcur : ((DiffEngine.new.load_last_state ents).2).current_state = [] := rfl
      rw [hcur]
      rw [load_state_ok_iff _ _ _ _ _ (Nat.le_refl _), hsnd]
      exact ⟨hwf, fun k _ => rfl⟩⟩

/-- Witness for C7 at the `users` fixture: both loads of the same forest into
one engine succeed. -/
theorem c7_duplicate_scoped_to_target_witness :
    WfForest [entUsers] ∧
    (DiffEngine.new.load_last_state [entUsers]).1 = none ∧
    ((DiffEngine.new.load_last_state [entUsers]).2.load_current_state [entUsers]).1
      = none := by
  refine ⟨?_, c7_duplicate_scoped_to_target.2.2.2 [entUsers] ?_⟩ <;>
    · rw [WfForest]
      decide

/-! ## Structural effect of a load: the old arena, state map and roots are
preserved, new material only ever points past the old length -/

theorem get?_some_lt {α : Type} {l : List α} {i : Nat} {a : α}
    (h : l.get? i = some a) : i < l.length := by
  by_contra hge
  push_neg at hge
  rw [List.get?_eq_none.mpr hge] at h
  cases h

theorem get?_of_lt {α : Type} {l : List α} {i : Nat} (h : i < l.length) :
    ∃ a, l.get? i = some a := by
  cases hg : l.get? i with
  | none =>
    rw [List.get?_eq_none] at hg
    omega
  | some a => exact ⟨a, rfl⟩

/-- The arena after an operation extends the arena before it: same length or
longer, every old position keeps every field except that `children_indexes`
may gain links to positions at or past the old length. -/
def ArenaExtends (A A' : List Diffable) : Prop :=
  A.length ≤ A'.length ∧
  ∀ i d, A.get? i = some d → ∃ d', A'.get? i = some d' ∧
    d'.id = d.id ∧ d'.index = d.index ∧ d'.parent_index = d.parent_index ∧
    d'.entity = d.entity ∧ d'.identity_key = d.identity_key ∧
    d'.role_key = d.role_key ∧ d'.type_key = d.type_key ∧
    ∃ tl, d'.children_indexes = d.children_indexes ++ tl ∧
      ∀ j ∈ tl, A.length ≤ j

theorem arenaExtends_refl (A : List Diffable) : ArenaExtends A A :=
  ⟨Nat.le_refl _, fun i d h =>
    ⟨d, h, rfl, rfl, rfl, rfl, rfl, rfl, rfl, [], (List.append_nil _).symm, by simp⟩⟩

theorem arenaExtends_trans {A B C : List Diffable}
    (h1 : ArenaExtends A B) (h2 : ArenaExtends B C) : ArenaExtends A C := by
  refine ⟨Nat.le_trans h1.1 h2.1, ?_⟩
  intro i d hd
  obtain ⟨d1, hd1, e1, e2, e3, e4, e5, e6, e7, tl1, hc1, hb1⟩ := h1.2 i d hd
  obtain ⟨d2, hd2, f1, f2, f3, f4, f5, f6, f7, tl2, hc2, hb2⟩ := h2.2 i d1 hd1
  refine ⟨d2, hd2, f1.trans e1, f2.trans e2, f3.trans e3, f4.trans e4,
    f5.trans e5, f6.trans e6, f7.trans e7, tl1 ++ tl2, ?_, ?_⟩
  · rw [hc2, hc1, List.append_assoc]
  · intro j hj
    rcases List.mem_append.mp hj with hj | hj
    · exact hb1 j hj
    · exact Nat.le_trans h1.1 (hb2 j hj)

/-- The state map after an operation is the old map plus fresh registrations
of positions at or past the old arena length. -/
def StExtends (st st' : StateMap) (n : Nat) : Prop :=
  ∃ tl, st' = st ++ tl ∧ ∀ kv ∈ tl, n ≤ kv.2

theorem stExtends_refl (st : StateMap) (n : Nat) : StExtends st st n :=
  ⟨[], (List.append_nil _).symm, by simp⟩

theorem stExtends_trans {st1 st2 st3 : StateMap} {n m : Nat}
    (h1 : StExtends st1 st2 n) (h2 : StExtends st2 st3 m) (hnm : n ≤ m) :
    StExtends st1 st3 n := by
  obtain ⟨tl1, he1, hb1⟩ := h1
  obtain ⟨tl2, he2, hb2⟩ := h2
  refine ⟨tl1 ++ tl2, ?_, ?_⟩
  · rw [he2, he1, List.append_assoc]
  · intro kv hkv
    rcases List.mem_append.mp hkv with hkv | hkv
    · exact hb1 kv hkv
    · exact Nat.le_trans hnm (hb2 kv hkv)

/-- The root list after an operation is the old list plus fresh indexes. -/
def RootsExtends (r r' : List Nat) (n : Nat) : Prop :=
  ∃ tl, r' = r ++ tl ∧ ∀ i ∈ tl, n ≤ i

theorem rootsExtends_refl (r : List Nat) (n : Nat) : RootsExtends r r n :=
  ⟨[], (List.append_nil _).symm, by simp⟩

theorem rootsExtends_trans {r1 r2 r3 : List Nat} {n m : Nat}
    (h1 : RootsExtends r1 r2 n) (h2 : RootsExtends r2 r3 m) (hnm : n ≤ m) :
    RootsExtends r1 r3 n := by
  obtain ⟨tl1, he1, hb1⟩ := h1
  obtain ⟨tl2, he2, hb2⟩ := h2
  refine ⟨tl1 ++ tl2, ?_, ?_⟩
  · rw [he2, he1, List.append_assoc]
  · intro i hi
    rcases List.mem_append.mp hi with hi | hi
    · exact hb1 i hi
    · exact Nat.le_trans hnm (hb2 i hi)

theorem pushChild_none {arena : List Diffable} {p ix : Nat}
    (h : arena.get? p = none) : pushChild arena p ix = arena := by
  unfold pushChild
  rw [h]

theorem pushChild_some {arena : List Diffable} {p ix : Nat} {d : Diffable}
    (h : arena.get? p = some d) :
    pushChild arena p ix
      = arena.set p { d with children_indexes := d.children_indexes ++ [ix] } := by
  unfold pushChild
  rw [h]

theorem length_pushChild (arena : List Diffable) (p ix : Nat) :
    (pushChild arena p ix).length = arena.length := by
  cases h : arena.get? p with
  | none => rw [pushChild_none h]
  | some d => rw [pushChild_some h, List.length_set]

/-- Appending a node extends an arena. -/
theorem append_arena_extends (A : List Diffable) (nd : Diffable) :
    ArenaExtends A (A ++ [nd]) := by
  refine ⟨by simp, ?_⟩
  intro i d hd
  refine ⟨d, ?_, rfl, rfl, rfl, rfl, rfl, rfl, rfl, [],
    (List.append_nil _).symm, by simp⟩
  rw [List.get?_append (get?_some_lt hd)]
  exact hd

/-- One load step extends the arena: appending the new node and giving its
parent one more child link (to the new position). -/
theorem step_arena_extends_some (A : List Diffable) (pp : Nat) (ent : Entity) :
    ArenaExtends A (pushChild (A ++ [loadNode (some pp) A.length ent]) pp A.length) := by
  have hbase : ∀ i d, A.get? i = some d →
      (A ++ [loadNode (some pp) A.length ent]).get? i = some d := by
    intro i d hd
    rw [List.get?_append (get?_some_lt hd)]
    exact hd
  cases hg : (A ++ [loadNode (some pp) A.length ent]).get? pp with
  | none =>
    rw [pushChild_none hg]
    exact append_arena_extends A _
  | some pd =>
    rw [pushChild_some hg]
    refine ⟨by rw [List.length_set]; simp, ?_⟩
    intro i d hd
    by_cases hip : i = pp
    · subst hip
      have hpd : pd = d := by
        rw [hbase i d hd] at hg
        injection hg with hg
        exact hg.symm
      subst hpd
      refine ⟨{ pd with children_indexes := pd.children_indexes ++ [A.length] },
        ?_, rfl, rfl, rfl, rfl, rfl, rfl, rfl, [A.length], rfl, by simp⟩
      have hlt : i < (A ++ [loadNode (some i) A.length ent]).length := get?_some_lt hg
      exact List.get?_set_eq_of_lt _ hlt
    · refine ⟨d, ?_, rfl, rfl, rfl, rfl, rfl, rfl, rfl, [],
        (List.append_nil _).symm, by simp⟩
      rw [List.get?_set_ne _ _ (fun he => hip he.symm)]
      exact hbase i d hd

/-- Any run of `load_state` extends the arena, the target state map and the
root list, error or not. -/
theorem load_state_extends :
    ∀ (fuel : Nat) (q : List QItem) (A : List Diffable) (st : StateMap)
      (r : List Nat),
      ArenaExtends A (load_state fuel q A st r).2.1 ∧
      StExtends st (load_state fuel q A st r).2.2.1 A.length ∧
      RootsExtends r (load_state fuel q A st r).2.2.2 A.length := by
  intro fuel
  induction fuel with
  | zero =>
    intro q A st r
    cases q with
    | nil => exact ⟨arenaExtends_refl A, stExtends_refl st _, rootsExtends_refl r _⟩
    | cons it rest => exact ⟨arenaExtends_refl A, stExtends_refl st _, rootsExtends_refl r _⟩
  | succ fuel ih =>
    intro q A st r
    cases q with
    | nil => exact ⟨arenaExtends_refl A, stExtends_refl st _, rootsExtends_refl r _⟩
    | cons it rest =>
      obtain ⟨p, ent⟩ := it
      rw [load_state]
      simp only
      by_cases hc : containsM st ent.name_key = true
      · rw [if_pos hc]
        exact ⟨arenaExtends_refl A, stExtends_refl st _, rootsExtends_refl r _⟩
      · rw [if_neg hc]
        have hins : insertM st ent.name_key A.length = st ++ [(ent.name_key, A.length)] :=
          insertM_of_not_contains _ (by
            intro hmem
            exact hc (containsM_iff_mem.mpr hmem))
        cases p with
        | none =>
          obtain ⟨iha, ihs, ihr⟩ := ih
            (rest ++ ent.children.map (fun c => (some A.length, c)))
            (A ++ [loadNode none A.length ent])
            (insertM st ent.name_key A.length)
            (r ++ [A.length])
          have hlen1 : A.length + 1 ≤ (A ++ [loadNode none A.length ent]).length := by
            simp
          refine ⟨arenaExtends_trans (append_arena_extends A _) iha, ?_, ?_⟩
          · have h2 := stExtends_trans (stExtends_refl _ (A.length + 1)) ihs hlen1
            exact stExtends_trans
              ⟨[(ent.name_key, A.length)], hins, by simp⟩ h2 (by omega)
          · have h2 := rootsExtends_trans (rootsExtends_refl _ (A.length + 1)) ihr hlen1
            exact rootsExtends_trans
              (⟨[A.length], rfl, by simp⟩ :
                RootsExtends r (r ++ [A.length]) A.length) h2 (by omega)
        | some pp =>
          obtain ⟨iha, ihs, ihr⟩ := ih
            (rest ++ ent.children.map (fun c => (some A.length, c)))
            (pushChild (A ++ [loadNode (some pp) A.length ent]) pp A.length)
            (insertM st ent.name_key A.length)
            r
          have hlen1 : A.length + 1 ≤
              (pushChild (A ++ [loadNode (some pp) A.length ent]) pp A.length).length := by
            rw [length_pushChild]
            simp
          refine ⟨arenaExtends_trans (step_arena_extends_some A pp ent) iha, ?_, ?_⟩
          · have h2 := stExtends_trans (stExtends_refl _ (A.length + 1)) ihs hlen1
            exact stExtends_trans
              ⟨[(ent.name_key, A.length)], hins, by simp⟩ h2 (by omega)
          · have h2 := rootsExtends_trans (rootsExtends_refl _ (A.length + 1)) ihr hlen1
            exact rootsExtends_trans (rootsExtends_refl r A.length) h2 (by omega)

/-! ## Step equations for `load_state` -/

theorem load_step_nil (fuel : Nat) (A : List Diffable) (st : StateMap) (r : List Nat) :
    load_state fuel [] A st r = (none, A, st, r) := by
  cases fuel <;> rfl

theorem load_step_zero (q : List QItem) (A : List Diffable) (st : StateMap) (r : List Nat) :
    load_state 0 q A st r = (none, A, st, r) := by
  cases q <;> rfl

theorem load_step_dup (fuel : Nat) (p : Option Nat) (ent : Entity) (rest : List QItem)
    (A : List Diffable) (st : StateMap) (r : List Nat)
    (hc : containsM st ent.name_key = true) :
    load_state (fuel + 1) ((p, ent) :: rest) A st r
      = (some (.DuplicateEntity ent.name ent.role), A, st, r) := by
  rw [load_state]
  simp [hc]

theorem load_step_none (fuel : Nat) (ent : Entity) (rest : List QItem)
    (A : List Diffable) (st : StateMap) (r : List Nat)
    (hc : containsM st ent.name_key = false) :
    load_state (fuel + 1) ((none, ent) :: rest) A st r
      = load_state fuel (rest ++ ent.children.map (fun c => (some A.length, c)))
          (A ++ [loadNode none A.length ent])
          (insertM st ent.name_key A.length) (r ++ [A.length]) := by
  rw [load_state]
  simp [hc]

theorem load_step_some (fuel : Nat) (pp : Nat) (ent : Entity) (rest : List QItem)
    (A : List Diffable) (st : StateMap) (r : List Nat)
    (hc : containsM st ent.name_key = false) :
    load_state (fuel + 1) ((some pp, ent) :: rest) A st r
      = load_state fuel (rest ++ ent.children.map (fun c => (some A.length, c)))
          (pushChild (A ++ [loadNode (some pp) A.length ent]) pp A.length)
          (insertM st ent.name_key A.length) r := by
  rw [load_state]
  simp [hc]

/-! ## Registration: every node a load appends is registered in the target
state map and linked from its parent (or the root list) — also when the load
later fails -/

/-- All parent indexes queued for a load point below `n`. -/
def QParentsValid (q : List QItem) (n : Nat) : Prop :=
  ∀ it ∈ q, ∀ pp, it.1 = some pp → pp < n

theorem QParentsValid.mono {q : List QItem} {n m : Nat} (h : QParentsValid q n)
    (hnm : n ≤ m) : QParentsValid q m :=
  fun it hit pp hpp => Nat.lt_of_lt_of_le (h it hit pp hpp) hnm

/-- Every arena position at or past `n` is registered in the state map under
its id, and linked from the root list (no parent) or its parent's child list. -/
def SuffixRegistered (A' : List Diffable) (st' : StateMap) (r' : List Nat)
    (n : Nat) : Prop :=
  ∀ i d', n ≤ i → A'.get? i = some d' →
    lookupM st' d'.id = some i ∧
    (d'.parent_index = none → i ∈ r') ∧
    (∀ pp, d'.parent_index = some pp →
      ∃ pd, A'.get? pp = some pd ∧ i ∈ pd.children_indexes)

theorem load_state_registers :
    ∀ (fuel : Nat) (q : List QItem) (A : List Diffable) (st : StateMap)
      (r : List Nat),
      QParentsValid q A.length →
      SuffixRegistered (load_state fuel q A st r).2.1
        (load_state fuel q A st r).2.2.1 (load_state fuel q A st r).2.2.2
        A.length := by
  intro fuel
  induction fuel with
  | zero =>
    intro q A st r hqpv
    rw [load_step_zero]
    intro i d' hi hget
    have hlt : i < A.length := get?_some_lt hget
    omega
  | succ fuel ih =>
    intro q A st r hqpv
    cases q with
    | nil =>
      rw [load_step_nil]
      intro i d' hi hget
      have hlt : i < A.length := get?_some_lt hget
      omega
    | cons it rest =>
      obtain ⟨p, ent⟩ := it
      by_cases hc : containsM st ent.name_key = true
      · rw [load_step_dup fuel p ent rest A st r hc]
        intro i d' hi hget
        have hlt : i < A.length := get?_some_lt hget
        omega
      · have hcf : containsM st ent.name_key = false := by
          rcases hh : containsM st ent.name_key
          · rfl
          · exact absurd hh hc
        have hfresh : ent.name_key ∉ st.map Prod.fst := by
          intro hmem
          exact hc (containsM_iff_mem.mpr hmem)
        have hins : insertM st ent.name_key A.length = st ++ [(ent.name_key, A.length)] :=
          insertM_of_not_contains _ hfresh
        cases p with
        | none =>
          rw [load_step_none fuel ent rest A st r hcf]
          have hqpv' : QParentsValid
              (rest ++ ent.children.map (fun c => (some A.length, c)))
              (A ++ [loadNode none A.length ent]).length := by
            intro it hit pp hpp
            rcases List.mem_append.mp hit with hit | hit
            · refine Nat.lt_of_lt_of_le
                (hqpv it (List.mem_cons_of_mem _ hit) pp hpp) (by simp)
            · rcases List.mem_map.mp hit with ⟨c, _, hcq⟩
              rw [← hcq] at hpp
              injection hpp with hpp
              simp
              omega
          have ihreg := ih (rest ++ ent.children.map (fun c => (some A.length, c)))
            (A ++ [loadNode none A.length ent])
            (insertM st ent.name_key A.length) (r ++ [A.length]) hqpv'
          obtain ⟨hexta, hexts, hextr⟩ := load_state_extends fuel
            (rest ++ ent.children.map (fun c => (some A.length, c)))
            (A ++ [loadNode none A.length ent])
            (insertM st ent.name_key A.length) (r ++ [A.length])
          intro i d' hi hget
          by_cases hieq : i = A.length
          · have hA1i : (A ++ [loadNode none A.length ent]).get? i
                = some (loadNode none A.length ent) := by
              rw [hieq]
              exact List.get?_concat_length A _
            obtain ⟨d2, hd2, e1, e2, e3, e4, e5, e6, e7, tl, hctl, _⟩ := hexta.2 i _ hA1i
            rw [hget] at hd2
            injection hd2 with hd2
            subst hd2
            refine ⟨?_, ?_, ?_⟩
            · rw [e1, hieq]
              obtain ⟨stl, hstl, _⟩ := hexts
              rw [hstl, hins]
              rw [show (loadNode none A.length ent).id = ent.name_key from by
                rw [loadNode]; simp]
              refine lookupM_append_left ?_
              rw [lookupM_append_right hfresh, lookupM_cons, if_pos rfl]
            · intro _
              obtain ⟨rtl, hrtl, _⟩ := hextr
              rw [hrtl, hieq]
              simp
            · intro pp hpp
              rw [e3] at hpp
              rw [show (loadNode none A.length ent).parent_index = none from rfl] at hpp
              cases hpp
          · have hi' : (A ++ [loadNode none A.length ent]).length ≤ i := by
              simp
              omega
            exact ihreg i d' hi' hget
        | some pp =>
          have hpplt : pp < A.length := hqpv (some pp, ent) (by simp) pp rfl
          rw [load_step_some fuel pp ent rest A st r hcf]
          have hqpv' : QParentsValid
              (rest ++ ent.children.map (fun c => (some A.length, c)))
              (pushChild (A ++ [loadNode (some pp) A.length ent]) pp A.length).length := by
            intro it hit pq hpq
            rcases List.mem_append.mp hit with hit | hit
            · refine Nat.lt_of_lt_of_le
                (hqpv it (List.mem_cons_of_mem _ hit) pq hpq) ?_
              rw [length_pushChild, List.length_append]
              omega
            · rcases List.mem_map.mp hit with ⟨c, _, hcq⟩
              rw [← hcq] at hpq
              injection hpq with hpq
              rw [length_pushChild]
              simp
              omega
          have ihreg := ih (rest ++ ent.children.map (fun c => (some A.length, c)))
            (pushChild (A ++ [loadNode (some pp) A.length ent]) pp A.length)
            (insertM st ent.name_key A.length) r hqpv'
          obtain ⟨hexta, hexts, hextr⟩ := load_state_extends fuel
            (rest ++ ent.children.map (fun c => (some A.length, c)))
            (pushChild (A ++ [loadNode (some pp) A.length ent]) pp A.length)
            (insertM st ent.name_key A.length) r
          intro i d' hi hget
          by_cases hieq : i = A.length
          · have hmid : (A ++ [loadNode (some pp) A.length ent]).get? i
                = some (loadNode (some pp) A.length ent) := by
              rw [hieq]
              exact List.get?_concat_length A _
            obtain ⟨pd0, hpd0⟩ := @get?_of_lt _ A _ hpplt
            have hpdmid : (A ++ [loadNode (some pp) A.length ent]).get? pp = some pd0 := by
              rw [List.get?_append hpplt]
              exact hpd0
            have hA1i : (pushChild (A ++ [loadNode (some pp) A.length ent]) pp A.length).get? i
                = some (loadNode (some pp) A.length ent) := by
              rw [pushChild_some hpdmid,
                List.get?_set_ne _ _ (fun he => by omega)]
              exact hmid
            have hA1pp : (pushChild (A ++ [loadNode (some pp) A.length ent]) pp A.length).get? pp
                = some { pd0 with children_indexes := pd0.children_indexes ++ [A.length] } := by
              rw [pushChild_some hpdmid]
              refine List.get?_set_eq_of_lt _ ?_
              rw [List.length_append]
              omega
            obtain ⟨d2, hd2, e1, e2, e3, e4, e5, e6, e7, tl, hctl, _⟩ := hexta.2 i _ hA1i
            rw [hget] at hd2
            injection hd2 with hd2
            subst hd2
            refine ⟨?_, ?_, ?_⟩
            · rw [e1, hieq]
              obtain ⟨stl, hstl, _⟩ := hexts
              rw [hstl, hins]
              rw [show (loadNode (some pp) A.length ent).id = ent.name_key from by
                rw [loadNode]; simp]
              refine lookupM_append_left ?_
              rw [lookupM_append_right hfresh, lookupM_cons, if_pos rfl]
            · intro hnone
              rw [e3] at hnone
              rw [show (loadNode (some pp) A.length ent).parent_index = some pp from rfl]
                at hnone
              cases hnone
            · intro pq hpq
              rw [e3] at hpq
              rw [show (loadNode (some pp) A.length ent).parent_index = some pp from rfl]
                at hpq
              injection hpq with hpq
              subst hpq
              obtain ⟨pd2, hpd2, f1, f2, f3, f4, f5, f6, f7, ptl, hptl, _⟩ :=
                hexta.2 pp _ hA1pp
              refine ⟨pd2, hpd2, ?_⟩
              rw [hptl]
              simp only [List.mem_append]
              refine Or.inl (Or.inr ?_)
              rw [hieq]
              exact List.mem_singleton.mpr rfl
          · have hi' : (pushChild (A ++ [loadNode (some pp) A.length ent]) pp A.length).length
                ≤ i := by
              rw [length_pushChild]
              simp
              omega
            exact ihreg i d' hi' hget

/-! ## C10: loads are not atomic — a failed load keeps everything inserted
before the duplicate was dequeued -/

theorem qpv_none (ents : List Entity) (n : Nat) :
    QParentsValid (ents.map (fun e => ((none : Option Nat), e))) n := by
  intro it hit pp hpp
  rcases List.mem_map.mp hit with ⟨c, _, hcq⟩
  rw [← hcq] at hpp
  cases hpp

/-- C10: when `load_last_state` (resp. `load_current_state`) fails, the error
is a `DuplicateEntity`; the pre-existing arena, target state map and root
list survive intact (only extended), every entity appended by the failed call
is still registered in the target state map under its id and linked from the
root list or its parent's `children_indexes`, and the other snapshot's state
is untouched. -/
theorem c10_load_failure_keeps_partial_state :
    ∀ (e : DiffEngine) (f : List Entity),
      ((e.load_last_state f).1 ≠ none →
        (∃ n rl, (e.load_last_state f).1 = some (.DuplicateEntity n rl)) ∧
        ArenaExtends e.diffable_arena (e.load_last_state f).2.diffable_arena ∧
        StExtends e.last_state (e.load_last_state f).2.last_state
          e.diffable_arena.length ∧
        RootsExtends e.last_root_indexes (e.load_last_state f).2.last_root_indexes
          e.diffable_arena.length ∧
        SuffixRegistered (e.load_last_state f).2.diffable_arena
          (e.load_last_state f).2.last_state
          (e.load_last_state f).2.last_root_indexes e.diffable_arena.length ∧
        (e.load_last_state f).2.current_state = e.current_state ∧
        (e.load_last_state f).2.current_root_indexes = e.current_root_indexes) ∧
      ((e.load_current_state f).1 ≠ none →
        (∃ n rl, (e.load_current_state f).1 = some (.DuplicateEntity n rl)) ∧
        ArenaExtends e.diffable_arena (e.load_current_state f).2.diffable_arena ∧
        StExtends e.current_state (e.load_current_state f).2.current_state
          e.diffable_arena.length ∧
        RootsExtends e.current_root_indexes
          (e.load_current_state f).2.current_root_indexes
          e.diffable_arena.length ∧
        SuffixRegistered (e.load_current_state f).2.diffable_arena
          (e.load_current_state f).2.current_state
          (e.load_current_state f).2.current_root_indexes e.diffable_arena.length ∧
        (e.load_current_state f).2.last_state = e.last_state ∧
        (e.load_current_state f).2.last_root_indexes = e.last_root_indexes) := by
  intro e f
  constructor
  · intro herr
    obtain ⟨hexta, hexts, hextr⟩ := load_state_extends
      (queueSize (f.map (fun n => ((none : Option Nat), n))))
      (f.map (fun n => ((none : Option Nat), n)))
      e.diffable_arena e.last_state e.last_root_indexes
    have hreg := load_state_registers
      (queueSize (f.map (fun n => ((none : Option Nat), n))))
      (f.map (fun n => ((none : Option Nat), n)))
      e.diffable_arena e.last_state e.last_root_indexes
      (qpv_none f e.diffable_arena.length)
    rcases hres : (e.load_last_state f).1 with _ | err
    · exact absurd hres herr
    · obtain ⟨n, rl, hshape⟩ := load_state_error_shape _ _ _ _ _ err hres
      exact ⟨⟨n, rl, by rw [hshape]⟩, hexta, hexts, hextr, hreg, rfl, rfl⟩
  · intro herr
    obtain ⟨hexta, hexts, hextr⟩ := load_state_extends
      (queueSize (f.map (fun n => ((none : Option Nat), n))))
      (f.map (fun n => ((none : Option Nat), n)))
      e.diffable_arena e.current_state e.current_root_indexes
    have hreg := load_state_registers
      (queueSize (f.map (fun n => ((none : Option Nat), n))))
      (f.map (fun n => ((none : Option Nat), n)))
      e.diffable_arena e.current_state e.current_root_indexes
      (qpv_none f e.diffable_arena.length)
    rcases hres : (e.load_current_state f).1 with _ | err
    · exact absurd hres herr
    · obtain ⟨n, rl, hshape⟩ := load_state_error_shape _ _ _ _ _ err hres
      exact ⟨⟨n, rl, by rw [hshape]⟩, hexta, hexts, hextr, hreg, rfl, rfl⟩

/-- Witness for C10: loading two roots with the same `(name, role)` fails
but leaves the first one loaded and registered. -/
theorem c10_load_failure_keeps_partial_state_witness :
    (DiffEngine.new.load_last_state [entUsers, entUsers]).1 ≠ none ∧
    ((∃ n rl, (DiffEngine.new.load_last_state [entUsers, entUsers]).1
        = some (.DuplicateEntity n rl)) ∧
      ArenaExtends DiffEngine.new.diffable_arena
        (DiffEngine.new.load_last_state [entUsers, entUsers]).2.diffable_arena ∧
      StExtends DiffEngine.new.last_state
        (DiffEngine.new.load_last_state [entUsers, entUsers]).2.last_state
        DiffEngine.new.diffable_arena.length ∧
      RootsExtends DiffEngine.new.last_root_indexes
        (DiffEngine.new.load_last_state [entUsers, entUsers]).2.last_root_indexes
        DiffEngine.new.diffable_arena.length ∧
      SuffixRegistered
        (DiffEngine.new.load_last_state [entUsers, entUsers]).2.diffable_arena
        (DiffEngine.new.load_last_state [entUsers, entUsers]).2.last_state
        (DiffEngine.new.load_last_state [entUsers, entUsers]).2.last_root_indexes
        DiffEngine.new.diffable_arena.length ∧
      (DiffEngine.new.load_last_state [entUsers, entUsers]).2.current_state
        = DiffEngine.new.current_state ∧
      (DiffEngine.new.load_last_state [entUsers, entUsers]).2.current_root_indexes
        = DiffEngine.new.current_root_indexes) :=
  ⟨by decide,
   (c10_load_failure_keeps_partial_state DiffEngine.new [entUsers, entUsers]).1
     (by decide)⟩

/-! ## The engine's structural invariants (C9) -/

@[simp] theorem loadNode_index (p : Option Nat) (ix : Nat) (ent : Entity) :
    (loadNode p ix ent).index = ix := rfl

@[simp] theorem loadNode_parent (p : Option Nat) (ix : Nat) (ent : Entity) :
    (loadNode p ix ent).parent_index = p := rfl

@[simp] theorem loadNode_children (p : Option Nat) (ix : Nat) (ent : Entity) :
    (loadNode p ix ent).children_indexes = [] := rfl

@[simp] theorem loadNode_entity (p : Option Nat) (ix : Nat) (ent : Entity) :
    (loadNode p ix ent).entity = ent.withChildren [] := rfl

@[simp] theorem loadNode_id (p : Option Nat) (ix : Nat) (ent : Entity) :
    (loadNode p ix ent).id = ent.name_key := by
  rw [loadNode]
  simp

/-- The per-node arena invariant: `index` mirrors the position, parents sit
strictly below, child links are strictly increasing, point strictly above and
inside the arena, and the children point back at their parent. -/
def ArenaWf (A : List Diffable) : Prop :=
  ∀ i d, A.get? i = some d →
    d.index = i ∧
    (∀ p, d.parent_index = some p → p < i) ∧
    d.children_indexes.Pairwise (· < ·) ∧
    ∀ j ∈ d.children_indexes, i < j ∧ j < A.length ∧
      ∃ c, A.get? j = some c ∧ c.parent_index = some i

/-- Every state-map entry points at a live arena slot carrying that id. -/
def StWf (A : List Diffable) (st : StateMap) : Prop :=
  ∀ kv ∈ st, ∃ d, A.get? kv.2 = some d ∧ d.id = kv.1

/-- Every node's stored id is the `name_key` of its entity. -/
def IdKeyWf (A : List Diffable) : Prop :=
  ∀ i d, A.get? i = some d → d.id = d.entity.name_key

/-- State maps hold each key at most once. -/
def StKeysNodup (st : StateMap) : Prop := (st.map Prod.fst).Nodup

/-- The two snapshots never share an arena position. -/
def StDisj (st1 st2 : StateMap) : Prop :=
  ∀ kv1 ∈ st1, ∀ kv2 ∈ st2, kv1.2 ≠ kv2.2

/-- All invariants the engine maintains on reachable states. -/
structure EngineInv (e : DiffEngine) : Prop where
  arena : ArenaWf e.diffable_arena
  idkey : IdKeyWf e.diffable_arena
  last : StWf e.diffable_arena e.last_state
  current : StWf e.diffable_arena e.current_state
  lastNodup : StKeysNodup e.last_state
  currentNodup : StKeysNodup e.current_state
  disj : StDisj e.last_state e.current_state

theorem StWf.values_lt {A : List Diffable} {st : StateMap} (h : StWf A st) :
    ∀ kv ∈ st, kv.2 < A.length := by
  intro kv hkv
  obtain ⟨d, hd, _⟩ := h kv hkv
  exact get?_some_lt hd

/-- `StWf` survives any arena change that keeps positions and ids. -/
theorem StWf.of_extends {A A' : List Diffable} {st : StateMap}
    (h : StWf A st) (hext : ArenaExtends A A') : StWf A' st := by
  intro kv hkv
  obtain ⟨d, hd, hid⟩ := h kv hkv
  obtain ⟨d', hd', e1, _⟩ := hext.2 kv.2 d hd
  exact ⟨d', hd', e1.trans hid⟩

/-- One step of a load preserves the structural invariants (with the parent
case and the root case handled uniformly). -/
theorem load_state_preserves_wf :
    ∀ (fuel : Nat) (q : List QItem) (A : List Diffable) (st : StateMap)
      (r : List Nat),
      ArenaWf A → IdKeyWf A → StWf A st → StKeysNodup st →
      QParentsValid q A.length →
      ArenaWf (load_state fuel q A st r).2.1 ∧
      IdKeyWf (load_state fuel q A st r).2.1 ∧
      StWf (load_state fuel q A st r).2.1 (load_state fuel q A st r).2.2.1 ∧
      StKeysNodup (load_state fuel q A st r).2.2.1 := by
  intro fuel
  induction fuel with
  | zero =>
    intro q A st r ha hik hst hnd hqpv
    rw [load_step_zero]
    exact ⟨ha, hik, hst, hnd⟩
  | succ fuel ih =>
    intro q A st r ha hik hst hnd hqpv
    cases q with
    | nil =>
      rw [load_step_nil]
      exact ⟨ha, hik, hst, hnd⟩
    | cons it rest =>
      obtain ⟨p, ent⟩ := it
      by_cases hc : containsM st ent.name_key = true
      · rw [load_step_dup fuel p ent rest A st r hc]
        exact ⟨ha, hik, hst, hnd⟩
      · have hcf : containsM st ent.name_key = false := by
          rcases hh : containsM st ent.name_key
          · rfl
          · exact absurd hh hc
        have hfresh : ent.name_key ∉ st.map Prod.fst := by
          intro hmem
          exact hc (containsM_iff_mem.mpr hmem)
        have hins : insertM st ent.name_key A.length = st ++ [(ent.name_key, A.length)] :=
          insertM_of_not_contains _ hfresh
        have hnd' : StKeysNodup (insertM st ent.name_key A.length) :=
          nodup_keys_insertM_of_not_contains _ hfresh hnd
        have hstv := StWf.values_lt hst
        -- the appended node, before any parent push
        have hmidwf : ∀ (pc : Option Nat), (∀ pp, pc = some pp → pp < A.length) →
            ArenaWf (A ++ [loadNode pc A.length ent]) ∧
            IdKeyWf (A ++ [loadNode pc A.length ent]) := by
          intro pc hpc
          constructor
          · intro i d hd
            by_cases hia : i < A.length
            · obtain ⟨d0, hd0⟩ := get?_of_lt hia
              have : (A ++ [loadNode pc A.length ent]).get? i = some d0 := by
                rw [List.get?_append hia]
                exact hd0
              rw [this] at hd
              injection hd with hd
              subst hd
              obtain ⟨h1, h2, h3, h4⟩ := ha i d0 hd0
              refine ⟨h1, h2, h3, ?_⟩
              intro j hj
              obtain ⟨hj1, hj2, c, hc1, hc2⟩ := h4 j hj
              refine ⟨hj1, by rw [List.length_append]; omega, c, ?_, hc2⟩
              rw [List.get?_append hj2]
              exact hc1
            · have hieq : i = A.length := by
                have := get?_some_lt hd
                rw [List.length_append] at this
                simp only [List.length_cons, List.length_nil] at this
                omega
              subst hieq
              rw [List.get?_concat_length] at hd
              injection hd with hd
              subst hd
              refine ⟨by simp, ?_, by simp, by simp⟩
              intro pp hpp
              rw [loadNode_parent] at hpp
              exact hpc pp hpp
          · intro i d hd
            by_cases hia : i < A.length
            · obtain ⟨d0, hd0⟩ := get?_of_lt hia
              have : (A ++ [loadNode pc A.length ent]).get? i = some d0 := by
                rw [List.get?_append hia]
                exact hd0
              rw [this] at hd
              injection hd with hd
              subst hd
              exact hik i d0 hd0
            · have hieq : i = A.length := by
                have := get?_some_lt hd
                rw [List.length_append] at this
                simp only [List.length_cons, List.length_nil] at this
                omega
              subst hieq
              rw [List.get?_concat_length] at hd
              injection hd with hd
              subst hd
              rw [loadNode_id, loadNode_entity]
              simp
        cases p with
        | none =>
          rw [load_step_none fuel ent rest A st r hcf]
          obtain ⟨hmida, hmidik⟩ := hmidwf none (fun pp hpp => by cases hpp)
          have hmidst : StWf (A ++ [loadNode none A.length ent])
              (insertM st ent.name_key A.length) := by
            intro kv hkv
            rw [hins] at hkv
            rcases List.mem_append.mp hkv with hkv | hkv
            · obtain ⟨d, hd, hid⟩ := hst kv hkv
              refine ⟨d, ?_, hid⟩
              rw [List.get?_append (get?_some_lt hd)]
              exact hd
            · rcases List.mem_singleton.mp hkv with hkv
              subst hkv
              exact ⟨loadNode none A.length ent, List.get?_concat_length A _, by simp⟩
          have hqpv' : QParentsValid
              (rest ++ ent.children.map (fun c => (some A.length, c)))
              (A ++ [loadNode none A.length ent]).length := by
            intro it hit pp hpp
            rcases List.mem_append.mp hit with hit | hit
            · refine Nat.lt_of_lt_of_le
                (hqpv it (List.mem_cons_of_mem _ hit) pp hpp) (by simp)
            · rcases List.mem_map.mp hit with ⟨c, _, hcq⟩
              rw [← hcq] at hpp
              injection hpp with hpp
              simp
              omega
          exact ih _ _ _ _ hmida hmidik hmidst hnd' hqpv'
        | some pp =>
          have hpplt : pp < A.length := hqpv (some pp, ent) (by simp) pp rfl
          rw [load_step_some fuel pp ent rest A st r hcf]
          obtain ⟨hmida, hmidik⟩ := hmidwf (some pp)
            (fun pq hpq => by injection hpq with h; omega)
          obtain ⟨pd0, hpd0⟩ := @get?_of_lt _ A _ hpplt
          have hpdmid : (A ++ [loadNode (some pp) A.length ent]).get? pp = some pd0 := by
            rw [List.get?_append hpplt]
            exact hpd0
          have hpush := @pushChild_some _ _ A.length _ hpdmid
          have hlen2 : (pushChild (A ++ [loadNode (some pp) A.length ent]) pp A.length).length
              = A.length + 1 := by
            rw [length_pushChild]
            simp
          -- ArenaWf after the push
          have hpusha : ArenaWf (pushChild (A ++ [loadNode (some pp) A.length ent]) pp A.length) := by
            rw [hpush]
            intro i d hd
            by_cases hip : i = pp
            · subst hip
              rw [List.get?_set_eq_of_lt _ (by rw [List.length_append]; omega)] at hd
              injection hd with hd
              subst hd
              obtain ⟨h1, h2, h3, h4⟩ := hmida i pd0 hpdmid
              refine ⟨h1, h2, ?_, ?_⟩
              · rw [List.pairwise_append]
                refine ⟨h3, by simp, ?_⟩
                intro a hca b hcb
                rw [List.mem_singleton] at hcb
                subst hcb
                obtain ⟨_, hlt, _⟩ := (ha i pd0 hpd0).2.2.2 a hca
                exact hlt
              · intro j hj
                rcases List.mem_append.mp hj with hj | hj
                · obtain ⟨hj1, hj2, c, hc1, hc2⟩ := h4 j hj
                  have hjne : j ≠ i := fun he => by omega
                  refine ⟨hj1, by rw [List.length_set]; exact hj2, c, ?_, hc2⟩
                  rw [List.get?_set_ne _ _ (fun he => hjne he.symm)]
                  exact hc1
                · rw [List.mem_singleton] at hj
                  subst hj
                  have hjlt : A.length < (A ++ [loadNode (some i) A.length ent]).length := by
                    simp
                  refine ⟨hqpv (some i, ent) (by simp) i rfl,
                    by rw [List.length_set]; exact hjlt, loadNode (some i) A.length ent, ?_, rfl⟩
                  rw [List.get?_set_ne _ _ (fun he => by omega)]
                  exact List.get?_concat_length A _
            · rw [List.get?_set_ne _ _ (fun he => hip he.symm)] at hd
              obtain ⟨h1, h2, h3, h4⟩ := hmida i d hd
              refine ⟨h1, h2, h3, ?_⟩
              intro j hj
              obtain ⟨hj1, hj2, c, hc1, hc2⟩ := h4 j hj
              refine ⟨hj1, by rw [List.length_set]; exact hj2, ?_⟩
              by_cases hjp : j = pp
              · subst hjp
                rw [hc1] at hpdmid
                injection hpdmid with hpd
                refine ⟨{ c with children_indexes := c.children_indexes ++ [A.length] },
                  ?_, hc2⟩
                rw [hpd]
                exact List.get?_set_eq_of_lt _ (by rw [List.length_append]; omega)
              · refine ⟨c, ?_, hc2⟩
                rw [List.get?_set_ne _ _ (fun he => hjp he.symm)]
                exact hc1
          have hpushik : IdKeyWf (pushChild (A ++ [loadNode (some pp) A.length ent]) pp A.length) := by
            rw [hpush]
            intro i d hd
            by_cases hip : i = pp
            · subst hip
              rw [List.get?_set_eq_of_lt _ (by rw [List.length_append]; omega)] at hd
              injection hd with hd
              subst hd
              exact hmidik i pd0 hpdmid
            · rw [List.get?_set_ne _ _ (fun he => hip he.symm)] at hd
              exact hmidik i d hd
          have hpushst : StWf (pushChild (A ++ [loadNode (some pp) A.length ent]) pp A.length)
              (insertM st ent.name_key A.length) := by
            rw [hpush]
            intro kv hkv
            rw [hins] at hkv
            rcases List.mem_append.mp hkv with hkv | hkv
            · obtain ⟨d, hd, hid⟩ := hst kv hkv
              by_cases hvp : kv.2 = pp
              · refine ⟨{ pd0 with children_indexes := pd0.children_indexes ++ [A.length] }, ?_, ?_⟩
                · rw [hvp]
                  exact List.get?_set_eq_of_lt _ (by rw [List.length_append]; omega)
                · rw [hvp] at hd
                  rw [hd] at hpd0
                  injection hpd0 with hpd
                  rw [hpd] at hid
                  exact hid
              · refine ⟨d, ?_, hid⟩
                rw [List.get?_set_ne _ _ (fun he => hvp he.symm),
                  List.get?_append (get?_some_lt hd)]
                exact hd
            · rcases List.mem_singleton.mp hkv with hkv
              subst hkv
              refine ⟨loadNode (some pp) A.length ent, ?_, by simp⟩
              rw [List.get?_set_ne _ _ (fun he => by omega)]
              exact List.get?_concat_length A _
          have hqpv' : QParentsValid
              (rest ++ ent.children.map (fun c => (some A.length, c)))
              (pushChild (A ++ [loadNode (some pp) A.length ent]) pp A.length).length := by
            intro it hit pq hpq
            rw [hlen2]
            rcases List.mem_append.mp hit with hit | hit
            · exact Nat.lt_of_lt_of_le
                (hqpv it (List.mem_cons_of_mem _ hit) pq hpq) (by omega)
            · rcases List.mem_map.mp hit with ⟨c, _, hcq⟩
              rw [← hcq] at hpq
              injection hpq with hpq
              omega
          exact ih _ _ _ _ hpusha hpushik hpushst hnd' hqpv'

/-! ### Entity mutator projections and key injectivity -/

@[simp] theorem Entity.withName_name (e : Entity) (n : String) :
    (e.withName n).name = n := by cases e; rfl

@[simp] theorem Entity.withName_role (e : Entity) (n : String) :
    (e.withName n).role = e.role := by cases e; rfl

@[simp] theorem Entity.withTypeName_name (e : Entity) (t : String) :
    (e.withTypeName t).name = e.name := by cases e; rfl

@[simp] theorem Entity.withTypeName_role (e : Entity) (t : String) :
    (e.withTypeName t).role = e.role := by cases e; rfl

@[simp] theorem Entity.withAttrs_name (e : Entity) (a : List (String × String)) :
    (e.withAttrs a).name = e.name := by cases e; rfl

@[simp] theorem Entity.withAttrs_role (e : Entity) (a : List (String × String)) :
    (e.withAttrs a).role = e.role := by cases e; rfl

@[simp] theorem Entity.withExtras_name (e : Entity) (x : List String) :
    (e.withExtras x).name = e.name := by cases e; rfl

@[simp] theorem Entity.withExtras_role (e : Entity) (x : List String) :
    (e.withExtras x).role = e.role := by cases e; rfl

/-- The transcript hash of `(name, role)` is injective — the precise sense in
which the engine relies on collision-free hashing. -/
theorem make_name_key_inj {n1 r1 n2 r2 : String}
    (h : make_name_key n1 r1 = make_name_key n2 r2) : n1 = n2 ∧ r1 = r2 := by
  rw [make_name_key, make_name_key] at h
  injection h with h1 h2
  injection h2 with h2
  exact ⟨h1, h2⟩

/-! ### Invariant preservation by the public loads -/

theorem engineInv_load_last (e : DiffEngine) (f : List Entity)
    (h : EngineInv e) : EngineInv (e.load_last_state f).2 := by
  obtain ⟨ha', hik', hst', hnd'⟩ := load_state_preserves_wf
    (queueSize (f.map (fun n => ((none : Option Nat), n))))
    (f.map (fun n => ((none : Option Nat), n)))
    e.diffable_arena e.last_state e.last_root_indexes
    h.arena h.idkey h.last h.lastNodup (qpv_none f _)
  obtain ⟨hexta, hexts, hextr⟩ := load_state_extends
    (queueSize (f.map (fun n => ((none : Option Nat), n))))
    (f.map (fun n => ((none : Option Nat), n)))
    e.diffable_arena e.last_state e.last_root_indexes
  have hdisj : StDisj
      (load_state (queueSize (f.map (fun n => ((none : Option Nat), n))))
        (f.map (fun n => ((none : Option Nat), n)))
        e.diffable_arena e.last_state e.last_root_indexes).2.2.1
      e.current_state := by
    obtain ⟨tl, htl, hbound⟩ := hexts
    intro kv1 hkv1 kv2 hkv2
    rw [htl] at hkv1
    rcases List.mem_append.mp hkv1 with hm | hm
    · exact h.disj kv1 hm kv2 hkv2
    · have h1 := hbound kv1 hm
      have h2 := h.current.values_lt kv2 hkv2
      omega
  exact { arena := ha', idkey := hik', last := hst',
          current := h.current.of_extends hexta,
          lastNodup := hnd', currentNodup := h.currentNodup, disj := hdisj }

theorem engineInv_load_current (e : DiffEngine) (f : List Entity)
    (h : EngineInv e) : EngineInv (e.load_current_state f).2 := by
  obtain ⟨ha', hik', hst', hnd'⟩ := load_state_preserves_wf
    (queueSize (f.map (fun n => ((none : Option Nat), n))))
    (f.map (fun n => ((none : Option Nat), n)))
    e.diffable_arena e.current_state e.current_root_indexes
    h.arena h.idkey h.current h.currentNodup (qpv_none f _)
  obtain ⟨hexta, hexts, hextr⟩ := load_state_extends
    (queueSize (f.map (fun n => ((none : Option Nat), n))))
    (f.map (fun n => ((none : Option Nat), n)))
    e.diffable_arena e.current_state e.current_root_indexes
  have hdisj : StDisj e.last_state
      (load_state (queueSize (f.map (fun n => ((none : Option Nat), n))))
        (f.map (fun n => ((none : Option Nat), n)))
        e.diffable_arena e.current_state e.current_root_indexes).2.2.1 := by
    obtain ⟨tl, htl, hbound⟩ := hexts
    intro kv1 hkv1 kv2 hkv2
    rw [htl] at hkv2
    rcases List.mem_append.mp hkv2 with hm | hm
    · exact h.disj kv1 hkv1 kv2 hm
    · have h1 := hbound kv2 hm
      have h2 := h.last.values_lt kv1 hkv1
      omega
  exact { arena := ha', idkey := hik', current := hst',
          last := h.last.of_extends hexta,
          currentNodup := hnd', lastNodup := h.lastNodup,
          disj := hdisj }

/-! ### Invariant preservation by `delete_subtree` -/

/-- The unregister loop only ever removes state-map entries. -/
theorem removeIdLoop_sublist :
    ∀ (fuel : Nat) (stack : List Nat) (A : List Diffable) (st : StateMap),
      ((removeIdLoop fuel stack A st).2).Sublist st := by
  intro fuel
  induction fuel with
  | zero =>
    intro stack A st
    cases stack with
    | nil => exact List.Sublist.refl st
    | cons ix rest => exact List.Sublist.refl st
  | succ fuel ih =>
    intro stack A st
    cases stack with
    | nil => exact List.Sublist.refl st
    | cons ix rest =>
      rw [removeIdLoop]
      cases hg : A.get? ix with
      | none => exact List.Sublist.refl st
      | some d =>
        exact (ih _ A (removeM st d.id)).trans (List.filter_sublist st)

/-- Filtering one node's child list preserves the arena invariant. -/
theorem arenaWf_filter_children {A : List Diffable} {pp : Nat} {pd : Diffable}
    (ha : ArenaWf A) (hpd : A.get? pp = some pd) (index : Nat) :
    ArenaWf (A.set pp
      { pd with children_indexes := pd.children_indexes.filter (fun ix => ix ≠ index) }) := by
  intro i d hd
  by_cases hip : i = pp
  · subst hip
    rw [List.get?_set_eq_of_lt _ (get?_some_lt hpd)] at hd
    injection hd with hd
    subst hd
    obtain ⟨h1, h2, h3, h4⟩ := ha i pd hpd
    refine ⟨h1, h2, h3.sublist (List.filter_sublist _), ?_⟩
    intro j hj
    have hj' : j ∈ pd.children_indexes := (List.filter_sublist _).mem hj
    obtain ⟨hj1, hj2, c, hc1, hc2⟩ := h4 j hj'
    refine ⟨hj1, by rw [List.length_set]; exact hj2, c, ?_, hc2⟩
    rw [List.get?_set_ne _ _ (fun he => by omega)]
    exact hc1
  · rw [List.get?_set_ne _ _ (fun he => hip he.symm)] at hd
    obtain ⟨h1, h2, h3, h4⟩ := ha i d hd
    refine ⟨h1, h2, h3, ?_⟩
    intro j hj
    obtain ⟨hj1, hj2, c, hc1, hc2⟩ := h4 j hj
    refine ⟨hj1, by rw [List.length_set]; exact hj2, ?_⟩
    by_cases hjp : j = pp
    · subst hjp
      rw [hc1] at hpd
      injection hpd with hpd
      subst hpd
      refine ⟨{ c with children_indexes := c.children_indexes.filter (fun ix => ix ≠ index) },
        ?_, hc2⟩
      exact List.get?_set_eq_of_lt _ (get?_some_lt hc1)
    · refine ⟨c, ?_, hc2⟩
      rw [List.get?_set_ne _ _ (fun he => hjp he.symm)]
      exact hc1

/-- Id/entity fields are untouched by a child-list filter. -/
theorem idKeyWf_filter_children {A : List Diffable} {pp : Nat} {pd : Diffable}
    (hik : IdKeyWf A) (hpd : A.get? pp = some pd) (index : Nat) :
    IdKeyWf (A.set pp
      { pd with children_indexes := pd.children_indexes.filter (fun ix => ix ≠ index) }) := by
  intro i d hd
  by_cases hip : i = pp
  · subst hip
    rw [List.get?_set_eq_of_lt _ (get?_some_lt hpd)] at hd
    injection hd with hd
    subst hd
    exact hik i pd hpd
  · rw [List.get?_set_ne _ _ (fun he => hip he.symm)] at hd
    exact hik i d hd

theorem stWf_filter_children {A : List Diffable} {pp : Nat} {pd : Diffable}
    {st : StateMap} (hst : StWf A st) (hpd : A.get? pp = some pd) (index : Nat) :
    StWf (A.set pp
      { pd with children_indexes := pd.children_indexes.filter (fun ix => ix ≠ index) })
      st := by
  intro kv hkv
  obtain ⟨d, hd, hid⟩ := hst kv hkv
  by_cases hvp : kv.2 = pp
  · rw [hvp] at hd
    have hdp : d = pd := by
      rw [hd] at hpd
      exact Option.some.inj hpd
    refine ⟨{ pd with children_indexes := pd.children_indexes.filter (fun ix => ix ≠ index) },
      ?_, ?_⟩
    · rw [hvp]
      exact List.get?_set_eq_of_lt _ (get?_some_lt hpd)
    · rw [← hdp]
      exact hid
  · refine ⟨d, ?_, hid⟩
    rw [List.get?_set_ne _ _ (fun he => hvp he.symm)]
    exact hd

theorem engineInv_delete_subtree (e : DiffEngine) (index : Nat)
    (h : EngineInv e) : EngineInv (e.delete_subtree index).2 := by
  rw [DiffEngine.delete_subtree]
  cases hg : e.diffable_arena.get? index with
  | none => exact h
  | some d =>
    simp only
    -- the intermediate engine after detaching from the parent / roots
    set e2 : DiffEngine :=
      (match d.parent_index with
       | some parent_index =>
         { e with diffable_arena :=
             match e.diffable_arena.get? parent_index with
             | some parent =>
               e.diffable_arena.set parent_index
                 { parent with children_indexes :=
                     parent.children_indexes.filter (fun ix => ix ≠ index) }
             | none => e.diffable_arena }
       | none =>
         { e with last_root_indexes := e.last_root_indexes.filter (fun ix => ix ≠ index) })
      with he2
    have h2 : EngineInv e2 := by
      rw [he2]
      split
      · split
        · rename_i parent heq
          exact { arena := arenaWf_filter_children h.arena heq index,
                  idkey := idKeyWf_filter_children h.idkey heq index,
                  last := stWf_filter_children h.last heq index,
                  current := stWf_filter_children h.current heq index,
                  lastNodup := h.lastNodup, currentNodup := h.currentNodup,
                  disj := h.disj }
        · exact { arena := h.arena, idkey := h.idkey, last := h.last,
                  current := h.current, lastNodup := h.lastNodup,
                  currentNodup := h.currentNodup, disj := h.disj }
      · exact { arena := h.arena, idkey := h.idkey, last := h.last,
                current := h.current, lastNodup := h.lastNodup,
                currentNodup := h.currentNodup, disj := h.disj }
    -- the loop only erases last-state entries
    have hsub := removeIdLoop_sublist (e2.diffable_arena.length + 1) [index]
      e2.diffable_arena e2.last_state
    refine { arena := h2.arena, idkey := h2.idkey, current := h2.current,
             currentNodup := h2.currentNodup, last := ?_, lastNodup := ?_,
             disj := ?_ }
    · intro kv hkv
      exact h2.last kv (hsub.mem hkv)
    · exact (hsub.map Prod.fst).nodup h2.lastNodup
    · intro kv1 hkv1 kv2 hkv2
      exact h2.disj kv1 (hsub.mem hkv1) kv2 hkv2

/-! ### Invariant preservation by `patch` -/

theorem mem_removeM_ne {κ ν : Type} [DecidableEq κ] {m : List (κ × ν)}
    {p : κ × ν} {k : κ} (h : p ∈ removeM m k) : p.1 ≠ k := by
  rcases List.mem_filter.mp h with ⟨_, hne⟩
  simpa using hne

/-- Loading a queue into the `last` half of an engine preserves the
invariants, provided queued parents are valid. -/
theorem engineInv_load_into_last (e : DiffEngine) (q : List QItem)
    (h : EngineInv e) (hqpv : QParentsValid q e.diffable_arena.length) :
    EngineInv { e with
      diffable_arena := (load_state (queueSize q) q e.diffable_arena
        e.last_state e.last_root_indexes).2.1
      last_state := (load_state (queueSize q) q e.diffable_arena
        e.last_state e.last_root_indexes).2.2.1
      last_root_indexes := (load_state (queueSize q) q e.diffable_arena
        e.last_state e.last_root_indexes).2.2.2 } := by
  obtain ⟨ha', hik', hst', hnd'⟩ := load_state_preserves_wf
    (queueSize q) q e.diffable_arena e.last_state e.last_root_indexes
    h.arena h.idkey h.last h.lastNodup hqpv
  obtain ⟨hexta, hexts, hextr⟩ := load_state_extends
    (queueSize q) q e.diffable_arena e.last_state e.last_root_indexes
  have hdisj : StDisj
      (load_state (queueSize q) q e.diffable_arena
        e.last_state e.last_root_indexes).2.2.1 e.current_state := by
    obtain ⟨tl, htl, hbound⟩ := hexts
    intro kv1 hkv1 kv2 hkv2
    rw [htl] at hkv1
    rcases List.mem_append.mp hkv1 with hm | hm
    · exact h.disj kv1 hm kv2 hkv2
    · have h1 := hbound kv1 hm
      have h2 := h.current.values_lt kv2 hkv2
      omega
  exact { arena := ha', idkey := hik', last := hst',
          current := h.current.of_extends hexta,
          lastNodup := hnd', currentNodup := h.currentNodup, disj := hdisj }

/-- Replacing a node while keeping its links preserves the arena invariant. -/
theorem arenaWf_set_same_links {A : List Diffable} {index : Nat} {d d' : Diffable}
    (ha : ArenaWf A) (hget : A.get? index = some d)
    (hidx : d'.index = d.index) (hpar : d'.parent_index = d.parent_index)
    (hch : d'.children_indexes = d.children_indexes) :
    ArenaWf (A.set index d') := by
  intro i dd hdd
  by_cases hip : i = index
  · subst hip
    rw [List.get?_set_eq_of_lt _ (get?_some_lt hget)] at hdd
    injection hdd with hdd
    subst hdd
    obtain ⟨h1, h2, h3, h4⟩ := ha i d hget
    refine ⟨by rw [hidx]; exact h1, ?_, by rw [hch]; exact h3, ?_⟩
    · intro p hp
      rw [hpar] at hp
      exact h2 p hp
    · intro j hj
      rw [hch] at hj
      obtain ⟨hj1, hj2, c, hc1, hc2⟩ := h4 j hj
      refine ⟨hj1, by rw [List.length_set]; exact hj2, c, ?_, hc2⟩
      rw [List.get?_set_ne _ _ (fun he => by omega)]
      exact hc1
  · rw [List.get?_set_ne _ _ (fun he => hip he.symm)] at hdd
    obtain ⟨h1, h2, h3, h4⟩ := ha i dd hdd
    refine ⟨h1, h2, h3, ?_⟩
    intro j hj
    obtain ⟨hj1, hj2, c, hc1, hc2⟩ := h4 j hj
    refine ⟨hj1, by rw [List.length_set]; exact hj2, ?_⟩
    by_cases hjp : j = index
    · subst hjp
      have hdc : c = d := by
        rw [hc1] at hget
        exact Option.some.inj hget
      refine ⟨d', ?_, ?_⟩
      · exact List.get?_set_eq_of_lt _ (get?_some_lt hc1)
      · rw [hpar, ← hdc]
        exact hc2
    · refine ⟨c, ?_, hc2⟩
      rw [List.get?_set_ne _ _ (fun he => hjp he.symm)]
      exact hc1

/-- `IdKeyWf` survives a `set` with a node whose id is its entity's key. -/
theorem idKeyWf_set {A : List Diffable} {index : Nat} {d' : Diffable}
    (hik : IdKeyWf A) (hd' : d'.id = d'.entity.name_key) :
    IdKeyWf (A.set index d') := by
  intro i dd hdd
  by_cases hip : i = index
  · subst hip
    have hlt := get?_some_lt hdd
    rw [List.length_set] at hlt
    rw [List.get?_set_eq_of_lt _ hlt] at hdd
    injection hdd with hdd
    subst hdd
    exact hd'
  · rw [List.get?_set_ne _ _ (fun he => hip he.symm)] at hdd
    exact hik i dd hdd

theorem mem_insertM {κ ν : Type} [DecidableEq κ] {m : List (κ × ν)}
    {p : κ × ν} {k : κ} {v : ν} (h : p ∈ insertM m k v) : p ∈ m ∨ p = (k, v) := by
  induction m with
  | nil =>
    right
    simpa [insertM] using h
  | cons q qs ih =>
    rw [insertM_cons] at h
    by_cases hq : q.1 = k
    · rw [if_pos hq] at h
      rcases List.mem_cons.mp h with h | h
      · right
        exact h
      · left
        exact List.mem_cons_of_mem _ h
    · rw [if_neg hq] at h
      rcases List.mem_cons.mp h with h | h
      · left
        rw [h]
        exact List.mem_cons_self _ _
      · rcases ih h with h | h
        · left
          exact List.mem_cons_of_mem _ h
        · right
          exact h

/-- Core of the Modify arm: rewriting a node in place (keeping its links) and
re-registering it under a fresh id preserves all engine invariants. -/
theorem engineInv_modify_core
    (e : DiffEngine) (name role : String) (index : Nat) (d d' : Diffable)
    (h : EngineInv e)
    (heq1 : lookupM e.last_state (make_name_key name role) = some index)
    (hget : e.diffable_arena.get? index = some d)
    (hidx : d'.index = d.index) (hpar : d'.parent_index = d.parent_index)
    (hch : d'.children_indexes = d.children_indexes)
    (hidk : d'.id = d'.entity.name_key)
    (hfreshX : d'.id ∉ (removeM e.last_state (make_name_key name role)).map Prod.fst) :
    EngineInv { e with
      diffable_arena := e.diffable_arena.set index d'
      last_state := insertM (removeM e.last_state (make_name_key name role))
        d'.id index } := by
  have hmem1 : (make_name_key name role, index) ∈ e.last_state := lookupM_mem heq1
  have hid_d : d.id = make_name_key name role := by
    obtain ⟨d0, hd0, hid0⟩ := h.last _ hmem1
    have hd0d : d0 = d := by
      rw [hget] at hd0
      exact (Option.some.inj hd0).symm
    rw [← hd0d]
    exact hid0
  refine { arena := arenaWf_set_same_links h.arena hget hidx hpar hch,
           idkey := idKeyWf_set h.idkey hidk,
           current := ?_, currentNodup := h.currentNodup,
           last := ?_, lastNodup := ?_, disj := ?_ }
  · -- last
    intro kv hkv
    rcases mem_insertM hkv with hm | hm
    · have hne_id := mem_removeM_ne hm
      have hmem := mem_removeM hm
      obtain ⟨c, hc, hidc⟩ := h.last kv hmem
      have hvne : kv.2 ≠ index := by
        intro he
        rw [he] at hc
        have hcd : c = d := by
          rw [hget] at hc
          exact (Option.some.inj hc).symm
        rw [hcd, hid_d] at hidc
        exact hne_id hidc.symm
      refine ⟨c, ?_, hidc⟩
      rw [List.get?_set_ne _ _ (fun he => hvne he.symm)]
      exact hc
    · rw [hm]
      exact ⟨d', List.get?_set_eq_of_lt _ (get?_some_lt hget), rfl⟩
  · -- current
    intro kv hkv
    obtain ⟨c, hc, hidc⟩ := h.current kv hkv
    have hne : kv.2 ≠ index := (h.disj _ hmem1 kv hkv).symm
    refine ⟨c, ?_, hidc⟩
    rw [List.get?_set_ne _ _ (fun he => hne he.symm)]
    exact hc
  · exact nodup_keys_insertM_of_not_contains _ hfreshX (nodup_keys_removeM _ h.lastNodup)
  · intro kv1 hkv1 kv2 hkv2
    rcases mem_insertM hkv1 with hm | hm
    · exact h.disj kv1 (mem_removeM hm) kv2 hkv2
    · rw [hm]
      exact h.disj _ hmem1 kv2 hkv2

/-- `patch` preserves the engine invariants (on every arm, error or not). -/
theorem engineInv_patch (e : DiffEngine) (op : Patch) (h : EngineInv e) :
    EngineInv (e.patch op).2 := by
  cases op with
  | Delete name role =>
    simp only [DiffEngine.patch]
    split
    · exact engineInv_delete_subtree e _ h
    · exact h
  | New entity parent =>
    simp only [DiffEngine.patch]
    cases parent with
    | none =>
      exact engineInv_load_into_last e [(none, entity)] h
        (by
          intro it hit pp hpp
          rw [List.mem_singleton] at hit
          rw [hit] at hpp
          cases hpp)
    | some pr =>
      obtain ⟨pn, prr⟩ := pr
      simp only
      split
      · rename_i pindex heq
        refine engineInv_load_into_last e [(some pindex, entity)] h ?_
        intro it hit pp hpp
        rw [List.mem_singleton] at hit
        rw [hit] at hpp
        injection hpp with hpp
        subst hpp
        have hmem := lookupM_mem heq
        exact h.last.values_lt _ hmem
      · exact h
  | Modify extras name role ntn nn mods dels =>
    simp only [DiffEngine.patch]
    split
    · exact h
    · rename_i hguard
      split
      · exact h
      · rename_i index heq1
        split
        · rename_i hga
          -- `MissingFromArena` branch: only a removal happened
          refine { arena := h.arena, idkey := h.idkey, current := h.current,
                   currentNodup := h.currentNodup, last := ?_, lastNodup := ?_,
                   disj := ?_ }
          · intro kv hkv
            exact h.last kv (mem_removeM hkv)
          · exact nodup_keys_removeM _ h.lastNodup
          · intro kv1 hkv1 kv2 hkv2
            exact h.disj kv1 (mem_removeM hkv1) kv2 hkv2
        · rename_i d hget
          have hmem1 : (make_name_key name role, index) ∈ e.last_state :=
            lookupM_mem heq1
          have hid_d : d.id = make_name_key name role := by
            obtain ⟨d0, hd0, hid0⟩ := h.last _ hmem1
            have hd0d : d0 = d := by
              rw [hget] at hd0
              exact (Option.some.inj hd0).symm
            rw [← hd0d]
            exact hid0
          have hnr := make_name_key_inj ((h.idkey index d hget).symm.trans hid_d)
          cases nn with
          | none =>
            cases ntn with
            | none =>
              refine engineInv_modify_core e name role index d _ h heq1 hget
                rfl rfl rfl rfl ?_
              simp only [Entity.name_key, Entity.withExtras_name, Entity.withExtras_role,
                Entity.withAttrs_name, Entity.withAttrs_role]
              rw [hnr.1, hnr.2]
              exact keys_removeM_not_mem _ _
            | some t =>
              refine engineInv_modify_core e name role index d _ h heq1 hget
                rfl rfl rfl rfl ?_
              simp only [Entity.name_key, Entity.withExtras_name, Entity.withExtras_role,
                Entity.withAttrs_name, Entity.withAttrs_role,
                Entity.withTypeName_name, Entity.withTypeName_role]
              rw [hnr.1, hnr.2]
              exact keys_removeM_not_mem _ _
          | some n =>
            have hfreshn : make_name_key n role
                ∉ (removeM e.last_state (make_name_key name role)).map Prod.fst := by
              by_cases hne : make_name_key n role = make_name_key name role
              · rw [hne]
                exact keys_removeM_not_mem _ _
              · have hnc : containsM e.last_state (make_name_key n role) = false := by
                  rcases hcc : containsM e.last_state (make_name_key n role)
                  · rfl
                  · exact absurd ⟨hcc, hne⟩ hguard
                intro hmem
                have hmem2 : make_name_key n role ∈ e.last_state.map Prod.fst := by
                  rcases List.mem_map.mp hmem with ⟨p, hp, hfst⟩
                  exact List.mem_map.mpr ⟨p, mem_removeM hp, hfst⟩
                rw [containsM_eq_false_iff] at hnc
                exact hnc hmem2
            cases ntn with
            | none =>
              refine engineInv_modify_core e name role index d _ h heq1 hget
                rfl rfl rfl rfl ?_
              simp only [Entity.name_key, Entity.withExtras_name, Entity.withExtras_role,
                Entity.withAttrs_name, Entity.withAttrs_role,
                Entity.withName_name, Entity.withName_role]
              rw [hnr.2]
              exact hfreshn
            | some t =>
              refine engineInv_modify_core e name role index d _ h heq1 hget
                rfl rfl rfl rfl ?_
              simp only [Entity.name_key, Entity.withExtras_name, Entity.withExtras_role,
                Entity.withAttrs_name, Entity.withAttrs_role,
                Entity.withTypeName_name, Entity.withTypeName_role,
                Entity.withName_name, Entity.withName_role]
              rw [hnr.2]
              exact hfreshn

/-! ## Reachable engine states and the C9 invariant -/

/-- The fresh engine satisfies all invariants (everything is empty). -/
theorem engineInv_new : EngineInv DiffEngine.new := by
  refine { arena := ?_, idkey := ?_, last := ?_, current := ?_,
           lastNodup := ?_, currentNodup := ?_, disj := ?_ }
  · intro i d hget
    simp [DiffEngine.new] at hget
  · intro i d hget
    simp [DiffEngine.new] at hget
  · intro kv hkv
    cases hkv
  · intro kv hkv
    cases hkv
  · exact List.nodup_nil
  · exact List.nodup_nil
  · intro kv1 hkv1
    cases hkv1

/-- Engine states reachable through the public API. `diff` is read-only (it
returns an `Except` and leaves the engine untouched), so it needs no
constructor. -/
inductive Reachable : DiffEngine → Prop where
  | new : Reachable DiffEngine.new
  | load_last (e : DiffEngine) (f : List Entity) :
      Reachable e → Reachable (e.load_last_state f).2
  | load_current (e : DiffEngine) (f : List Entity) :
      Reachable e → Reachable (e.load_current_state f).2
  | patch_op (e : DiffEngine) (op : Patch) :
      Reachable e → Reachable (e.patch op).2

/-- Every reachable engine satisfies all invariants. -/
theorem engineInv_of_reachable {e : DiffEngine} (h : Reachable e) :
    EngineInv e := by
  induction h with
  | new => exact engineInv_new
  | load_last e f _ ih => exact engineInv_load_last e f ih
  | load_current e f _ ih => exact engineInv_load_current e f ih
  | patch_op e op _ ih => exact engineInv_patch e op ih

/-- C9: every public operation preserves the arena structural invariant: the
`Diffable` stored at arena position `i` has `index = i`; a `parent_index` of
`some p` satisfies `p < i`; every `j` in `children_indexes` satisfies `j > i`
and the node at position `j` has `parent_index = some i`; and every value
stored in `last_state` or `current_state` is a valid arena position whose
`Diffable`'s `id` equals the key it is stored under. -/
theorem c9_public_ops_preserve_arena_invariant (e : DiffEngine)
    (h : Reachable e) :
    (∀ i d, e.diffable_arena.get? i = some d →
      d.index = i ∧
      (∀ p, d.parent_index = some p → p < i) ∧
      (∀ j ∈ d.children_indexes, i < j ∧
        ∃ c, e.diffable_arena.get? j = some c ∧ c.parent_index = some i)) ∧
    (∀ kv ∈ e.last_state,
      ∃ d, e.diffable_arena.get? kv.2 = some d ∧ d.id = kv.1) ∧
    (∀ kv ∈ e.current_state,
      ∃ d, e.diffable_arena.get? kv.2 = some d ∧ d.id = kv.1) := by
  have hinv := engineInv_of_reachable h
  refine ⟨?_, hinv.last, hinv.current⟩
  intro i d hget
  obtain ⟨h1, h2, _, h4⟩ := hinv.arena i d hget
  exact ⟨h1, h2, fun j hj => ⟨(h4 j hj).1, (h4 j hj).2.2⟩⟩

theorem c9_public_ops_preserve_arena_invariant_witness :
    ∃ d, (DiffEngine.new.load_last_state [entUsers]).2.diffable_arena.get? 0
        = some d ∧ d.id = entUsers.name_key :=
  (c9_public_ops_preserve_arena_invariant _
      (Reachable.load_last _ _ Reachable.new)).2.1
    (entUsers.name_key, 0) (by decide)

/-! ## Error paths of `patch` (C1) -/

/-- The purge loop never errors when every stack entry is a valid arena
index and every node's child links stay inside the arena. -/
theorem removeIdLoop_no_error :
    ∀ (fuel : Nat) (stack : List Nat) (arena : List Diffable) (st : StateMap),
      (∀ j d, arena.get? j = some d →
        ∀ c ∈ d.children_indexes, c < arena.length) →
      (∀ ix ∈ stack, ix < arena.length) →
      (removeIdLoop fuel stack arena st).1 = none := by
  intro fuel
  induction fuel with
  | zero =>
    intro stack arena st _ _
    cases stack <;> rfl
  | succ fuel ih =>
    intro stack arena st hch hs
    cases stack with
    | nil => rfl
    | cons ix rest =>
      obtain ⟨d, hd⟩ := get?_of_lt (hs ix (List.mem_cons_self _ _))
      rw [removeIdLoop, hd]
      refine ih _ arena _ hch ?_
      intro j hj
      rcases List.mem_append.mp hj with hj | hj
      · exact hch ix d hd j (List.mem_reverse.mp hj)
      · exact hs j (List.mem_cons_of_mem _ hj)

/-- Under the invariants, `delete_subtree` at a live index never errors. -/
theorem delete_subtree_no_error (e : DiffEngine) (index : Nat) {d : Diffable}
    (h : EngineInv e) (hget : e.diffable_arena.get? index = some d) :
    (e.delete_subtree index).1 = none := by
  have hidx : index < e.diffable_arena.length := get?_some_lt hget
  rw [DiffEngine.delete_subtree, hget]
  simp only
  split
  · -- the node has a parent: its child list was filtered
    split
    · rename_i parent heq
      refine removeIdLoop_no_error _ _ _ _ ?_ ?_
      · intro j dj hdj c hc
        have := (((arenaWf_filter_children h.arena heq index) j dj hdj).2.2.2 c hc).2.1
        rwa [List.length_set] at this ⊢
      · intro ix hix
        rw [List.mem_singleton] at hix
        subst hix
        rw [List.length_set]
        exact hidx
    · refine removeIdLoop_no_error _ _ _ _ ?_ ?_
      · intro j dj hdj c hc
        exact ((h.arena j dj hdj).2.2.2 c hc).2.1
      · intro ix hix
        rw [List.mem_singleton] at hix
        subst hix
        exact hidx
  · -- root node: only `last_root_indexes` was filtered
    refine removeIdLoop_no_error _ _ _ _ ?_ ?_
    · intro j dj hdj c hc
      exact ((h.arena j dj hdj).2.2.2 c hc).2.1
    · intro ix hix
      rw [List.mem_singleton] at hix
      subst hix
      exact hidx

/-- C1 counterexample: replaying `New` with a root entity whose child shares
its `(name, role)` fails with `DuplicateEntity` midway through flattening,
yet the arena has grown: the error return is not atomic. -/
theorem c1_patch_error_counterexample :
    (DiffEngine.new.patch
        (.New (.mk "a" "r" "t" [] [] [.mk "a" "r" "t" [] [] []]) none)).1
      = some (.DuplicateEntity "a" "r") ∧
    (DiffEngine.new.patch
        (.New (.mk "a" "r" "t" [] [] [.mk "a" "r" "t" [] [] []]) none)).2.diffable_arena.length
      = 1 ∧
    DiffEngine.new.diffable_arena.length = 0 :=
  ⟨by decide, by decide, rfl⟩

/-- C1 (amended): on every reachable engine, an erroring `patch` makes no
mutation for `Delete` and `Modify` operations and for a `New` that fails with
`EntityNotFound` (unresolved parent); a `New` never touches the `current`
snapshot even when it fails mid-flattening. -/
theorem c1_amended_patch_error_atomic (e : DiffEngine) (h : Reachable e) :
    (∀ name role, (e.patch (.Delete name role)).1 ≠ none →
      (e.patch (.Delete name role)).2 = e) ∧
    (∀ extras name role ntn nn mods dels,
      (e.patch (.Modify extras name role ntn nn mods dels)).1 ≠ none →
      (e.patch (.Modify extras name role ntn nn mods dels)).2 = e) ∧
    (∀ entity pn pr,
      (e.patch (.New entity (some (pn, pr)))).1
          = some (.EntityNotFound pn pr) →
      (e.patch (.New entity (some (pn, pr)))).2 = e) ∧
    (∀ entity parent,
      (e.patch (.New entity parent)).2.current_state = e.current_state ∧
      (e.patch (.New entity parent)).2.current_root_indexes
        = e.current_root_indexes) := by
  have hinv := engineInv_of_reachable h
  refine ⟨?_, ?_, ?_, ?_⟩
  · intro name role herr
    have hshape : e.patch (.Delete name role)
        = (match lookupM e.last_state (make_name_key name role) with
           | some index => e.delete_subtree index
           | none => (some (.EntityNotFound name role), e)) := rfl
    rcases hlk : lookupM e.last_state (make_name_key name role) with _ | index
    · rw [hshape, hlk]
    · exfalso
      apply herr
      rw [hshape, hlk]
      obtain ⟨d2, hd2, _⟩ := hinv.last _ (lookupM_mem hlk)
      exact delete_subtree_no_error e index hinv hd2
  · intro extras name role ntn nn mods dels herr
    simp only [DiffEngine.patch] at herr ⊢
    split
    · rfl
    · rename_i hguard
      split
      · rfl
      · rename_i index heq1
        split
        · rename_i hga
          exfalso
          obtain ⟨d2, hd2, _⟩ := hinv.last _ (lookupM_mem heq1)
          rw [hga] at hd2
          cases hd2
        · rename_i d hget
          exfalso
          apply herr
          rw [if_neg hguard]
          simp only [heq1, hget]
  · intro entity pn pr herr
    simp only [DiffEngine.patch] at herr ⊢
    split
    · rename_i pindex heq
      exfalso
      rw [heq] at herr
      replace herr : (load_state (queueSize [(some pindex, entity)])
            [(some pindex, entity)] e.diffable_arena e.last_state
            e.last_root_indexes).1 = some (.EntityNotFound pn pr) := herr
      obtain ⟨n2, r2, hsh⟩ := load_state_error_shape _ _ _ _ _ _ herr
      exact DiffError.noConfusion hsh
    · rfl
  · intro entity parent
    cases parent with
    | none => exact ⟨rfl, rfl⟩
    | some pr =>
      obtain ⟨pn, prr⟩ := pr
      simp only [DiffEngine.patch]
      split
      · exact ⟨rfl, rfl⟩
      · exact ⟨rfl, rfl⟩

theorem c1_amended_patch_error_atomic_witness :
    (DiffEngine.new.patch (.Delete "users" "table")).1 ≠ none ∧
    (DiffEngine.new.patch (.Delete "users" "table")).2 = DiffEngine.new :=
  ⟨by decide,
   (c1_amended_patch_error_atomic DiffEngine.new Reachable.new).1
     "users" "table" (by decide)⟩

/-! ## C3: the cascading delete removes exactly the subtree -/

/-- Child links run upward and stay inside the arena. -/
def ChildLinksWf (A : List Diffable) : Prop :=
  ∀ j d, A.get? j = some d → ∀ c ∈ d.children_indexes, j < c ∧ c < A.length

theorem childLinksWf_of_arenaWf {A : List Diffable} (ha : ArenaWf A) :
    ChildLinksWf A :=
  fun j d h c hc => ⟨((ha j d h).2.2.2 c hc).1, ((ha j d h).2.2.2 c hc).2.1⟩

/-- The indexes `delete_subtree`'s stack loop visits from root `ix`, with
explicit fuel; `arena.length + 1` is always enough (`descListF_congr`). -/
def descListF (A : List Diffable) : Nat → Nat → List Nat
  | 0, ix => [ix]
  | fuel + 1, ix =>
    ix :: (match A.get? ix with
      | none => []
      | some d => d.children_indexes.flatMap (descListF A fuel))

theorem descListF_succ_none {A : List Diffable} {fuel ix : Nat}
    (h : A.get? ix = none) : descListF A (fuel + 1) ix = [ix] := by
  rw [descListF, h]

theorem descListF_succ_some {A : List Diffable} {fuel ix : Nat} {d : Diffable}
    (h : A.get? ix = some d) :
    descListF A (fuel + 1) ix
      = ix :: d.children_indexes.flatMap (descListF A fuel) := by
  rw [descListF, h]

theorem descListF_head (A : List Diffable) (f ix : Nat) :
    ix ∈ descListF A f ix := by
  cases f with
  | zero => exact List.mem_singleton.mpr rfl
  | succ f =>
    cases hget : A.get? ix with
    | none => rw [descListF_succ_none hget]; exact List.mem_singleton.mpr rfl
    | some d => rw [descListF_succ_some hget]; exact List.mem_cons_self _ _

theorem descListF_length_pos (A : List Diffable) (f ix : Nat) :
    0 < (descListF A f ix).length := by
  cases f with
  | zero => simp [descListF]
  | succ f =>
    cases hget : A.get? ix with
    | none => rw [descListF_succ_none hget]; simp
    | some d => rw [descListF_succ_some hget]; simp

theorem descListF_congr (A : List Diffable) (hw : ChildLinksWf A) :
    ∀ f1 f2 ix, A.length - ix < f1 → A.length - ix < f2 →
      descListF A f1 ix = descListF A f2 ix := by
  intro f1
  induction f1 with
  | zero => intro f2 ix h1 _; exact absurd h1 (Nat.not_lt_zero _)
  | succ f1 ih =>
    intro f2 ix h1 h2
    cases f2 with
    | zero => exact absurd h2 (Nat.not_lt_zero _)
    | succ f2 =>
      cases hget : A.get? ix with
      | none => rw [descListF_succ_none hget, descListF_succ_none hget]
      | some d =>
        rw [descListF_succ_some hget, descListF_succ_some hget]
        congr 1
        refine flatMap_congr ?_
        intro c hc
        have hcb := hw ix d hget c hc
        exact ih f2 c (by omega) (by omega)

theorem descListF_unfold_full {A : List Diffable} (hw : ChildLinksWf A)
    {ix : Nat} {d : Diffable} (hget : A.get? ix = some d) :
    descListF A (A.length + 1) ix
      = ix :: d.children_indexes.flatMap (descListF A (A.length + 1)) := by
  rw [descListF_succ_some hget]
  congr 1
  refine flatMap_congr ?_
  intro c hc
  have hcb := hw ix d hget c hc
  have hixlt : ix < A.length := get?_some_lt hget
  exact descListF_congr A hw A.length (A.length + 1) c (by omega) (by omega)

theorem length_flatMap {α β : Type} (l : List α) (f : α → List β) :
    (l.flatMap f).length = (l.map (fun a => (f a).length)).sum := by
  induction l with
  | nil => rfl
  | cons a l ih =>
    rw [List.flatMap_cons, List.length_append, ih, List.map_cons, List.sum_cons]

/-- `j` lies in the subtree of `i` (reflexive-transitive closure of the
`children_indexes` links). -/
inductive DescendantIx (A : List Diffable) : Nat → Nat → Prop where
  | refl (i : Nat) : DescendantIx A i i
  | child (i j k : Nat) (d : Diffable) : DescendantIx A i j →
      A.get? j = some d → k ∈ d.children_indexes → DescendantIx A i k

theorem descendantIx_trans {A : List Diffable} {a b c : Nat}
    (h1 : DescendantIx A a b) (h2 : DescendantIx A b c) :
    DescendantIx A a c := by
  induction h2 with
  | refl => exact h1
  | child j2 k2 d hprev hj hk ih => exact .child a j2 k2 d ih hj hk

theorem descendantIx_le {A : List Diffable} (hw : ChildLinksWf A) {i j : Nat}
    (h : DescendantIx A i j) : i ≤ j := by
  induction h with
  | refl => exact Nat.le_refl _
  | child j2 k2 d hprev hj hk ih =>
    exact Nat.le_of_lt (Nat.lt_of_le_of_lt ih (hw j2 d hj k2 hk).1)

theorem descListF_desc (A : List Diffable) :
    ∀ (f ix j : Nat), j ∈ descListF A f ix → DescendantIx A ix j := by
  intro f
  induction f with
  | zero =>
    intro ix j hj
    rw [show descListF A 0 ix = [ix] from rfl, List.mem_singleton] at hj
    rw [hj]
    exact .refl ix
  | succ f ih =>
    intro ix j hj
    cases hget : A.get? ix with
    | none =>
      rw [descListF_succ_none hget, List.mem_singleton] at hj
      rw [hj]
      exact .refl ix
    | some d =>
      rw [descListF_succ_some hget, List.mem_cons] at hj
      rcases hj with hj | hj
      · rw [hj]
        exact .refl ix
      · rcases List.mem_flatMap.mp hj with ⟨c, hc, hjc⟩
        exact descendantIx_trans (.child ix ix c d (.refl ix) hget hc) (ih c j hjc)

theorem mem_descListF_child_aux {A : List Diffable} (hw : ChildLinksWf A) :
    ∀ (n ix j : Nat), A.length - ix ≤ n →
      j ∈ descListF A (A.length + 1) ix →
      ∀ dj, A.get? j = some dj → ∀ k ∈ dj.children_indexes,
        k ∈ descListF A (A.length + 1) ix := by
  intro n
  induction n with
  | zero =>
    intro ix j hn hj dj hdj k _
    have hnone : A.get? ix = none := List.get?_eq_none.mpr (by omega)
    rw [descListF_succ_none hnone, List.mem_singleton] at hj
    rw [hj, hnone] at hdj
    cases hdj
  | succ n ih =>
    intro ix j hn hj dj hdj k hk
    cases hget : A.get? ix with
    | none =>
      rw [descListF_succ_none hget, List.mem_singleton] at hj
      rw [hj, hget] at hdj
      cases hdj
    | some d =>
      rw [descListF_unfold_full hw hget] at hj ⊢
      rcases List.mem_cons.mp hj with hj | hj
      · subst hj
        rw [hget] at hdj
        have hdd : d = dj := Option.some.inj hdj
        refine List.mem_cons.mpr (Or.inr ?_)
        refine List.mem_flatMap.mpr ⟨k, ?_, descListF_head A _ k⟩
        rw [hdd]
        exact hk
      · rcases List.mem_flatMap.mp hj with ⟨c, hc, hjc⟩
        have hcb := hw ix d hget c hc
        refine List.mem_cons.mpr (Or.inr (List.mem_flatMap.mpr ⟨c, hc, ?_⟩))
        exact ih c j (by omega) hjc dj hdj k hk

theorem desc_mem_descListF {A : List Diffable} (hw : ChildLinksWf A)
    {ix j : Nat} (h : DescendantIx A ix j) :
    j ∈ descListF A (A.length + 1) ix := by
  induction h with
  | refl => exact descListF_head A _ ix
  | child j2 k2 d hprev hj hk ih =>
    exact mem_descListF_child_aux hw A.length ix j2 (by omega) ih d hj k2 hk

/-- Two ancestors of one node are comparable: parent links are unique, so
ancestor chains form a line. -/
theorem descendantIx_linear {A : List Diffable} (ha : ArenaWf A) :
    ∀ {c1 j : Nat}, DescendantIx A c1 j → ∀ {c2 : Nat}, DescendantIx A c2 j →
      DescendantIx A c1 c2 ∨ DescendantIx A c2 c1 := by
  intro c1 j h1
  induction h1 with
  | refl =>
    intro c2 h2
    right
    exact h2
  | child j2 k2 d hprev hj hk ih =>
    intro c2 h2
    cases h2 with
    | refl => exact Or.inl (.child c1 j2 k2 d hprev hj hk)
    | child j3 k3 d3 hprev3 hj3 hk3 =>
      obtain ⟨_, _, ck, hck, hpk⟩ := (ha j2 d hj).2.2.2 k2 hk
      obtain ⟨_, _, ck3, hck3, hpk3⟩ := (ha j3 d3 hj3).2.2.2 k2 hk3
      have hckeq : ck = ck3 := by
        rw [hck] at hck3
        exact Option.some.inj hck3
      have hjeq : j3 = j2 := by
        rw [hckeq, hpk3] at hpk
        exact Option.some.inj hpk
      rw [hjeq] at hprev3
      exact ih hprev3

/-- A strict descendant of one child of `ix` is never another child of
`ix`. -/
theorem desc_between {A : List Diffable} (ha : ArenaWf A)
    {ix : Nat} {d : Diffable} (hget : A.get? ix = some d)
    {c1 c2 : Nat} (h1 : c1 ∈ d.children_indexes) (h2 : c2 ∈ d.children_indexes)
    (hne : c1 ≠ c2) (h : DescendantIx A c1 c2) : False := by
  have hw := childLinksWf_of_arenaWf ha
  cases h with
  | refl => exact hne rfl
  | child j2 k2 d2 hprev hj hk =>
    obtain ⟨_, _, ck, hck, hpk⟩ := (ha j2 d2 hj).2.2.2 c2 hk
    obtain ⟨hlt2, _, ck2, hck2, hpk2⟩ := (ha ix d hget).2.2.2 c2 h2
    have hckeq : ck = ck2 := by
      rw [hck] at hck2
      exact Option.some.inj hck2
    have hjeq : j2 = ix := by
      rw [hckeq, hpk2] at hpk
      exact (Option.some.inj hpk).symm
    rw [hjeq] at hprev
    have hle := descendantIx_le hw hprev
    have hlt1 := ((ha ix d hget).2.2.2 c1 h1).1
    omega

theorem desc_sibling_disjoint {A : List Diffable} (ha : ArenaWf A)
    {ix : Nat} {d : Diffable} (hget : A.get? ix = some d)
    {c1 c2 : Nat} (h1 : c1 ∈ d.children_indexes) (h2 : c2 ∈ d.children_indexes)
    (hne : c1 ≠ c2) {x : Nat} (hx1 : DescendantIx A c1 x)
    (hx2 : DescendantIx A c2 x) : False := by
  rcases descendantIx_linear ha hx1 hx2 with h | h
  · exact desc_between ha hget h1 h2 hne h
  · exact desc_between ha hget h2 h1 (Ne.symm hne) h

theorem descListF_lt_length {A : List Diffable} (hw : ChildLinksWf A) :
    ∀ (f ix : Nat), ix < A.length → ∀ j ∈ descListF A f ix, j < A.length := by
  intro f
  induction f with
  | zero =>
    intro ix hix j hj
    rw [show descListF A 0 ix = [ix] from rfl, List.mem_singleton] at hj
    rw [hj]
    exact hix
  | succ f ih =>
    intro ix hix j hj
    cases hget : A.get? ix with
    | none =>
      rw [descListF_succ_none hget, List.mem_singleton] at hj
      rw [hj]
      exact hix
    | some d =>
      rw [descListF_succ_some hget, List.mem_cons] at hj
      rcases hj with hj | hj
      · rw [hj]
        exact hix
      · rcases List.mem_flatMap.mp hj with ⟨c, hc, hjc⟩
        exact ih c (hw ix d hget c hc).2 j hjc

theorem nodup_flatMap_of_disjoint {α β : Type} :
    ∀ (l : List α) (f : α → List β),
      l.Nodup → (∀ a ∈ l, (f a).Nodup) →
      (∀ a ∈ l, ∀ b ∈ l, a ≠ b → ∀ x ∈ f a, x ∉ f b) →
      (l.flatMap f).Nodup := by
  intro l f
  induction l with
  | nil =>
    intro _ _ _
    simp
  | cons a l ih =>
    intro hnd hfa hdisj
    rw [List.flatMap_cons]
    rw [List.nodup_cons] at hnd
    refine List.nodup_append.mpr ⟨hfa a (List.mem_cons_self _ _), ih hnd.2 ?_ ?_, ?_⟩
    · intro b hb
      exact hfa b (List.mem_cons_of_mem _ hb)
    · intro b hb c hc hbc x hx
      exact hdisj b (List.mem_cons_of_mem _ hb) c (List.mem_cons_of_mem _ hc) hbc x hx
    · intro x hxa hxl
      rcases List.mem_flatMap.mp hxl with ⟨b, hb, hxb⟩
      have hab : a ≠ b := fun he => hnd.1 (he ▸ hb)
      exact hdisj a (List.mem_cons_self _ _) b (List.mem_cons_of_mem _ hb) hab x hxa hxb

theorem descListF_nodup {A : List Diffable} (ha : ArenaWf A) :
    ∀ (n ix : Nat), A.length - ix ≤ n → (descListF A (A.length + 1) ix).Nodup := by
  have hw := childLinksWf_of_arenaWf ha
  intro n
  induction n with
  | zero =>
    intro ix hn
    have hnone : A.get? ix = none := List.get?_eq_none.mpr (by omega)
    rw [descListF_succ_none hnone]
    simp
  | succ n ih =>
    intro ix hn
    cases hget : A.get? ix with
    | none =>
      rw [descListF_succ_none hget]
      simp
    | some d =>
      have hixlt : ix < A.length := get?_some_lt hget
      rw [descListF_unfold_full hw hget, List.nodup_cons]
      constructor
      · intro hmem
        rcases List.mem_flatMap.mp hmem with ⟨c, hc, hjc⟩
        have hlt1 := (hw ix d hget c hc).1
        have hle2 := descendantIx_le hw (descListF_desc A _ c ix hjc)
        omega
      · refine nodup_flatMap_of_disjoint _ _ ?_ ?_ ?_
        · exact ((ha ix d hget).2.2.1).imp Nat.ne_of_lt
        · intro c hc
          have hcb := hw ix d hget c hc
          exact ih c (by omega)
        · intro c1 hc1 c2 hc2 hne x hx1 hx2
          exact desc_sibling_disjoint ha hget hc1 hc2 hne
            (descListF_desc A _ c1 x hx1) (descListF_desc A _ c2 x hx2)

theorem nodup_lt_length_le {l : List Nat} {n : Nat} (hnd : l.Nodup)
    (hlt : ∀ x ∈ l, x < n) : l.length ≤ n := by
  have h1 : l.toFinset.card = l.length := List.toFinset_card_of_nodup hnd
  have h2 : l.toFinset ⊆ Finset.range n := by
    intro x hx
    rw [List.mem_toFinset] at hx
    exact Finset.mem_range.mpr (hlt x hx)
  have h3 := Finset.card_le_card h2
  rw [h1, Finset.card_range] at h3
  exact h3

theorem descListF_length_le {A : List Diffable} (ha : ArenaWf A)
    {ix : Nat} (hix : ix < A.length) :
    (descListF A (A.length + 1) ix).length ≤ A.length :=
  nodup_lt_length_le (descListF_nodup ha A.length ix (by omega))
    (descListF_lt_length (childLinksWf_of_arenaWf ha) _ ix hix)

/-- The state-map keys the purge loop erases from root `ix`. -/
def descIds (A : List Diffable) (fuel ix : Nat) : List Key :=
  (descListF A fuel ix).filterMap (fun j => (A.get? j).map Diffable.id)

theorem mem_descIds {A : List Diffable} {f ix : Nat} {k : Key} :
    k ∈ descIds A f ix
      ↔ ∃ j, j ∈ descListF A f ix ∧ ∃ d, A.get? j = some d ∧ d.id = k := by
  rw [descIds, List.mem_filterMap]
  constructor
  · rintro ⟨j, hj, hfj⟩
    rcases Option.map_eq_some'.mp hfj with ⟨d, hd, hid⟩
    exact ⟨j, hj, d, hd, hid⟩
  · rintro ⟨j, hj, d, hd, hid⟩
    exact ⟨j, hj, Option.map_eq_some'.mpr ⟨d, hd, hid⟩⟩

/-- The purge loop ignores arena entries strictly below every stack entry
(such as the detached parent). -/
theorem removeIdLoop_set_lt {A : List Diffable} {p : Nat} {pd : Diffable}
    (hw : ChildLinksWf A) :
    ∀ (fuel : Nat) (stack : List Nat) (st : StateMap),
      (∀ ix ∈ stack, p < ix) →
      removeIdLoop fuel stack (A.set p pd) st = removeIdLoop fuel stack A st := by
  intro fuel
  induction fuel with
  | zero =>
    intro stack st _
    cases stack <;> rfl
  | succ fuel ih =>
    intro stack st hs
    cases stack with
    | nil => rfl
    | cons ix rest =>
      have hpix : p < ix := hs ix (List.mem_cons_self _ _)
      rw [removeIdLoop, removeIdLoop,
        List.get?_set_ne _ _ (Nat.ne_of_lt hpix)]
      cases hget : A.get? ix with
      | none => rfl
      | some d =>
        refine ih _ _ ?_
        intro j hj
        rcases List.mem_append.mp hj with hj | hj
        · exact Nat.lt_trans hpix (hw ix d hget j (List.mem_reverse.mp hj)).1
        · exact hs j (List.mem_cons_of_mem _ hj)

/-- With enough fuel, the purge loop erases exactly the ids of the stacked
subtrees from the state map. -/
theorem removeIdLoop_spec {A : List Diffable} (hw : ChildLinksWf A) :
    ∀ (fuel : Nat) (stack : List Nat) (st : StateMap),
      (∀ ix ∈ stack, ix < A.length) →
      (stack.map (fun ix => (descListF A (A.length + 1) ix).length)).sum ≤ fuel →
      ∀ k : Key,
        (k ∈ stack.flatMap (descIds A (A.length + 1)) →
          lookupM (removeIdLoop fuel stack A st).2 k = none) ∧
        (k ∉ stack.flatMap (descIds A (A.length + 1)) →
          lookupM (removeIdLoop fuel stack A st).2 k = lookupM st k) := by
  intro fuel
  induction fuel with
  | zero =>
    intro stack st hb hf k
    cases stack with
    | nil => exact ⟨fun hk => absurd hk (by simp), fun _ => rfl⟩
    | cons ix rest =>
      exfalso
      rw [List.map_cons, List.sum_cons] at hf
      have := descListF_length_pos A (A.length + 1) ix
      omega
  | succ fuel ih =>
    intro stack st hb hf k
    cases stack with
    | nil => exact ⟨fun hk => absurd hk (by simp), fun _ => rfl⟩
    | cons ix rest =>
      have hixlt : ix < A.length := hb ix (List.mem_cons_self _ _)
      obtain ⟨d, hget⟩ := get?_of_lt hixlt
      rw [List.map_cons, List.sum_cons] at hf
      have hlenix : (descListF A (A.length + 1) ix).length
          = 1 + (d.children_indexes.map
              (fun c => (descListF A (A.length + 1) c).length)).sum := by
        rw [descListF_unfold_full hw hget, List.length_cons, length_flatMap]
        omega
      have hfnew : ((d.children_indexes.reverse ++ rest).map
          (fun j => (descListF A (A.length + 1) j).length)).sum ≤ fuel := by
        rw [List.map_append, List.sum_append, List.map_reverse, List.sum_reverse]
        omega
      have hbnew : ∀ j ∈ d.children_indexes.reverse ++ rest, j < A.length := by
        intro j hj
        rcases List.mem_append.mp hj with hj | hj
        · exact (hw ix d hget j (List.mem_reverse.mp hj)).2
        · exact hb j (List.mem_cons_of_mem _ hj)
      have hstep : removeIdLoop (fuel + 1) (ix :: rest) A st
          = removeIdLoop fuel (d.children_indexes.reverse ++ rest) A
              (removeM st d.id) := by
        rw [removeIdLoop, hget]
      have ihh := ih (d.children_indexes.reverse ++ rest) (removeM st d.id)
        hbnew hfnew
      have hsub : ∀ k' : Key, k' ∈ (d.children_indexes.reverse ++ rest).flatMap
            (descIds A (A.length + 1)) →
          k' ∈ (ix :: rest).flatMap (descIds A (A.length + 1)) := by
        intro k' hk'
        rcases List.mem_flatMap.mp hk' with ⟨j, hj, hkj⟩
        rcases List.mem_append.mp hj with hj | hj
        · refine List.mem_flatMap.mpr ⟨ix, List.mem_cons_self _ _, ?_⟩
          rcases mem_descIds.mp hkj with ⟨m, hm, dm, hdm, hid⟩
          refine mem_descIds.mpr ⟨m, ?_, dm, hdm, hid⟩
          rw [descListF_unfold_full hw hget]
          exact List.mem_cons_of_mem _
            (List.mem_flatMap.mpr ⟨j, List.mem_reverse.mp hj, hm⟩)
        · exact List.mem_flatMap.mpr ⟨j, List.mem_cons_of_mem _ hj, hkj⟩
      have hdmem : d.id ∈ (ix :: rest).flatMap (descIds A (A.length + 1)) := by
        refine List.mem_flatMap.mpr ⟨ix, List.mem_cons_self _ _, ?_⟩
        exact mem_descIds.mpr ⟨ix, descListF_head A _ ix, d, hget, rfl⟩
      refine ⟨?_, ?_⟩
      · intro hk
        rw [hstep]
        by_cases hk2 : k ∈ (d.children_indexes.reverse ++ rest).flatMap
            (descIds A (A.length + 1))
        · exact (ihh k).1 hk2
        · rw [(ihh k).2 hk2]
          have hkid : k = d.id := by
            rcases List.mem_flatMap.mp hk with ⟨j, hj, hkj⟩
            rcases List.mem_cons.mp hj with hj | hj
            · subst hj
              rcases mem_descIds.mp hkj with ⟨m, hm, dm, hdm, hid⟩
              rw [descListF_unfold_full hw hget, List.mem_cons] at hm
              rcases hm with hm | hm
              · rw [hm, hget] at hdm
                have hdd : d = dm := Option.some.inj hdm
                rw [← hid, ← hdd]
              · exfalso
                rcases List.mem_flatMap.mp hm with ⟨c, hc, hmc⟩
                refine hk2 (List.mem_flatMap.mpr
                  ⟨c, List.mem_append.mpr (Or.inl (List.mem_reverse.mpr hc)), ?_⟩)
                exact mem_descIds.mpr ⟨m, hmc, dm, hdm, hid⟩
            · exfalso
              exact hk2 (List.mem_flatMap.mpr
                ⟨j, List.mem_append.mpr (Or.inr hj), hkj⟩)
          rw [hkid]
          exact lookupM_removeM_self
      · intro hk
        rw [hstep]
        have hk2 : k ∉ (d.children_indexes.reverse ++ rest).flatMap
            (descIds A (A.length + 1)) := fun hc => hk (hsub k hc)
        rw [(ihh k).2 hk2]
        have hkid : k ≠ d.id := fun he => hk (he ▸ hdmem)
        exact lookupM_removeM hkid

/-- What a successful `delete_subtree` does, exactly: no error, arena length
and current snapshot untouched, the ids of the whole subtree (and nothing
else) gone from `last_state`, and the index detached from the parent's child
list or from the root list. -/
theorem delete_subtree_spec (e : DiffEngine) (index : Nat) {d : Diffable}
    (h : EngineInv e) (hget : e.diffable_arena.get? index = some d) :
    (e.delete_subtree index).1 = none ∧
    (e.delete_subtree index).2.diffable_arena.length
      = e.diffable_arena.length ∧
    (e.delete_subtree index).2.current_state = e.current_state ∧
    (e.delete_subtree index).2.current_root_indexes
      = e.current_root_indexes ∧
    (∀ k : Key, (∃ j dj, DescendantIx e.diffable_arena index j ∧
          e.diffable_arena.get? j = some dj ∧ dj.id = k) →
        lookupM (e.delete_subtree index).2.last_state k = none) ∧
    (∀ k : Key, (¬ ∃ j dj, DescendantIx e.diffable_arena index j ∧
          e.diffable_arena.get? j = some dj ∧ dj.id = k) →
        lookupM (e.delete_subtree index).2.last_state k
          = lookupM e.last_state k) ∧
    (∀ p, d.parent_index = some p →
      ∃ pd, e.diffable_arena.get? p = some pd ∧
        (e.delete_subtree index).2.diffable_arena.get? p
          = some { pd with children_indexes :=
              pd.children_indexes.filter (fun ix => ix ≠ index) }) ∧
    (d.parent_index = none →
      (e.delete_subtree index).2.last_root_indexes
        = e.last_root_indexes.filter (fun ix => ix ≠ index)) := by
  have hw := childLinksWf_of_arenaWf h.arena
  have hixlt : index < e.diffable_arena.length := get?_some_lt hget
  have hchb : ∀ j dj, e.diffable_arena.get? j = some dj →
      ∀ c ∈ dj.children_indexes, c < e.diffable_arena.length :=
    fun j dj hdj c hc => (hw j dj hdj c hc).2
  have hstb : ∀ ix ∈ [index], ix < e.diffable_arena.length := by
    intro ix hix
    rw [List.mem_singleton] at hix
    rw [hix]
    exact hixlt
  have hfuel : (([index].map
      (fun ix => (descListF e.diffable_arena
        (e.diffable_arena.length + 1) ix).length)).sum)
      ≤ e.diffable_arena.length + 1 := by
    rw [List.map_cons, List.map_nil, List.sum_cons, List.sum_nil]
    have := descListF_length_le h.arena hixlt
    omega
  have hspec := removeIdLoop_spec hw (e.diffable_arena.length + 1) [index]
    e.last_state hstb hfuel
  have hmemiff : ∀ k : Key,
      k ∈ [index].flatMap (descIds e.diffable_arena
          (e.diffable_arena.length + 1))
      ↔ ∃ j dj, DescendantIx e.diffable_arena index j ∧
          e.diffable_arena.get? j = some dj ∧ dj.id = k := by
    intro k
    constructor
    · intro hk
      rcases List.mem_flatMap.mp hk with ⟨j0, hj0, hkj⟩
      rw [List.mem_singleton] at hj0
      subst hj0
      rcases mem_descIds.mp hkj with ⟨m, hm, dm, hdm, hid⟩
      exact ⟨m, dm, descListF_desc _ _ _ _ hm, hdm, hid⟩
    · rintro ⟨j, dj, hdesc, hgj, hidj⟩
      refine List.mem_flatMap.mpr ⟨index, List.mem_singleton.mpr rfl, ?_⟩
      exact mem_descIds.mpr ⟨j, desc_mem_descListF hw hdesc, dj, hgj, hidj⟩
  rw [DiffEngine.delete_subtree]
  cases hg : e.diffable_arena.get? index with
  | none =>
    rw [hg] at hget
    cases hget
  | some d2 =>
    have hdd : d2 = d := by
      rw [hg] at hget
      exact Option.some.inj hget
    subst hdd
    simp only
    rcases hpar : d2.parent_index with _ | p
    · -- root node
      refine ⟨?_, rfl, rfl, rfl, ?_, ?_, ?_, fun _ => rfl⟩
      · exact removeIdLoop_no_error _ _ _ _ hchb hstb
      · intro k hk
        exact (hspec k).1 ((hmemiff k).mpr hk)
      · intro k hk
        exact (hspec k).2 (fun hc => hk ((hmemiff k).mp hc))
      · intro p' hp'
        cases hp'
    · -- node with a parent
      have hplt : p < index := (h.arena index d2 hg).2.1 p hpar
      obtain ⟨pd, hpd⟩ := get?_of_lt (show p < e.diffable_arena.length by omega)
      simp only
      rw [hpd]
      simp only
      have hloop : removeIdLoop
          ((e.diffable_arena.set p { pd with children_indexes :=
              (pd.children_indexes.filter (fun ix => ix ≠ index)) }).length + 1)
          [index]
          (e.diffable_arena.set p { pd with children_indexes :=
              (pd.children_indexes.filter (fun ix => ix ≠ index)) })
          e.last_state
          = removeIdLoop (e.diffable_arena.length + 1) [index]
              e.diffable_arena e.last_state := by
        rw [List.length_set]
        refine removeIdLoop_set_lt hw _ _ _ ?_
        intro ix hix
        rw [List.mem_singleton] at hix
        rw [hix]
        exact hplt
      rw [hloop]
      refine ⟨?_, ?_, trivial, trivial, ?_, ?_, ?_, ?_⟩
      · exact removeIdLoop_no_error _ _ _ _ hchb hstb
      · rw [List.length_set]
      · intro k hk
        exact (hspec k).1 ((hmemiff k).mpr hk)
      · intro k hk
        exact (hspec k).2 (fun hc => hk ((hmemiff k).mp hc))
      · intro p' hp'
        injection hp' with hp'
        subst hp'
        refine ⟨pd, hpd, ?_⟩
        exact List.get?_set_eq_of_lt _ (by omega)
      · intro hnone
        cases hnone

/-- C3: on every reachable engine, if `(name, role)` maps to `index` in
`last_state`, `patch (Delete ...)` succeeds; it erases from `last_state`
exactly the ids of `index`'s subtree (transitively via `children_indexes`),
detaches `index` from its parent's child list (or from `last_root_indexes`
for a root), and leaves the arena length and the whole `current` snapshot
unchanged. -/
theorem c3_delete_cascades_exactly (e : DiffEngine) (h : Reachable e)
    (name role : String) (index : Nat)
    (hlk : lookupM e.last_state (make_name_key name role) = some index) :
    (e.patch (.Delete name role)).1 = none ∧
    (e.patch (.Delete name role)).2.diffable_arena.length
      = e.diffable_arena.length ∧
    (e.patch (.Delete name role)).2.current_state = e.current_state ∧
    (e.patch (.Delete name role)).2.current_root_indexes
      = e.current_root_indexes ∧
    (∀ k : Key, (∃ j dj, DescendantIx e.diffable_arena index j ∧
          e.diffable_arena.get? j = some dj ∧ dj.id = k) →
        lookupM (e.patch (.Delete name role)).2.last_state k = none) ∧
    (∀ k : Key, (¬ ∃ j dj, DescendantIx e.diffable_arena index j ∧
          e.diffable_arena.get? j = some dj ∧ dj.id = k) →
        lookupM (e.patch (.Delete name role)).2.last_state k
          = lookupM e.last_state k) ∧
    (∀ d, e.diffable_arena.get? index = some d →
      (∀ p, d.parent_index = some p →
        ∃ pd, e.diffable_arena.get? p = some pd ∧
          (e.patch (.Delete name role)).2.diffable_arena.get? p
            = some { pd with children_indexes :=
                (pd.children_indexes.filter (fun ix => ix ≠ index)) }) ∧
      (d.parent_index = none →
        (e.patch (.Delete name role)).2.last_root_indexes
          = e.last_root_indexes.filter (fun ix => ix ≠ index))) := by
  have hinv := engineInv_of_reachable h
  obtain ⟨d, hget, hid⟩ := hinv.last _ (lookupM_mem hlk)
  have hp : e.patch (.Delete name role) = e.delete_subtree index := by
    show (match lookupM e.last_state (make_name_key name role) with
          | some index => e.delete_subtree index
          | none => (some (.EntityNotFound name role), e)) = _
    rw [hlk]
  rw [hp]
  obtain ⟨h1, h2, h3, h4, h5, h6, h7, h8⟩ := delete_subtree_spec e index hinv hget
  refine ⟨h1, h2, h3, h4, h5, h6, ?_⟩
  intro d0 hget0
  have hd0 : d0 = d := by
    rw [hget] at hget0
    exact (Option.some.inj hget0).symm
  subst hd0
  exact ⟨h7, h8⟩

theorem c3_delete_cascades_exactly_witness :
    lookupM ((DiffEngine.new.load_last_state [entParent1]).2.patch
        (.Delete "parent1" "table")).2.last_state entChild.name_key = none := by
  have h := c3_delete_cascades_exactly
    (DiffEngine.new.load_last_state [entParent1]).2
    (Reachable.load_last _ _ Reachable.new) "parent1" "table" 0 (by decide)
  refine h.2.2.2.2.1 entChild.name_key
    ⟨1, loadNode (some 0) 1 entChild,
     DescendantIx.child 0 0 1
       { loadNode none 0 entParent1 with children_indexes := ([1] : List Nat) }
       (DescendantIx.refl 0) rfl (by decide),
     rfl, rfl⟩

/-! ## C2/C4: step equations for the diff walk -/

theorem currentStep_err {e : DiffEngine}
    {recurse : List Nat → List Nat → Except DiffError (List Patch)}
    {fillFuel : Nat} {acc : List Nat × List Patch} {cix : Nat}
    (hg : e.diffable_arena.get? cix = none) :
    currentStep e recurse fillFuel acc cix
      = .error (.MissingFromArena cix) := by
  rw [currentStep, get_from_arena, hg]
  rfl

theorem currentStep_matched_eq {e : DiffEngine}
    {recurse : List Nat → List Nat → Except DiffError (List Patch)}
    {fillFuel : Nat} {acc : List Nat × List Patch} {cix li : Nat}
    {d dl : Diffable}
    (hg : e.diffable_arena.get? cix = some d)
    (hlk : lookupM e.last_state d.id = some li)
    (hgl : e.diffable_arena.get? li = some dl) :
    currentStep e recurse fillFuel acc cix
      = (recurse d.children_indexes dl.children_indexes) >>= fun sub =>
          pure (li :: acc.1,
            (if d.identity_key ≠ dl.identity_key then
              acc.2 ++ [make_modify_patch d dl] else acc.2) ++ sub) := by
  rw [currentStep, get_from_arena, hg]
  show (match lookupM e.last_state d.id with
    | some last_index =>
      get_from_arena e.diffable_arena last_index >>= fun last_diffable =>
        (recurse d.children_indexes last_diffable.children_indexes) >>= fun sub =>
          pure (last_index :: acc.1,
            (if d.identity_key ≠ last_diffable.identity_key then
              acc.2 ++ [make_modify_patch d last_diffable] else acc.2) ++ sub)
    | none =>
      make_create_patch e.diffable_arena fillFuel d >>= fun node =>
        pure (acc.1, acc.2 ++ [node])) = _
  rw [hlk]
  show (get_from_arena e.diffable_arena li >>= fun last_diffable =>
      (recurse d.children_indexes last_diffable.children_indexes) >>= fun sub =>
        pure (li :: acc.1,
          (if d.identity_key ≠ last_diffable.identity_key then
            acc.2 ++ [make_modify_patch d last_diffable] else acc.2) ++ sub)) = _
  rw [get_from_arena, hgl]
  rfl

theorem currentStep_unmatched_eq {e : DiffEngine}
    {recurse : List Nat → List Nat → Except DiffError (List Patch)}
    {fillFuel : Nat} {acc : List Nat × List Patch} {cix : Nat}
    {d : Diffable}
    (hg : e.diffable_arena.get? cix = some d)
    (hlk : lookupM e.last_state d.id = none) :
    currentStep e recurse fillFuel acc cix
      = (make_create_patch e.diffable_arena fillFuel d) >>= fun node =>
          pure (acc.1, acc.2 ++ [node]) := by
  rw [currentStep, get_from_arena, hg]
  show (match lookupM e.last_state d.id with
    | some last_index =>
      get_from_arena e.diffable_arena last_index >>= fun last_diffable =>
        (recurse d.children_indexes last_diffable.children_indexes) >>= fun sub =>
          pure (last_index :: acc.1,
            (if d.identity_key ≠ last_diffable.identity_key then
              acc.2 ++ [make_modify_patch d last_diffable] else acc.2) ++ sub)
    | none =>
      make_create_patch e.diffable_arena fillFuel d >>= fun node =>
        pure (acc.1, acc.2 ++ [node])) = _
  rw [hlk]

theorem delStep_history {e : DiffEngine} {history : List Nat} {lix : Nat}
    (hh : lix ∈ history) (dels : List Patch) :
    delStep e history dels lix = .ok dels := by
  rw [delStep, if_pos hh]
  rfl

theorem delStep_emit {e : DiffEngine} {history : List Nat} {lix : Nat}
    {d : Diffable}
    (hg : e.diffable_arena.get? lix = some d)
    (hnc : containsM e.current_state d.id = false)
    (hh : lix ∉ history) (dels : List Patch) :
    delStep e history dels lix = .ok (dels ++ [make_delete_patch d]) := by
  rw [delStep, if_neg hh]
  show (get_from_arena e.diffable_arena lix >>= fun last_diffable =>
    if containsM e.current_state last_diffable.id = true then pure dels
    else pure (dels ++ [make_delete_patch last_diffable])) = _
  rw [get_from_arena, hg]
  show (if containsM e.current_state d.id = true
      then (pure dels : Except DiffError (List Patch))
      else pure (dels ++ [make_delete_patch d])) = _
  rw [if_neg (by rw [hnc]; exact fun h => Bool.noConfusion h)]
  rfl

theorem make_create_patch_shape {arena : List Diffable} {fuel : Nat}
    {current : Diffable} {p : Patch}
    (h : make_create_patch arena fuel current = .ok p) :
    ∃ ent par, p = .New ent par := by
  rw [make_create_patch] at h
  rcases hpar : current.parent_index with _ | pp
  · simp only [hpar] at h
    rcases hch : fillChildren arena fuel current.children_indexes with err | ch
    · rw [hch] at h
      exact Except.noConfusion
        (show (Except.error err : Except DiffError Patch) = .ok p from h)
    · rw [hch] at h
      exact ⟨_, _, (Except.ok.inj
        (show Except.ok (.New (current.entity.withChildren ch) none) = .ok p
          from h)).symm⟩
  · simp only [hpar] at h
    rcases hga : arena.get? pp with _ | pd
    · simp only [get_from_arena, hga] at h
      exact Except.noConfusion
        (show (Except.error (DiffError.MissingFromArena pp)
            : Except DiffError Patch) = .ok p from h)
    · simp only [get_from_arena, hga] at h
      rcases hch : fillChildren arena fuel current.children_indexes with err | ch
      · rw [hch] at h
        exact Except.noConfusion
          (show (Except.error err : Except DiffError Patch) = .ok p from h)
      · rw [hch] at h
        exact ⟨_, _, (Except.ok.inj
          (show Except.ok (.New (current.entity.withChildren ch)
              (some (pd.entity.name, pd.entity.role))) = .ok p from h)).symm⟩

/-! ## C2: `diff` never emits a `Modify` with a rename -/

/-- No patch in the list is a `Modify` with `new_name = some _`. -/
def NoRename (ps : List Patch) : Prop :=
  ∀ extras name role ntn nn mods dels,
    Patch.Modify extras name role ntn nn mods dels ∈ ps → nn = none

theorem noRename_nil : NoRename [] := by
  intro extras name role ntn nn mods dels hmem
  cases hmem

theorem noRename_append {ps qs : List Patch} (hp : NoRename ps)
    (hq : NoRename qs) : NoRename (ps ++ qs) := by
  intro extras name role ntn nn mods dels hmem
  rcases List.mem_append.mp hmem with hm | hm
  · exact hp _ _ _ _ _ _ _ hm
  · exact hq _ _ _ _ _ _ _ hm

/-- A matched pair shares its id, hence (by the id/name-key invariants) its
name, so `make_modify_patch` never carries a rename. -/
theorem currentStep_no_rename {e : DiffEngine}
    (hik : IdKeyWf e.diffable_arena)
    (hst : StWf e.diffable_arena e.last_state)
    {recurse : List Nat → List Nat → Except DiffError (List Patch)}
    (hrec : ∀ c l ps, recurse c l = .ok ps → NoRename ps)
    {fillFuel : Nat} {acc : List Nat × List Patch} {cix : Nat}
    {out : List Nat × List Patch}
    (hacc : NoRename acc.2)
    (h : currentStep e recurse fillFuel acc cix = .ok out) :
    NoRename out.2 := by
  rcases hg : e.diffable_arena.get? cix with _ | d
  · rw [currentStep_err hg] at h
    exact Except.noConfusion h
  · rcases hlk : lookupM e.last_state d.id with _ | li
    · rw [currentStep_unmatched_eq hg hlk] at h
      rcases hmcp : make_create_patch e.diffable_arena fillFuel d with err | node
      · rw [hmcp] at h
        exact Except.noConfusion
          (show (Except.error err : Except DiffError (List Nat × List Patch))
            = .ok out from h)
      · rw [hmcp] at h
        have h2 : Except.ok (acc.1, acc.2 ++ [node]) = Except.ok out := h
        rw [← Except.ok.inj h2]
        intro extras name role ntn nn mods dels hmem
        rcases List.mem_append.mp hmem with hm | hm
        · exact hacc _ _ _ _ _ _ _ hm
        · rw [List.mem_singleton] at hm
          obtain ⟨ent, par, hnode⟩ := make_create_patch_shape hmcp
          rw [hnode] at hm
          cases hm
    · obtain ⟨dl0, hgl0, hidl0⟩ := hst _ (lookupM_mem hlk)
      rw [currentStep_matched_eq hg hlk hgl0] at h
      rcases hrc : recurse d.children_indexes dl0.children_indexes
        with err | sub
      · rw [hrc] at h
        exact Except.noConfusion
          (show (Except.error err : Except DiffError (List Nat × List Patch))
            = .ok out from h)
      · rw [hrc] at h
        have h2 : Except.ok (li :: acc.1,
            (if d.identity_key ≠ dl0.identity_key then
              acc.2 ++ [make_modify_patch d dl0] else acc.2) ++ sub)
          = Except.ok out := h
        rw [← Except.ok.inj h2]
        have hnames : d.entity.name = dl0.entity.name := by
          have h3 : d.entity.name_key = dl0.entity.name_key := by
            rw [← hik cix d hg, ← hik li dl0 hgl0, hidl0]
          exact (make_name_key_inj h3).1
        refine noRename_append ?_ (hrec _ _ _ hrc)
        by_cases hident : d.identity_key ≠ dl0.identity_key
        · rw [if_pos hident]
          refine noRename_append hacc ?_
          intro extras name role ntn nn mods dels hmem
          rw [List.mem_singleton] at hmem
          rw [make_modify_patch] at hmem
          injection hmem with e1 e2 e3 e4 e5 e6 e7
          rw [e5, if_neg (fun hc => hc hnames)]
        · rw [if_neg hident]
          exact hacc

theorem foldlM_currentStep_no_rename {e : DiffEngine}
    (hik : IdKeyWf e.diffable_arena)
    (hst : StWf e.diffable_arena e.last_state)
    {recurse : List Nat → List Nat → Except DiffError (List Patch)}
    (hrec : ∀ c l ps, recurse c l = .ok ps → NoRename ps)
    {fillFuel : Nat} :
    ∀ (cur : List Nat) (acc out : List Nat × List Patch),
      NoRename acc.2 →
      cur.foldlM (currentStep e recurse fillFuel) acc = .ok out →
      NoRename out.2 := by
  intro cur
  induction cur with
  | nil =>
    intro acc out hacc h
    rw [List.foldlM_nil] at h
    have h2 : Except.ok acc = Except.ok out := h
    rw [← Except.ok.inj h2]
    exact hacc
  | cons c cs ih =>
    intro acc out hacc h
    rw [List.foldlM_cons] at h
    rcases hcs : currentStep e recurse fillFuel acc c with err | acc1
    · rw [hcs] at h
      exact Except.noConfusion
        (show (Except.error err : Except DiffError (List Nat × List Patch))
          = .ok out from h)
    · rw [hcs] at h
      exact ih acc1 out (currentStep_no_rename hik hst hrec hacc hcs) h

theorem delStep_no_rename {e : DiffEngine} {history : List Nat} {lix : Nat}
    {dels out : List Patch}
    (hdels : NoRename dels)
    (h : delStep e history dels lix = .ok out) : NoRename out := by
  by_cases hh : lix ∈ history
  · rw [delStep_history hh] at h
    rw [← Except.ok.inj h]
    exact hdels
  · rcases hg : e.diffable_arena.get? lix with _ | d
    · rw [delStep, if_neg hh] at h
      have h2 : (Except.error (DiffError.MissingFromArena lix)
          : Except DiffError (List Patch)) = .ok out := by
        rw [← h]
        show _ = (get_from_arena e.diffable_arena lix >>= fun last_diffable =>
          if containsM e.current_state last_diffable.id = true then pure dels
          else pure (dels ++ [make_delete_patch last_diffable]))
        rw [get_from_arena, hg]
        rfl
      exact Except.noConfusion h2
    · rcases hc : containsM e.current_state d.id with _ | _
      · rw [delStep_emit hg hc hh] at h
        rw [← Except.ok.inj h]
        refine noRename_append hdels ?_
        intro extras name role ntn nn mods dels2 hmem
        rw [List.mem_singleton] at hmem
        rw [make_delete_patch] at hmem
        cases hmem
      · rw [delStep_skip (by rw [hg]; simpa using hc) history dels] at h
        rw [← Except.ok.inj h]
        exact hdels

theorem foldlM_delStep_no_rename {e : DiffEngine} {history : List Nat} :
    ∀ (last : List Nat) (dels out : List Patch),
      NoRename dels →
      last.foldlM (delStep e history) dels = .ok out →
      NoRename out := by
  intro last
  induction last with
  | nil =>
    intro dels out hdels h
    rw [List.foldlM_nil] at h
    rw [← Except.ok.inj h]
    exact hdels
  | cons x xs ih =>
    intro dels out hdels h
    rw [List.foldlM_cons] at h
    rcases hx : delStep e history dels x with err | dels1
    · rw [hx] at h
      exact Except.noConfusion
        (show (Except.error err : Except DiffError (List Patch)) = .ok out
          from h)
    · rw [hx] at h
      exact ih dels1 out (delStep_no_rename hdels hx) h

theorem collectPatches_no_rename {e : DiffEngine}
    (hik : IdKeyWf e.diffable_arena)
    (hst : StWf e.diffable_arena e.last_state) :
    ∀ (fuel : Nat) (cur last : List Nat) (ps : List Patch),
      collectPatches e fuel cur last = .ok ps → NoRename ps := by
  intro fuel
  induction fuel with
  | zero =>
    intro cur last ps h
    have h2 : Except.ok ([] : List Patch) = Except.ok ps := h
    rw [← Except.ok.inj h2]
    exact noRename_nil
  | succ fuel ih =>
    intro cur last ps h
    rw [collectPatches] at h
    rcases hacc : cur.foldlM (currentStep e (collectPatches e fuel) fuel)
        ([], []) with err | acc
    · rw [hacc] at h
      exact Except.noConfusion
        (show (Except.error err : Except DiffError (List Patch)) = .ok ps
          from h)
    · rw [hacc] at h
      rcases hdp : deletePass e acc.1 last with err | dels
      · rw [deletePass] at hdp
        have h2 : (Except.error err : Except DiffError (List Patch))
            = .ok ps := by
          rw [← h]
          show _ = (deletePass e acc.1 last >>= fun dels =>
            pure (acc.2 ++ dels))
          rw [deletePass, hdp]
          rfl
        exact Except.noConfusion h2
      · have h2 : (Except.ok (acc.2 ++ dels) : Except DiffError (List Patch))
            = Except.ok ps := by
          rw [← h]
          show _ = (deletePass e acc.1 last >>= fun dels2 =>
            pure (acc.2 ++ dels2))
          rw [hdp]
          rfl
        rw [← Except.ok.inj h2]
        refine noRename_append ?_ ?_
        · exact foldlM_currentStep_no_rename hik hst
            (fun c l ps2 hok => ih c l ps2 hok) cur ([], []) acc
            noRename_nil hacc
        · rw [deletePass] at hdp
          exact foldlM_delStep_no_rename last [] dels noRename_nil hdp

/-- Renaming a single root entity (all other fields equal) diffs to exactly
one `New` plus one `Delete`. -/
theorem rename_single_root (name1 name2 role tn : String)
    (attrs : List (String × String)) (extras : List String)
    (hne : name1 ≠ name2) :
    ((DiffEngine.new.load_last_state
        [.mk name1 role tn attrs extras []]).2.load_current_state
        [.mk name2 role tn attrs extras []]).2.diff
      = .ok [.New (.mk name2 role tn attrs extras []) none,
             .Delete name1 role] := by
  have hk : make_name_key name1 role ≠ make_name_key name2 role :=
    fun he2 => hne (make_name_key_inj he2).1
  have hg1 : ((DiffEngine.new.load_last_state
      [.mk name1 role tn attrs extras []]).2.load_current_state
      [.mk name2 role tn attrs extras []]).2.diffable_arena.get? 1
      = some (loadNode none 1 (.mk name2 role tn attrs extras [])) := rfl
  have hlk1 : lookupM ((DiffEngine.new.load_last_state
      [.mk name1 role tn attrs extras []]).2.load_current_state
      [.mk name2 role tn attrs extras []]).2.last_state
      (loadNode none 1 (.mk name2 role tn attrs extras [])).id = none := by
    show lookupM [(make_name_key name1 role, 0)] (make_name_key name2 role)
      = none
    rw [lookupM_cons, if_neg (fun hc => hk hc)]
    rfl
  have hcs2 : currentStep ((DiffEngine.new.load_last_state
      [.mk name1 role tn attrs extras []]).2.load_current_state
      [.mk name2 role tn attrs extras []]).2
      (collectPatches ((DiffEngine.new.load_last_state
        [.mk name1 role tn attrs extras []]).2.load_current_state
        [.mk name2 role tn attrs extras []]).2 2) 2 ([], []) 1
      = .ok ([], [.New (.mk name2 role tn attrs extras []) none]) := by
    rw [currentStep_unmatched_eq hg1 hlk1]
    rfl
  have hg0 : ((DiffEngine.new.load_last_state
      [.mk name1 role tn attrs extras []]).2.load_current_state
      [.mk name2 role tn attrs extras []]).2.diffable_arena.get? 0
      = some (loadNode none 0 (.mk name1 role tn attrs extras [])) := rfl
  have hnc0 : containsM ((DiffEngine.new.load_last_state
      [.mk name1 role tn attrs extras []]).2.load_current_state
      [.mk name2 role tn attrs extras []]).2.current_state
      (loadNode none 0 (.mk name1 role tn attrs extras [])).id = false := by
    show containsM [(make_name_key name2 role, 1)] (make_name_key name1 role)
      = false
    rw [containsM_cons, if_neg (fun hc => hk hc.symm)]
    rfl
  have hdp : deletePass ((DiffEngine.new.load_last_state
      [.mk name1 role tn attrs extras []]).2.load_current_state
      [.mk name2 role tn attrs extras []]).2 ([] : List Nat) [0]
      = .ok [.Delete name1 role] := by
    rw [deletePass, List.foldlM_cons,
      delStep_emit hg0 hnc0 (List.not_mem_nil 0) []]
    rfl
  rw [DiffEngine.diff]
  show collectPatches ((DiffEngine.new.load_last_state
      [.mk name1 role tn attrs extras []]).2.load_current_state
      [.mk name2 role tn attrs extras []]).2 (2 + 1) [1] [0] = _
  rw [collectPatches, List.foldlM_cons, hcs2]
  show (deletePass ((DiffEngine.new.load_last_state
      [.mk name1 role tn attrs extras []]).2.load_current_state
      [.mk name2 role tn attrs extras []]).2 ([] : List Nat) [0]
    >>= fun dels =>
      pure (([.New (.mk name2 role tn attrs extras []) none] : List Patch)
        ++ dels)) = _
  rw [hdp]
  rfl

/-- C2: renaming an entity surfaces as a `Delete` of the old `(name, role)`
plus a `New` carrying the renamed entity (shown for a single-root snapshot
pair differing only in the name), and `diff` never returns a `Modify` patch
with `new_name = some _` on any reachable engine. -/
theorem c2_rename_is_delete_plus_new :
    (∀ (name1 name2 role tn : String) (attrs : List (String × String))
        (extras : List String), name1 ≠ name2 →
      ((DiffEngine.new.load_last_state
          [.mk name1 role tn attrs extras []]).2.load_current_state
          [.mk name2 role tn attrs extras []]).2.diff
        = .ok [.New (.mk name2 role tn attrs extras []) none,
               .Delete name1 role]) ∧
    (∀ e : DiffEngine, Reachable e → ∀ ps, e.diff = .ok ps →
      ∀ extras name role ntn nn mods dels,
        Patch.Modify extras name role ntn nn mods dels ∈ ps → nn = none) := by
  constructor
  · exact rename_single_root
  · intro e hr ps hdiff extras name role ntn nn mods dels hmem
    have hinv := engineInv_of_reachable hr
    rw [DiffEngine.diff] at hdiff
    exact collectPatches_no_rename hinv.idkey hinv.last _ _ _ _ hdiff
      _ _ _ _ _ _ _ hmem

theorem c2_rename_is_delete_plus_new_witness :
    (((DiffEngine.new.load_last_state
        [.mk "users" "table" "t" [] [] []]).2.load_current_state
        [.mk "new_users" "table" "t" [] [] []]).2.diff
      = .ok [.New (.mk "new_users" "table" "t" [] [] []) none,
             .Delete "users" "table"]) ∧
    (none : Option String) = none :=
  ⟨c2_rename_is_delete_plus_new.1 "users" "new_users" "table" "t" [] []
      (by decide),
   c2_rename_is_delete_plus_new.2
     ((DiffEngine.new.load_last_state
        [.mk "users" "table" "t1" [] [] []]).2.load_current_state
        [.mk "users" "table" "t2" [] [] []]).2
     (Reachable.load_current _ _ (Reachable.load_last _ _ Reachable.new))
     [.Modify [] "users" "table" (some "t2") none [] []] rfl
     [] "users" "table" (some "t2") none [] []
     (List.mem_singleton.mpr rfl)⟩

/-! ## C4: loading an identical forest twice diffs to nothing -/

/-- Shift every arena index stored in a node by `n`. -/
def shiftD (n : Nat) (d : Diffable) : Diffable :=
  { d with index := d.index + n,
           parent_index := (d.parent_index.map (fun p => p + n)),
           children_indexes := (d.children_indexes.map (fun c => c + n)) }

/-- Shift the queued parent indexes by `n`. -/
def shiftQ (n : Nat) (q : List QItem) : List QItem :=
  q.map (fun it => (it.1.map (fun p => p + n), it.2))

/-- Shift the state-map values by `n` (keys untouched). -/
def shiftSt (n : Nat) (st : StateMap) : StateMap :=
  st.map (fun kv => (kv.1, kv.2 + n))

theorem containsM_shiftSt {n : Nat} {st : StateMap} {k : Key} :
    containsM (shiftSt n st) k = containsM st k := by
  induction st with
  | nil => rfl
  | cons p ps ih =>
    rw [shiftSt, List.map_cons, containsM_cons, containsM_cons]
    by_cases hp : p.1 = k
    · rw [if_pos hp, if_pos hp]
    · rw [if_neg hp, if_neg hp]
      exact ih

theorem insertM_shiftSt {n : Nat} {st : StateMap} {k : Key} {v : Nat} :
    insertM (shiftSt n st) k (v + n) = shiftSt n (insertM st k v) := by
  induction st with
  | nil => rfl
  | cons p ps ih =>
    rw [shiftSt, List.map_cons, insertM_cons, insertM_cons]
    by_cases hp : p.1 = k
    · rw [if_pos hp, if_pos hp]
      rfl
    · rw [if_neg hp, if_neg hp]
      show (p.1, p.2 + n) :: insertM (shiftSt n ps) k (v + n)
        = (p.1, p.2 + n) :: shiftSt n (insertM ps k v)
      rw [ih]

theorem shiftQ_nil {n : Nat} : shiftQ n [] = [] := rfl

theorem shiftQ_cons {n : Nat} {it : QItem} {q : List QItem} :
    shiftQ n (it :: q) = (it.1.map (fun p => p + n), it.2) :: shiftQ n q := rfl

theorem shiftQ_append {n : Nat} {q1 q2 : List QItem} :
    shiftQ n (q1 ++ q2) = shiftQ n q1 ++ shiftQ n q2 := List.map_append _ _ _

theorem shiftQ_none {n : Nat} {f : List Entity} :
    shiftQ n (f.map (fun ent => ((none : Option Nat), ent)))
      = f.map (fun ent => ((none : Option Nat), ent)) := by
  rw [shiftQ, List.map_map]
  rfl

theorem shiftD_loadNode {n : Nat} {p : Option Nat} {ix : Nat} {ent : Entity} :
    shiftD n (loadNode p ix ent)
      = loadNode (p.map (fun x => x + n)) (ix + n) ent := by
  cases p <;> rfl

/-- `pushChild` on the shifted suffix mirrors `pushChild` on the original. -/
theorem pushChild_shift (A0 B : List Diffable) (pp cix : Nat)
    (hpp : pp < B.length) :
    pushChild (A0 ++ B.map (shiftD A0.length)) (pp + A0.length)
        (cix + A0.length)
      = A0 ++ (pushChild B pp cix).map (shiftD A0.length) := by
  obtain ⟨pd, hpd⟩ := get?_of_lt hpp
  have hmap : (A0 ++ B.map (shiftD A0.length)).get? (pp + A0.length)
      = some (shiftD A0.length pd) := by
    rw [List.get?_append_right (by omega),
      show pp + A0.length - A0.length = pp from by omega,
      List.get?_map, hpd]
    rfl
  have hval : ({ shiftD A0.length pd with children_indexes :=
        ((shiftD A0.length pd).children_indexes ++ [cix + A0.length]) }
        : Diffable)
      = shiftD A0.length { pd with children_indexes :=
          (pd.children_indexes ++ [cix]) } := by
    rw [shiftD, shiftD]
    simp only [List.map_append]
    rfl
  rw [pushChild_some hmap, pushChild_some hpd,
    List.set_append_right _ _ (by omega),
    show pp + A0.length - A0.length = pp from by omega,
    hval, ← List.map_set]

/-- Loading a queue on top of a base arena `A0` (with fresh state/root
accumulators) mirrors the same load run on the bare accumulators, every
index shifted by `A0.length`. -/
theorem load_state_shift (A0 : List Diffable) :
    ∀ (fuel : Nat) (q : List QItem) (A : List Diffable) (st : StateMap)
      (r : List Nat),
      QParentsValid q A.length →
      load_state fuel (shiftQ A0.length q)
          (A0 ++ A.map (shiftD A0.length))
          (shiftSt A0.length st)
          (r.map (fun i => i + A0.length))
        = ((load_state fuel q A st r).1,
           A0 ++ ((load_state fuel q A st r).2.1).map (shiftD A0.length),
           shiftSt A0.length ((load_state fuel q A st r).2.2.1),
           ((load_state fuel q A st r).2.2.2).map
             (fun i => i + A0.length)) := by
  intro fuel
  induction fuel with
  | zero =>
    intro q A st r _
    rw [load_step_zero, load_step_zero]
  | succ fuel ih =>
    intro q A st r hqpv
    cases q with
    | nil =>
      rw [shiftQ_nil, load_step_nil, load_step_nil]
    | cons it rest =>
      obtain ⟨p, ent⟩ := it
      rw [shiftQ_cons]
      by_cases hc : containsM st ent.name_key = true
      · have hc2 : containsM (shiftSt A0.length st) ent.name_key = true := by
          rw [containsM_shiftSt]
          exact hc
        rw [load_step_dup fuel (p.map (fun x => x + A0.length)) ent
            (shiftQ A0.length rest) _ _ _ hc2,
          load_step_dup fuel p ent rest A st r hc]
      · have hcf : containsM st ent.name_key = false := by
          rcases hh : containsM st ent.name_key
          · rfl
          · exact absurd hh hc
        have hcf2 : containsM (shiftSt A0.length st) ent.name_key
            = false := by
          rw [containsM_shiftSt]
          exact hcf
        have hlen : (A0 ++ A.map (shiftD A0.length)).length
            = A.length + A0.length := by
          rw [List.length_append, List.length_map, Nat.add_comm]
        have e3 : insertM (shiftSt A0.length st) ent.name_key
            (A.length + A0.length)
            = shiftSt A0.length (insertM st ent.name_key A.length) :=
          insertM_shiftSt
        cases p with
        | none =>
          rw [show (Option.map (fun x => x + A0.length) (none : Option Nat))
              = none from rfl]
          rw [load_step_none fuel ent (shiftQ A0.length rest) _ _ _ hcf2,
            load_step_none fuel ent rest A st r hcf]
          have hqpv2 : QParentsValid
              (rest ++ ent.children.map (fun c => (some A.length, c)))
              (A ++ [loadNode none A.length ent]).length := by
            intro it hit pq hpq
            rcases List.mem_append.mp hit with hit | hit
            · refine Nat.lt_of_lt_of_le
                (hqpv it (List.mem_cons_of_mem _ hit) pq hpq) (by simp)
            · rcases List.mem_map.mp hit with ⟨c, _, hcq⟩
              rw [← hcq] at hpq
              have hpq2 : A.length = pq := Option.some.inj hpq
              rw [List.length_append]
              simp only [List.length_singleton]
              omega
          have e1 : (shiftQ A0.length rest)
              ++ ent.children.map (fun c =>
                  ((some (A0 ++ A.map (shiftD A0.length)).length
                    : Option Nat), c))
              = shiftQ A0.length (rest ++ ent.children.map
                  (fun c => ((some A.length : Option Nat), c))) := by
            rw [shiftQ_append]
            congr 1
            rw [shiftQ, List.map_map, hlen]
            rfl
          have e2 : (A0 ++ A.map (shiftD A0.length))
              ++ [loadNode none (A0 ++ A.map (shiftD A0.length)).length ent]
              = A0 ++ ((A ++ [loadNode none A.length ent]).map
                  (shiftD A0.length)) := by
            rw [hlen, List.map_append, ← List.append_assoc]
            congr 1
          have e4 : r.map (fun i => i + A0.length)
              ++ [(A0 ++ A.map (shiftD A0.length)).length]
              = (r ++ [A.length]).map (fun i => i + A0.length) := by
            rw [hlen, List.map_append]
            rfl
          rw [hlen] at e1 e2 e4 ⊢
          rw [e1, e2, e3, e4]
          exact ih (rest ++ ent.children.map (fun c => (some A.length, c)))
            (A ++ [loadNode none A.length ent])
            (insertM st ent.name_key A.length) (r ++ [A.length]) hqpv2
        | some pp =>
          have hpplt : pp < A.length := hqpv (some pp, ent) (by simp) pp rfl
          rw [show (Option.map (fun x => x + A0.length) (some pp))
              = some (pp + A0.length) from rfl]
          rw [load_step_some fuel (pp + A0.length) ent
              (shiftQ A0.length rest) _ _ _ hcf2,
            load_step_some fuel pp ent rest A st r hcf]
          have hqpv2 : QParentsValid
              (rest ++ ent.children.map (fun c => (some A.length, c)))
              (pushChild (A ++ [loadNode (some pp) A.length ent])
                pp A.length).length := by
            intro it hit pq hpq
            rcases List.mem_append.mp hit with hit | hit
            · refine Nat.lt_of_lt_of_le
                (hqpv it (List.mem_cons_of_mem _ hit) pq hpq) ?_
              rw [length_pushChild, List.length_append]
              omega
            · rcases List.mem_map.mp hit with ⟨c, _, hcq⟩
              rw [← hcq] at hpq
              have hpq2 : A.length = pq := Option.some.inj hpq
              rw [length_pushChild, List.length_append]
              simp only [List.length_singleton]
              omega
          have e1 : (shiftQ A0.length rest)
              ++ ent.children.map (fun c =>
                  ((some (A0 ++ A.map (shiftD A0.length)).length
                    : Option Nat), c))
              = shiftQ A0.length (rest ++ ent.children.map
                  (fun c => ((some A.length : Option Nat), c))) := by
            rw [shiftQ_append]
            congr 1
            rw [shiftQ, List.map_map, hlen]
            rfl
          have e2 : pushChild ((A0 ++ A.map (shiftD A0.length))
                ++ [loadNode (some (pp + A0.length))
                    (A0 ++ A.map (shiftD A0.length)).length ent])
                (pp + A0.length) (A0 ++ A.map (shiftD A0.length)).length
              = A0 ++ ((pushChild (A ++ [loadNode (some pp) A.length ent])
                  pp A.length).map (shiftD A0.length)) := by
            rw [hlen]
            have hb : (A0 ++ A.map (shiftD A0.length))
                ++ [loadNode (some (pp + A0.length))
                    (A.length + A0.length) ent]
                = A0 ++ ((A ++ [loadNode (some pp) A.length ent]).map
                    (shiftD A0.length)) := by
              rw [List.map_append, ← List.append_assoc]
              congr 1
            rw [hb]
            exact pushChild_shift A0 (A ++ [loadNode (some pp) A.length ent])
              pp A.length (by rw [List.length_append]; omega)
          rw [hlen] at e1 e2 ⊢
          rw [e1, e2, e3]
          exact ih (rest ++ ent.children.map (fun c => (some A.length, c)))
            (pushChild (A ++ [loadNode (some pp) A.length ent]) pp A.length)
            (insertM st ent.name_key A.length) r hqpv2

@[simp] theorem shiftD_id {n : Nat} {d : Diffable} :
    (shiftD n d).id = d.id := rfl

@[simp] theorem shiftD_identity {n : Nat} {d : Diffable} :
    (shiftD n d).identity_key = d.identity_key := rfl

@[simp] theorem shiftD_children {n : Nat} {d : Diffable} :
    (shiftD n d).children_indexes = d.children_indexes.map (fun c => c + n) :=
  rfl

/-- Every root index a load returns points inside the returned arena. -/
theorem load_state_roots_lt :
    ∀ (fuel : Nat) (q : List QItem) (A : List Diffable) (st : StateMap)
      (r : List Nat), (∀ x ∈ r, x < A.length) →
      ∀ x ∈ (load_state fuel q A st r).2.2.2,
        x < (load_state fuel q A st r).2.1.length := by
  intro fuel
  induction fuel with
  | zero =>
    intro q A st r hr
    rw [load_step_zero]
    exact hr
  | succ fuel ih =>
    intro q A st r hr
    cases q with
    | nil =>
      rw [load_step_nil]
      exact hr
    | cons it rest =>
      obtain ⟨p, ent⟩ := it
      by_cases hc : containsM st ent.name_key = true
      · rw [load_step_dup fuel p ent rest A st r hc]
        exact hr
      · have hcf : containsM st ent.name_key = false := by
          rcases hh : containsM st ent.name_key
          · rfl
          · exact absurd hh hc
        cases p with
        | none =>
          rw [load_step_none fuel ent rest A st r hcf]
          refine ih _ _ _ _ ?_
          intro x hx
          rcases List.mem_append.mp hx with hx | hx
          · have := hr x hx
            rw [List.length_append]
            omega
          · rw [List.mem_singleton] at hx
            rw [hx, List.length_append]
            simp only [List.length_singleton]
            omega
        | some pp =>
          rw [load_step_some fuel pp ent rest A st r hcf]
          refine ih _ _ _ _ ?_
          intro x hx
          have := hr x hx
          rw [length_pushChild, List.length_append]
          omega

/-- Walking a shifted copy of a level against the originals matches every
node (same id, same identity key) and emits nothing; the delete pass then
skips everything via the match history. -/
theorem collectPatches_mirror (e : DiffEngine) (n : Nat)
    (hfacts : ∀ i, i < n →
      ∃ d1, e.diffable_arena.get? i = some d1 ∧
        e.diffable_arena.get? (i + n) = some (shiftD n d1) ∧
        lookupM e.last_state d1.id = some i ∧
        (∀ c ∈ d1.children_indexes, i < c ∧ c < n)) :
    ∀ (fuel : Nat) (l : List Nat), (∀ i ∈ l, i < n ∧ n - i < fuel) →
      collectPatches e fuel (l.map (fun i => i + n)) l = .ok [] := by
  intro fuel
  induction fuel with
  | zero =>
    intro l _
    rfl
  | succ fuel ih =>
    intro l hl
    rw [collectPatches]
    have hfold : ∀ (ll : List Nat), (∀ i ∈ ll, i < n ∧ n - i < fuel + 1) →
        ∀ (acc : List Nat × List Patch),
        (ll.map (fun i => i + n)).foldlM
            (currentStep e (collectPatches e fuel) fuel) acc
          = .ok (ll.reverse ++ acc.1, acc.2) := by
      intro ll
      induction ll with
      | nil =>
        intro _ acc
        rw [List.map_nil, List.foldlM_nil]
        rfl
      | cons i is ihl =>
        intro hll acc
        obtain ⟨hin, hif⟩ := hll i (List.mem_cons_self _ _)
        obtain ⟨d1, hg1, hg2, hlk, hch⟩ := hfacts i hin
        rw [List.map_cons, List.foldlM_cons]
        rw [currentStep_matched_eq hg2 hlk hg1]
        have hsub : collectPatches e fuel
            ((shiftD n d1).children_indexes) d1.children_indexes
            = .ok [] := by
          exact ih d1.children_indexes (fun c hc =>
            ⟨(hch c hc).2, by
              obtain ⟨h1, h2⟩ := hch c hc
              omega⟩)
        rw [hsub, if_neg (fun hne => hne rfl)]
        show (is.map (fun i => i + n)).foldlM
            (currentStep e (collectPatches e fuel) fuel)
            (i :: acc.1, acc.2 ++ []) = .ok ((i :: is).reverse ++ acc.1, acc.2)
        rw [List.append_nil,
          ihl (fun j hj => hll j (List.mem_cons_of_mem _ hj)) (i :: acc.1, acc.2),
          List.reverse_cons, List.append_assoc]
        rfl
    rw [hfold l hl ([], [])]
    have hdp : deletePass e (l.reverse ++ []) l = .ok [] := by
      rw [deletePass]
      have hskip : ∀ (ll : List Nat), (∀ x ∈ ll, x ∈ l.reverse ++ []) →
          ∀ dels, ll.foldlM (delStep e (l.reverse ++ [])) dels = .ok dels := by
        intro ll
        induction ll with
        | nil =>
          intro _ dels
          rw [List.foldlM_nil]
          rfl
        | cons x xs ihx =>
          intro hx dels
          rw [List.foldlM_cons,
            delStep_history (hx x (List.mem_cons_self _ _)) dels]
          exact ihx (fun y hy => hx y (List.mem_cons_of_mem _ hy)) dels
      exact hskip l (fun x hx => by
        rw [List.append_nil]
        exact List.mem_reverse.mpr hx) []
    show (deletePass e (l.reverse ++ []) l >>= fun dels =>
      pure (([] : List Patch) ++ dels)) = .ok []
    rw [hdp]
    rfl

/-- C4: loading a forest into the last snapshot and an identical copy into
the current snapshot of a fresh engine makes `diff` return `Ok []`: the
second load is an index-shifted mirror of the first, every current node
matches its twin with an equal identity key, and the delete pass skips the
whole match history. -/
theorem c4_identical_forests_diff_empty (ents : List Entity)
    (hwf : WfForest ents) :
    ((DiffEngine.new.load_last_state ents).2.load_current_state ents).2.diff
      = .ok [] := by
  clear hwf
  have h := load_state_shift
    (load_state (queueSize (ents.map (fun n => (none, n))))
      (ents.map (fun n => (none, n))) [] [] []).2.1
    (queueSize (ents.map (fun n => (none, n))))
    (ents.map (fun n => (none, n))) [] [] [] (qpv_none ents 0)
  rw [shiftQ_none,
    show (load_state (queueSize (ents.map (fun n => (none, n))))
        (ents.map (fun n => (none, n))) [] [] []).2.1
      ++ List.map (shiftD (load_state (queueSize (ents.map (fun n => (none, n))))
        (ents.map (fun n => (none, n))) [] [] []).2.1.length) []
      = (load_state (queueSize (ents.map (fun n => (none, n))))
        (ents.map (fun n => (none, n))) [] [] []).2.1
      from by rw [List.map_nil, List.append_nil],
    show shiftSt (load_state (queueSize (ents.map (fun n => (none, n))))
        (ents.map (fun n => (none, n))) [] [] []).2.1.length ([] : StateMap)
      = [] from rfl,
    show List.map (fun i => i + (load_state
        (queueSize (ents.map (fun n => (none, n))))
        (ents.map (fun n => (none, n))) [] [] []).2.1.length) ([] : List Nat)
      = [] from rfl] at h
  have hinv1 : EngineInv (DiffEngine.new.load_last_state ents).2 :=
    engineInv_of_reachable (Reachable.load_last _ _ Reachable.new)
  have hreg := load_state_registers
    (queueSize (ents.map (fun n => (none, n))))
    (ents.map (fun n => (none, n))) [] [] [] (qpv_none ents 0)
  have hroots := load_state_roots_lt
    (queueSize (ents.map (fun n => (none, n))))
    (ents.map (fun n => (none, n))) [] [] []
    (fun x hx => absurd hx (List.not_mem_nil x))
  have hA2 : ((DiffEngine.new.load_last_state ents).2.load_current_state
        ents).2.diffable_arena
      = (load_state (queueSize (ents.map (fun n => (none, n))))
          (ents.map (fun n => (none, n))) [] [] []).2.1
        ++ (load_state (queueSize (ents.map (fun n => (none, n))))
          (ents.map (fun n => (none, n))) [] [] []).2.1.map
          (shiftD (load_state (queueSize (ents.map (fun n => (none, n))))
            (ents.map (fun n => (none, n))) [] [] []).2.1.length) := by
    show (load_state (queueSize (ents.map (fun n => (none, n))))
        (ents.map (fun n => (none, n)))
        (load_state (queueSize (ents.map (fun n => (none, n))))
          (ents.map (fun n => (none, n))) [] [] []).2.1 [] []).2.1 = _
    rw [h]
  have hcroots : ((DiffEngine.new.load_last_state ents).2.load_current_state
        ents).2.current_root_indexes
      = (load_state (queueSize (ents.map (fun n => (none, n))))
          (ents.map (fun n => (none, n))) [] [] []).2.2.2.map
          (fun i => i + (load_state (queueSize (ents.map (fun n => (none, n))))
            (ents.map (fun n => (none, n))) [] [] []).2.1.length) := by
    show (load_state (queueSize (ents.map (fun n => (none, n))))
        (ents.map (fun n => (none, n)))
        (load_state (queueSize (ents.map (fun n => (none, n))))
          (ents.map (fun n => (none, n))) [] [] []).2.1 [] []).2.2.2 = _
    rw [h]
  have hfacts : ∀ i, i < (load_state (queueSize (ents.map (fun n => (none, n))))
        (ents.map (fun n => (none, n))) [] [] []).2.1.length →
      ∃ d1, ((DiffEngine.new.load_last_state ents).2.load_current_state
          ents).2.diffable_arena.get? i = some d1 ∧
        ((DiffEngine.new.load_last_state ents).2.load_current_state
          ents).2.diffable_arena.get?
          (i + (load_state (queueSize (ents.map (fun n => (none, n))))
            (ents.map (fun n => (none, n))) [] [] []).2.1.length)
          = some (shiftD (load_state (queueSize (ents.map (fun n => (none, n))))
            (ents.map (fun n => (none, n))) [] [] []).2.1.length d1) ∧
        lookupM ((DiffEngine.new.load_last_state ents).2.load_current_state
          ents).2.last_state d1.id = some i ∧
        (∀ c ∈ d1.children_indexes,
          i < c ∧ c < (load_state (queueSize (ents.map (fun n => (none, n))))
            (ents.map (fun n => (none, n))) [] [] []).2.1.length) := by
    intro i hi
    obtain ⟨d1, hd1⟩ := get?_of_lt hi
    refine ⟨d1, ?_, ?_, ?_, ?_⟩
    · rw [hA2, List.get?_append hi]
      exact hd1
    · rw [hA2, List.get?_append_right (by omega),
        show i + (load_state (queueSize (ents.map (fun n => (none, n))))
            (ents.map (fun n => (none, n))) [] [] []).2.1.length
          - (load_state (queueSize (ents.map (fun n => (none, n))))
            (ents.map (fun n => (none, n))) [] [] []).2.1.length = i
          from by omega,
        List.get?_map, hd1]
      rfl
    · exact (hreg i d1 (Nat.zero_le i) hd1).1
    · intro c hc
      have hw := hinv1.arena i d1 hd1
      exact ⟨(hw.2.2.2 c hc).1, (hw.2.2.2 c hc).2.1⟩
  rw [DiffEngine.diff]
  have hlen2 : ((DiffEngine.new.load_last_state ents).2.load_current_state
        ents).2.diffable_arena.length
      = (load_state (queueSize (ents.map (fun n => (none, n))))
          (ents.map (fun n => (none, n))) [] [] []).2.1.length
        + (load_state (queueSize (ents.map (fun n => (none, n))))
          (ents.map (fun n => (none, n))) [] [] []).2.1.length := by
    rw [hA2, List.length_append, List.length_map]
  rw [hlen2, hcroots]
  exact collectPatches_mirror _ _ hfacts _
    (load_state (queueSize (ents.map (fun n => (none, n))))
      (ents.map (fun n => (none, n))) [] [] []).2.2.2
    (fun i hil => ⟨hroots i hil, by have := hroots i hil; omega⟩)

theorem c4_identical_forests_diff_empty_witness :
    WfForest [entParent1] ∧
    ((DiffEngine.new.load_last_state [entParent1]).2.load_current_state
        [entParent1]).2.diff = .ok [] :=
  ⟨by show (entityListKeys [entParent1]).Nodup; decide,
   c4_identical_forests_diff_empty [entParent1]
     (by show (entityListKeys [entParent1]).Nodup; decide)⟩

end Uxar
